import Mathlib

/-!
The circular byte buffer of `lib/cbuf`.

A shallow embedding of `lib/cbuf/cbuf.c` and `lib/cbuf/include/lib/cbuf.h`.

Machine model.  The fields of `cbuf_t` are `uint` (32 bits); `size_t` is 64 bits
wide and `int` 32 bits.  Every value is a natural number, and each C operation
that can leave the range of its type is written with its wrap-around:
`usub` is the subtraction of two `uint`, a `size_t` sum or difference is taken
modulo `SIZE_MOD`, a store of a `size_t` into a `uint` field is taken modulo
`UINT_MOD`.

Memory.  A byte region is a function from byte offsets to byte values.  The
pointer `p + k` into a region `m` is the region `fun i => m (k + i)`.

The spin lock changes no data and is not represented.  The event is its
`signaled` bit.  The cache maintenance calls are recorded, in call order, in the
field `cache`.
-/

set_option linter.unusedVariables false

namespace Cbuf

/-! ## The embedding of the source -/

/-- A byte region: offset to byte value. -/
abbrev Mem := Nat → Nat

/-- Number of values of a `uint`. -/
def UINT_MOD : Nat := 2 ^ 32

/-- Number of values of a `size_t`. -/
def SIZE_MOD : Nat := 2 ^ 64

/-- Subtraction of two `uint` values, as the C operator `-` computes it. -/
def usub (a b : Nat) : Nat := (a % UINT_MOD + UINT_MOD - b % UINT_MOD) % UINT_MOD

/-- Subtraction of two `size_t` values, as the C operator `-` computes it. -/
def ssub (a b : Nat) : Nat := (a % SIZE_MOD + SIZE_MOD - b % SIZE_MOD) % SIZE_MOD

/-- The region `memset(m + off, v, n)` leaves behind. -/
def memset (m : Mem) (off v n : Nat) : Mem :=
  fun i => if off ≤ i ∧ i < off + n then v else m i

/-- The region `memcpy(dst + doff, src + soff, n)` leaves behind. -/
def memcpy (dst : Mem) (doff : Nat) (src : Mem) (soff n : Nat) : Mem :=
  fun i => if doff ≤ i ∧ i < doff + n then src (soff + (i - doff)) else dst i

/-- The region seen through the pointer `m + k`. -/
def shift (m : Mem) (k : Nat) : Mem := fun i => m (k + i)

/-- The region `m` after the part seen through `m + k` has become `v`. -/
def unshift (m : Mem) (k : Nat) (v : Mem) : Mem :=
  fun i => if i < k then m i else v (i - k)

/-- The `n` bytes of `m` from offset `off` on. -/
def bytes (m : Mem) (off n : Nat) : List Nat := (List.range n).map (fun k => m (off + k))

/-- A cache maintenance call on the backing buffer: byte offset and length. -/
inductive CacheOp where
  | clean_invalidate (off len : Nat)
  | invalidate (off len : Nat)
  deriving DecidableEq, Repr

/-- The structure `cbuf_t`.  `event` is the signaled bit of the event, `cache`
the cache maintenance calls made so far. -/
structure cbuf_t where
  head : Nat
  tail : Nat
  len_max : Nat
  len : Nat
  len_pow2 : Nat
  buf : Mem
  event : Bool
  no_event : Bool
  is_reset : Bool
  flags : Nat
  cache : List CacheOp

def CBUF_FLAG_NO_EVENT : Nat := 1

def CBUF_FLAG_IS_RESET : Nat := 2

def CBUF_FLAG_SW_IS_WRITER : Nat := 4

def CBUF_FLAG_SW_IS_READER : Nat := 8

def CBUF_FLAG_BUF_IS_CACHEABLE : Nat := 16

def CBUF_FLAG_USE_MAX_CHUNK_R : Nat := 32

def CBUF_FLAG_USE_MAX_CHUNK_W : Nat := 64

def CBUF_FLAG_USE_MAX_CHUNK_RW : Nat := CBUF_FLAG_USE_MAX_CHUNK_R ||| CBUF_FLAG_USE_MAX_CHUNK_W

def CBUF_READ_MAX_CHUNK : Nat := 16384

def CBUF_WRITE_MAX_CHUNK : Nat := 16384

def CBUF_FLAG_DEFAULT : Nat :=
  CBUF_FLAG_SW_IS_WRITER ||| CBUF_FLAG_SW_IS_READER ||| CBUF_FLAG_BUF_IS_CACHEABLE

def cbuf_reader_use_max_chunk (c : cbuf_t) : Bool := c.flags &&& CBUF_FLAG_USE_MAX_CHUNK_R != 0

def cbuf_writer_use_max_chunk (c : cbuf_t) : Bool := c.flags &&& CBUF_FLAG_USE_MAX_CHUNK_W != 0

def cbuf_is_no_event (c : cbuf_t) : Bool := c.flags &&& CBUF_FLAG_NO_EVENT != 0

def cbuf_is_reset (c : cbuf_t) : Bool := c.flags &&& CBUF_FLAG_IS_RESET != 0

def cbuf_is_sw_writer (c : cbuf_t) : Bool := c.flags &&& CBUF_FLAG_SW_IS_WRITER != 0

def cbuf_is_sw_reader (c : cbuf_t) : Bool := c.flags &&& CBUF_FLAG_SW_IS_READER != 0

def cbuf_is_hw_writer (c : cbuf_t) : Bool := !cbuf_is_sw_writer c

def cbuf_is_hw_reader (c : cbuf_t) : Bool := !cbuf_is_sw_reader c

def cbuf_is_cacheable (c : cbuf_t) : Bool := c.flags &&& CBUF_FLAG_BUF_IS_CACHEABLE != 0

/-- The function `cbuf_change_flag`; `~flag` is the complement in 32 bits. -/
def cbuf_change_flag (c : cbuf_t) (flag : Nat) (set : Bool) : cbuf_t :=
  if set then { c with flags := c.flags ||| flag }
  else { c with flags := c.flags &&& ((UINT_MOD - 1) ^^^ flag) }

def cbuf_set_flag (c : cbuf_t) (flag : Nat) : cbuf_t := cbuf_change_flag c flag true

def cbuf_clear_flag (c : cbuf_t) (flag : Nat) : cbuf_t := cbuf_change_flag c flag false

/-- Modelled from the spec: `log2_uint` of `<pow2.h>`, which is not among the
sources.  The spec calls `len_pow2` "the base-2 logarithm" of `len`; this is the
position of the highest set bit of a 32-bit value, and 0 for 0. -/
def log2_uint (val : Nat) : Nat := ((List.range 32).filter (fun k => 2 ^ k ≤ val)).length - 1

/-- Modelled from the spec: `ispow2` of `<pow2.h>`, which is not among the
sources: "if `len` is a power of two". -/
def ispow2 (val : Nat) : Bool := decide (2 ^ log2_uint val = val)

/-- Modelled from the spec: `valpow2` of `<pow2.h>`, which is not among the
sources: the value `2^len_pow2`. -/
def valpow2 (valp2 : Nat) : Nat := 2 ^ valp2

/-- Modelled from the spec: `modpow2` of `<pow2.h>`, which is not among the
sources: "bitmask operations on `2^len_pow2 − 1`". -/
def modpow2 (val modp2 : Nat) : Nat := val &&& (2 ^ modp2 - 1)

/-- The macro `INC_POINTER`.  `m` is the number of values of the type in which
the sum `ptr + inc` is computed: `SIZE_MOD` where `inc` is a `size_t`,
`UINT_MOD` where it is the constant 1.  `modpow2` takes a `uint`. -/
def INC_POINTER (c : cbuf_t) (m ptr inc : Nat) : Nat :=
  if c.len_pow2 ≠ 0 then modpow2 (((ptr + inc) % m) % UINT_MOD) c.len_pow2
  else ((ptr + inc) % m) % c.len

/-- The macro `DEC_POINTER`; its only use has a `size_t` for `inc`, so the
difference is computed in `size_t`. -/
def DEC_POINTER (c : cbuf_t) (ptr inc : Nat) : Nat :=
  if c.len_pow2 ≠ 0 then modpow2 (ssub ptr inc % UINT_MOD) c.len_pow2
  else ssub ptr inc % c.len

/-- The function `_cbuf_set_size`; `len` is a `size_t` stored into `uint`s. -/
def _cbuf_set_size (c : cbuf_t) (len : Nat) : cbuf_t :=
  let c1 := { c with len_pow2 := 0, len := len % UINT_MOD }
  if ispow2 (len % UINT_MOD) then { c1 with len_pow2 := log2_uint (len % UINT_MOD) } else c1

/-- The function `cbuf_initialize_etc`: every field is set; the event starts
unsignaled and no cache maintenance call has been made. -/
def cbuf_initialize_etc (len : Nat) (buf : Mem) : cbuf_t :=
  let c : cbuf_t :=
    { head := 0, tail := 0, len_max := len % UINT_MOD, len := 0, len_pow2 := 0, buf := buf,
      event := false, no_event := false, is_reset := false, flags := 0, cache := [] }
  let c := _cbuf_set_size c len
  { c with buf := buf, no_event := false, is_reset := false, flags := CBUF_FLAG_DEFAULT,
           event := false }

/-- The function `cbuf_adjust_size`. -/
def cbuf_adjust_size (c : cbuf_t) (len : Nat) : cbuf_t :=
  _cbuf_set_size { c with head := 0, tail := 0 } len

/-- The function `cbuf_space_avail`. -/
def cbuf_space_avail (c : cbuf_t) : Nat :=
  if c.len_pow2 ≠ 0 then
    let consumed := modpow2 (usub c.head c.tail) c.len_pow2
    usub (usub (valpow2 c.len_pow2) consumed) 1
  else
    let consumed := usub c.head c.tail % c.len
    usub (usub c.len consumed) 1

/-- The function `cbuf_space_used`. -/
def cbuf_space_used (c : cbuf_t) : Nat :=
  if c.len_pow2 ≠ 0 then modpow2 (usub c.head c.tail) c.len_pow2
  else usub c.head c.tail % c.len

/-- The function `cbuf_size`. -/
def cbuf_size (c : cbuf_t) : Nat := c.len

/-- The function `cbuf_get_contiguous_space`.  It is called with `pos < len`,
so the `size_t` difference `len - pos` does not wrap. -/
def cbuf_get_contiguous_space (c : cbuf_t) (len pos : Nat) : Nat :=
  if c.head ≥ c.tail then
    if c.tail = 0 then min (usub (usub c.len c.head) 1) (len - pos)
    else min (usub c.len c.head) (len - pos)
  else min (usub (usub c.tail c.head) 1) (len - pos)

/-- One pass of the loop of `cbuf_write_wo_lock` that found `write_len ≠ 0`:
the fill or copy, the cache maintenance, the advance of `head`. -/
def write_pass (c : cbuf_t) (buf : Option Mem) (enable : Bool) (pos write_len : Nat) : cbuf_t :=
  let c1 : cbuf_t :=
    match buf with
    | none =>
      if c.is_reset = false ∧ enable = true then
        { c with buf := memset c.buf c.head 0 write_len }
      else c
    | some src =>
      let c0 : cbuf_t :=
        if enable = true then { c with buf := memcpy c.buf c.head src pos write_len } else c
      { c0 with is_reset := false }
  let c2 : cbuf_t :=
    if cbuf_is_cacheable c1 = true ∧ cbuf_is_hw_reader c1 = true then
      { c1 with cache := c1.cache ++ [CacheOp.clean_invalidate c1.head write_len] }
    else c1
  { c2 with head := INC_POINTER c2 SIZE_MOD c2.head write_len }

/-- The loop of `cbuf_write_wo_lock`.  Every pass that does not leave the loop
raises `pos` by at least 1 and needs `pos < len`, so `len - pos` passes are all
the loop can make; the first argument counts the passes left. -/
def write_loop (buf : Option Mem) (len : Nat) (enable : Bool) : Nat → cbuf_t → Nat → cbuf_t × Nat
  | 0, c, pos => (c, pos)
  | fuel + 1, c, pos =>
    if pos < len ∧ cbuf_space_avail c > 0 then
      let write_len := cbuf_get_contiguous_space c len pos
      if write_len = 0 then (c, pos)
      else write_loop buf len enable fuel (write_pass c buf enable pos write_len) (pos + write_len)
    else (c, pos)

/-- The function `cbuf_write_wo_lock`: the ring afterwards and the count. -/
def cbuf_write_wo_lock (c : cbuf_t) (buf : Option Mem) (len : Nat) (canreschedule : Bool) :
    cbuf_t × Nat :=
  let enable := cbuf_is_sw_writer c
  let r := write_loop buf len enable len c 0
  let c1 := r.1
  let c2 : cbuf_t := if c1.no_event = false ∧ c1.head ≠ c1.tail then { c1 with event := true } else c1
  (c2, r.2)

/-- The chunk loop of `cbuf_write`, `loop` passes left. -/
def write_chunks (canreschedule : Bool) : Nat → cbuf_t → Mem → Nat → Nat → cbuf_t × Nat
  | 0, c, _, _, pos => (c, pos)
  | loop + 1, c, buf, remaining, pos =>
    let r := cbuf_write_wo_lock c (some buf)
      (if remaining > CBUF_WRITE_MAX_CHUNK then CBUF_WRITE_MAX_CHUNK else remaining) canreschedule
    let written := r.2
    if written = 0 then (r.1, pos)
    else write_chunks canreschedule loop r.1 (shift buf written) (remaining - written) (pos + written)

/-- The passes a `while (loop--)` makes on the `int` counter that was set from
the `size_t` count `len`. -/
def chunk_count (len chunk : Nat) : Nat :=
  (len / chunk % UINT_MOD + (if len % chunk ≠ 0 then 1 else 0)) % UINT_MOD

/-- The function `cbuf_write`: the ring afterwards and the count.
`thread_preempt` changes nothing of the ring. -/
def cbuf_write (c : cbuf_t) (buf : Option Mem) (len : Nat) (canreschedule : Bool) : cbuf_t × Nat :=
  match buf with
  | none => cbuf_write_wo_lock c none len canreschedule
  | some src =>
    if cbuf_writer_use_max_chunk c = false then cbuf_write_wo_lock c (some src) len canreschedule
    else write_chunks canreschedule (chunk_count len CBUF_WRITE_MAX_CHUNK) c src len 0

/-- The function `cbuf_get_contiguous_used`; called with `pos < buflen`. -/
def cbuf_get_contiguous_used (c : cbuf_t) (buflen pos : Nat) : Nat :=
  if c.head > c.tail then min (usub c.head c.tail) (buflen - pos)
  else min (usub c.len c.tail) (buflen - pos)

/-- One pass of the loop of `cbuf_read_wo_lock`: the ring afterwards and the
caller's buffer afterwards. -/
def read_pass (c : cbuf_t) (buf : Option Mem) (enable : Bool) (pos read_len : Nat) :
    cbuf_t × Option Mem :=
  let c1 : cbuf_t :=
    if cbuf_is_cacheable c = true ∧ cbuf_is_hw_writer c = true then
      { c with cache := c.cache ++ [CacheOp.invalidate c.tail read_len] }
    else c
  let buf1 : Option Mem :=
    match buf with
    | none => none
    | some dst => if enable = true then some (memcpy dst pos c1.buf c1.tail read_len) else some dst
  ({ c1 with tail := INC_POINTER c1 SIZE_MOD c1.tail read_len }, buf1)

/-- The loop of `cbuf_read_wo_lock`.  With `tail < len` every pass raises `pos`
by at least 1 and needs `pos < buflen`, so `buflen - pos` passes are all the
loop can make; the first argument counts the passes left. -/
def read_loop (buflen : Nat) (enable : Bool) :
    Nat → cbuf_t → Option Mem → Nat → cbuf_t × Option Mem × Nat
  | 0, c, buf, pos => (c, buf, pos)
  | fuel + 1, c, buf, pos =>
    if pos < buflen ∧ c.tail ≠ c.head then
      let read_len := cbuf_get_contiguous_used c buflen pos
      let r := read_pass c buf enable pos read_len
      read_loop buflen enable fuel r.1 r.2 (pos + read_len)
    else (c, buf, pos)

/-- The function `cbuf_read_wo_lock`: the ring afterwards, the caller's buffer
afterwards and the count. -/
def cbuf_read_wo_lock (c : cbuf_t) (buf : Option Mem) (buflen : Nat) (block : Bool) :
    cbuf_t × Option Mem × Nat :=
  let enable := cbuf_is_sw_reader c
  if c.tail ≠ c.head then
    let r := read_loop buflen enable buflen c buf 0
    let c1 := r.1
    let c2 : cbuf_t :=
      if c1.no_event = false ∧ c1.tail = c1.head then { c1 with event := false } else c1
    (c2, r.2.1, r.2.2)
  else (c, buf, 0)

/-- The chunk loop of `cbuf_read`, `loop` passes left.  `buf += read` moves the
pointer into the caller's buffer. -/
def read_chunks (block : Bool) : Nat → cbuf_t → Mem → Nat → Nat → cbuf_t × Mem × Nat
  | 0, c, buf, _, ret => (c, buf, ret)
  | loop + 1, c, buf, remaining, ret =>
    let r := cbuf_read_wo_lock c (some (shift buf ret))
      (if remaining > CBUF_READ_MAX_CHUNK then CBUF_READ_MAX_CHUNK else remaining) block
    let read := r.2.2
    let buf1 : Mem := match r.2.1 with
      | some v => unshift buf ret v
      | none => buf
    if read = 0 then (r.1, buf1, ret)
    else read_chunks block loop r.1 buf1 (remaining - read) (ret + read)

/-- One attempt of `cbuf_read`, from after the wait to the label `out`. -/
def cbuf_read_attempt (c : cbuf_t) (buf : Option Mem) (buflen : Nat) (block : Bool) :
    cbuf_t × Option Mem × Nat :=
  match buf with
  | none => cbuf_read_wo_lock c none buflen block
  | some dst =>
    if cbuf_reader_use_max_chunk c = false then cbuf_read_wo_lock c (some dst) buflen block
    else
      let r := read_chunks block (chunk_count buflen CBUF_READ_MAX_CHUNK) c dst buflen 0
      (r.1, some r.2.1, r.2.2)

/-- The function `cbuf_read` with no other thread running: the ring afterwards,
the caller's buffer afterwards and the count, or `none` when the call does not
return.  A blocking call waits on the event; unsignaled, it waits for ever.  An
attempt that read nothing changed nothing, so the retry of a blocking call
repeats it for ever. -/
def cbuf_read (c : cbuf_t) (buf : Option Mem) (buflen : Nat) (block : Bool) :
    Option (cbuf_t × Option Mem × Nat) :=
  if c.no_event = false ∧ block = true ∧ c.event = false then none
  else
    let r := cbuf_read_attempt c buf buflen block
    if block = true ∧ r.2.2 = 0 then none else some r

/-- The function `cbuf_trash`. -/
def cbuf_trash (c : cbuf_t) (len : Nat) : cbuf_t :=
  if cbuf_is_sw_writer c = true ∧ cbuf_is_sw_reader c = true then c
  else
    let c1 := { c with head := INC_POINTER c SIZE_MOD c.head len }
    { c1 with tail := INC_POINTER c1 SIZE_MOD c1.tail len }

/-- The function `cbuf_skip`. -/
def cbuf_skip (c : cbuf_t) (is_write : Bool) (len : Nat) : cbuf_t :=
  if is_write = true then { c with head := INC_POINTER c SIZE_MOD c.head len }
  else { c with tail := INC_POINTER c SIZE_MOD c.tail len }

/-- The function `cbuf_rewind`: the ring afterwards and the count. -/
def cbuf_rewind (c : cbuf_t) : cbuf_t × Nat :=
  ({ c with head := c.tail }, cbuf_space_used c)

/-- The function `cbuf_rewind_len`: the ring afterwards and the count. -/
def cbuf_rewind_len (c : cbuf_t) (len : Nat) : cbuf_t × Nat :=
  let max := cbuf_space_used c
  let len := if len > max then max else len
  ({ c with head := DEC_POINTER c c.head len }, len)

/-- An `iovec_t` over the backing buffer: `iov_base` is the byte offset into
`buf`, or `none` for `NULL`. -/
structure iovec_t where
  iov_base : Option Nat
  iov_len : Nat
  deriving DecidableEq, Repr

/-- The function `cbuf_peek`: the two regions and the count; the ring is not
changed. -/
def cbuf_peek (c : cbuf_t) : (iovec_t × iovec_t) × Nat :=
  let ret := cbuf_space_used c
  let sz := cbuf_size c
  let base0 : Option Nat := if ret ≠ 0 then some c.tail else none
  if ret + c.tail > sz then
    let len0 := ssub sz c.tail
    ((⟨base0, len0⟩, ⟨some 0, ssub ret len0⟩), ret)
  else ((⟨base0, ret⟩, ⟨none, 0⟩), ret)

/-- The function `cbuf_write_char`: the ring afterwards and the count. -/
def cbuf_write_char (c : cbuf_t) (ch : Nat) (canreschedule : Bool) : cbuf_t × Nat :=
  if cbuf_space_avail c > 0 then
    let c1 := { c with buf := fun i => if i = c.head then ch else c.buf i }
    let c2 := { c1 with head := INC_POINTER c1 UINT_MOD c1.head 1 }
    let c3 : cbuf_t := if c2.no_event = false ∧ c2.head ≠ c2.tail then { c2 with event := true } else c2
    (c3, 1)
  else (c, 0)

/-- One attempt of `cbuf_read_char`, under the lock: the ring afterwards, the
byte behind the pointer `c` afterwards (`ch` before) and the count. -/
def cbuf_read_char_attempt (c : cbuf_t) (ch : Nat) : cbuf_t × Nat × Nat :=
  if c.tail ≠ c.head then
    let ch1 := c.buf c.tail
    let c1 := { c with tail := INC_POINTER c UINT_MOD c.tail 1 }
    let c2 : cbuf_t :=
      if c1.no_event = false ∧ c1.tail = c1.head then { c1 with event := false } else c1
    (c2, ch1, 1)
  else (c, ch, 0)

/-- The function `cbuf_read_char` with no other thread running, `none` when
the call does not return (see `cbuf_read`). -/
def cbuf_read_char (c : cbuf_t) (ch : Nat) (block : Bool) : Option (cbuf_t × Nat × Nat) :=
  if c.no_event = false ∧ block = true ∧ c.event = false then none
  else
    let r := cbuf_read_char_attempt c ch
    if block = true ∧ r.2.2 = 0 then none else some r

/-- The function `cbuf_reset`: a non-blocking call of `cbuf_read`, which
returns. -/
def cbuf_reset (c : cbuf_t) : cbuf_t :=
  match cbuf_read c none (cbuf_size c) false with
  | some r => r.1
  | none => c

/-- The function `cbuf_reset_indexes`. -/
def cbuf_reset_indexes (c : cbuf_t) : cbuf_t :=
  let c1 := cbuf_reset c
  { c1 with head := 0, tail := 0 }

/-- The function `cbuf_reset_with_zero`. -/
def cbuf_reset_with_zero (c : cbuf_t) : cbuf_t :=
  let c1 := { c with buf := memset c.buf 0 0 (cbuf_size c) }
  let c2 : cbuf_t :=
    if cbuf_is_sw_writer c1 = true ∧ cbuf_is_sw_reader c1 = true then cbuf_reset c1
    else
      let c3 := cbuf_reset_indexes c1
      if cbuf_is_cacheable c3 = true ∧ cbuf_is_hw_reader c3 = true then
        { c3 with cache := c3.cache ++ [CacheOp.clean_invalidate 0 (cbuf_size c3)] }
      else c3
  { c2 with is_reset := true }

/-! ## Definitions used in the statements and proofs -/

/-- The ring is well formed: the indices are below the length, the length is a
positive `uint`, and `len_pow2` is zero or the logarithm of the length. -/
structure wf (c : cbuf_t) : Prop where
  len_pos : 1 ≤ c.len
  len_lt : c.len < UINT_MOD
  head_lt : c.head < c.len
  tail_lt : c.tail < c.len
  pow2 : c.len_pow2 ≠ 0 → c.len = 2 ^ c.len_pow2

/-- The number of bytes written and not yet read: `(head - tail) mod len`. -/
def used (c : cbuf_t) : Nat :=
  if c.tail ≤ c.head then c.head - c.tail else c.head + c.len - c.tail

/-- The bytes written and not yet read, oldest first. -/
def contents (c : cbuf_t) : List Nat :=
  if c.tail ≤ c.head then bytes c.buf c.tail (c.head - c.tail)
  else bytes c.buf c.tail (c.len - c.tail) ++ bytes c.buf 0 c.head

/-- The longest run that can be written at `head` without wrapping and without
making `head` meet `tail`. -/
def run_space (c : cbuf_t) : Nat :=
  if c.tail ≤ c.head then (if c.tail = 0 then c.len - c.head - 1 else c.len - c.head)
  else c.tail - c.head - 1

/-- A ring that differs from `c` by a run of `wl` bytes appended at `head`. -/
structure appended (c c' : cbuf_t) (wl : Nat) : Prop where
  head_eq : c'.head = (c.head + wl) % c.len
  tail_eq : c'.tail = c.tail
  len_eq : c'.len = c.len
  len_pow2_eq : c'.len_pow2 = c.len_pow2
  frame : ∀ i, i < c.head ∨ c.head + wl ≤ i → c'.buf i = c.buf i

/-- The ring `c'` has the configuration of `c`: the fields that no transfer
changes. -/
structure same_conf (c c' : cbuf_t) : Prop where
  len_eq : c'.len = c.len
  len_pow2_eq : c'.len_pow2 = c.len_pow2
  len_max_eq : c'.len_max = c.len_max
  flags_eq : c'.flags = c.flags
  no_event_eq : c'.no_event = c.no_event

/-- What every run of the write loop guarantees, for every ring length. -/
structure write_post (c : cbuf_t) (pos n : Nat) (r : cbuf_t × Nat) : Prop where
  wf_out : wf r.1
  conf : same_conf c r.1
  tail_eq : r.1.tail = c.tail
  event_eq : r.1.event = c.event
  pos_le : pos ≤ r.2
  le_len : r.2 ≤ n
  used_eq : used r.1 = used c + (r.2 - pos)
  head_eq : r.1.head = (c.head + (r.2 - pos)) % c.len

/-- The ring `c'` is the well-formed ring `c` with `head` moved forward by `k`
bytes that were free. -/
structure advanced (c c' : cbuf_t) (k : Nat) : Prop where
  wf_out : wf c'
  conf : same_conf c c'
  tail_eq : c'.tail = c.tail
  used_eq : used c' = used c + k
  head_eq : c'.head = (c.head + k) % c.len

/-- The longest run that can be read at `tail` without wrapping. -/
def run_used (c : cbuf_t) : Nat :=
  if c.tail < c.head then c.head - c.tail else c.len - c.tail

/-- The ring `c'` is the well-formed ring `c` with `tail` moved forward by `k`
stored bytes; nothing else of the data changed. -/
structure consumed (c c' : cbuf_t) (k : Nat) : Prop where
  wf_out : wf c'
  conf : same_conf c c'
  head_eq : c'.head = c.head
  buf_eq : c'.buf = c.buf
  used_eq : used c = used c' + k
  tail_eq : c'.tail = (c.tail + k) % c.len

/-- A call by the producer or by the consumer: `cbuf_write` of `n` bytes from
the caller's buffer `src`, or a non-blocking `cbuf_read` of `n` bytes into the
caller's buffer `dst`. -/
inductive Xfer where
  | write (src : Mem) (n : Nat) (canreschedule : Bool)
  | read (dst : Mem) (n : Nat)

/-- The length a call asks `cbuf_write` for; 0 for a read. -/
def Xfer.wreq : Xfer → Nat
  | .write _ n _ => n
  | .read _ _ => 0

/-- A run of producer and consumer calls: the ring, the bytes the writes
accepted so far (of a write that returned `r`, its first `r` bytes) and the
bytes the reads returned so far. -/
structure Fifo where
  ring : cbuf_t
  accepted : List Nat
  returned : List Nat

/-- One call of a run. -/
def fifo_step (s : Fifo) : Xfer → Fifo
  | .write src n canreschedule =>
    let r := cbuf_write s.ring (some src) n canreschedule
    { ring := r.1, accepted := s.accepted ++ bytes src 0 r.2, returned := s.returned }
  | .read dst n =>
    match cbuf_read s.ring (some dst) n false with
    | some r =>
      { ring := r.1, accepted := s.accepted,
        returned := s.returned ++ bytes (r.2.1.getD dst) 0 r.2.2 }
    | none => s

/-- The calls of a list, one after the other. -/
def fifo_run (s : Fifo) (xs : List Xfer) : Fifo := xs.foldl fifo_step s

/-- What holds all along a run from a fresh ring: the ring is well formed, has
the default flags, and stores the accepted bytes that were not yet returned. -/
structure fifo_inv (s : Fifo) : Prop where
  wf_ring : wf s.ring
  flags_eq : s.ring.flags = CBUF_FLAG_DEFAULT
  stored : s.accepted = s.returned ++ contents s.ring

/-- A call of a public operation, with its arguments. -/
inductive Op where
  | write (buf : Option Mem) (n : Nat) (canreschedule : Bool)
  | read (buf : Option Mem) (n : Nat) (block : Bool)
  | write_char (ch : Nat) (canreschedule : Bool)
  | read_char (ch : Nat) (block : Bool)
  | peek
  | skip (is_write : Bool) (n : Nat)
  | trash (n : Nat)
  | rewind
  | rewind_len (n : Nat)
  | reset
  | reset_indexes
  | reset_with_zero
  | adjust_size (new_len : Nat)
  | change_flag (flag : Nat) (set : Bool)

/-- The precondition of a call: the length asserted by `cbuf_write`,
`cbuf_skip`, `cbuf_trash` and `cbuf_rewind_len`, and a new length from 1 to
`len_max` for `cbuf_adjust_size`. -/
def Op.pre (c : cbuf_t) : Op → Bool
  | .write _ n _ => decide (n < c.len)
  | .skip _ n => decide (n < c.len)
  | .trash n => decide (n < c.len)
  | .rewind_len n => decide (n < c.len)
  | .adjust_size new_len => decide (1 ≤ new_len ∧ new_len ≤ c.len_max)
  | _ => true

/-- The ring after a call; `none` when the call does not return. -/
def Op.exec (c : cbuf_t) : Op → Option cbuf_t
  | .write buf n canreschedule => some (cbuf_write c buf n canreschedule).1
  | .read buf n block => (cbuf_read c buf n block).map (fun r => r.1)
  | .write_char ch canreschedule => some (cbuf_write_char c ch canreschedule).1
  | .read_char ch block => (cbuf_read_char c ch block).map (fun r => r.1)
  | .peek => some c
  | .skip is_write n => some (cbuf_skip c is_write n)
  | .trash n => some (cbuf_trash c n)
  | .rewind => some (cbuf_rewind c).1
  | .rewind_len n => some (cbuf_rewind_len c n).1
  | .reset => some (cbuf_reset c)
  | .reset_indexes => some (cbuf_reset_indexes c)
  | .reset_with_zero => some (cbuf_reset_with_zero c)
  | .adjust_size new_len => some (cbuf_adjust_size c new_len)
  | .change_flag flag set => some (cbuf_change_flag c flag set)

/-- The ring after the calls of a list, one after the other; `none` when a call
is made outside its precondition or does not return. -/
def run (c : cbuf_t) : List Op → Option cbuf_t
  | [] => some c
  | op :: ops => if op.pre c = true then (op.exec c).bind (fun c1 => run c1 ops) else none

/-- The ring `c'` is well formed and has the length, its logarithm, the
capacity and the `no_event` field of `c`. -/
structure kept (c c' : cbuf_t) : Prop where
  wf_out : wf c'
  len_eq : c'.len = c.len
  len_pow2_eq : c'.len_pow2 = c.len_pow2
  len_max_eq : c'.len_max = c.len_max
  no_event_eq : c'.no_event = c.no_event

/-- The invariant of the data model: a well-formed ring whose length is at most
its capacity, the capacity being a `uint`. -/
structure okring (c : cbuf_t) : Prop where
  wf_ring : wf c
  len_le : c.len ≤ c.len_max
  len_max_lt : c.len_max < UINT_MOD

/-- The ring is well formed, uses its event, and the event is signaled exactly
when the ring is not empty. -/
structure good (c : cbuf_t) : Prop where
  wf_ring : wf c
  uses_event : c.no_event = false
  event_iff : c.event = true ↔ c.head ≠ c.tail

/-- The operations that handle the event: all but skip, rewind, rewind_len,
adjust_size and the flag changes. -/
def Op.event_safe : Op → Bool
  | .write _ _ _ => true
  | .read _ _ _ => true
  | .write_char _ _ => true
  | .read_char _ _ => true
  | .peek => true
  | .trash _ => true
  | .reset => true
  | .reset_indexes => true
  | .reset_with_zero => true
  | _ => false

/-- The call is a `cbuf_write_char`. -/
def Op.is_write_char : Op → Bool
  | .write_char _ _ => true
  | _ => false

/-- The bytes of the backing buffer that a region of `cbuf_peek` covers; a
region whose base is `NULL` covers none. -/
def iovec_bytes (c : cbuf_t) (v : iovec_t) : List Nat :=
  match v.iov_base with
  | some off => bytes c.buf off v.iov_len
  | none => []

/-- The function `cbuf_read` called with `block` true while other threads run.
The list holds, for each pass from `retry` whose wait returned, the ring that
the pass finds under the lock.  A pass that read nothing goes back to `retry`;
the call returns from the first pass that read something.  `none`: after the
passes of the list the call is waiting again. -/
def cbuf_read_blocking (buf : Option Mem) (buflen : Nat) :
    List cbuf_t → Option (cbuf_t × Option Mem × Nat)
  | [] => none
  | c :: rest =>
    if (cbuf_read_attempt c buf buflen true).2.2 = 0 then cbuf_read_blocking buf buflen rest
    else some (cbuf_read_attempt c buf buflen true)

/-- The function `cbuf_read_char` called with `block` true while other threads
run, as `cbuf_read_blocking`. -/
def cbuf_read_char_blocking (ch : Nat) : List cbuf_t → Option (cbuf_t × Nat × Nat)
  | [] => none
  | c :: rest =>
    if (cbuf_read_char_attempt c ch).2.2 = 0 then cbuf_read_char_blocking ch rest
    else some (cbuf_read_char_attempt c ch)

/-- The iterations of the loop of `cbuf_write_wo_lock`, in order: for each
entry into the loop body the `write_len` it found, which is 0 for the
iteration that leaves by `break`. -/
def write_loop_passes (buf : Option Mem) (len : Nat) (enable : Bool) :
    Nat → cbuf_t → Nat → List Nat
  | 0, _, _ => []
  | fuel + 1, c, pos =>
    if pos < len ∧ cbuf_space_avail c > 0 then
      let write_len := cbuf_get_contiguous_space c len pos
      if write_len = 0 then [0]
      else write_len ::
        write_loop_passes buf len enable fuel (write_pass c buf enable pos write_len)
          (pos + write_len)
    else []

/-- The iterations of the loop of `cbuf_read_wo_lock`, in order: for each
entry into the loop body the `read_len` it found. -/
def read_loop_passes (buflen : Nat) (enable : Bool) :
    Nat → cbuf_t → Option Mem → Nat → List Nat
  | 0, _, _, _ => []
  | fuel + 1, c, buf, pos =>
    if pos < buflen ∧ c.tail ≠ c.head then
      let read_len := cbuf_get_contiguous_used c buflen pos
      let r := read_pass c buf enable pos read_len
      read_len :: read_loop_passes buflen enable fuel r.1 r.2 (pos + read_len)
    else []

/-- The byte offsets of the backing buffer that a cache maintenance call
covers, in order. -/
def CacheOp.offsets : CacheOp → List Nat
  | .clean_invalidate off len => (List.range len).map (fun k => off + k)
  | .invalidate off len => (List.range len).map (fun k => off + k)

/-- The byte offsets that the calls of a list cover, call after call. -/
def covered : List CacheOp → List Nat
  | [] => []
  | op :: ops => op.offsets ++ covered ops

/-- The byte offsets of the backing buffer that take the next `k` bytes
enqueued at `head`, in order. -/
def enqueued (c : cbuf_t) (k : Nat) : List Nat :=
  (List.range k).map (fun i => (c.head + i) % c.len)

/-- The ring has a cacheable buffer and a hardware reader. -/
def cleans (c : cbuf_t) : Bool := cbuf_is_cacheable c && cbuf_is_hw_reader c

/-- The buffer is in the state that `is_reset` stands for: when `is_reset` is
true the `len` bytes of the active buffer are 0. -/
def zero_filled (c : cbuf_t) : Prop := c.is_reset = true → ∀ i, i < c.len → c.buf i = 0

/-- The ring `q` has the length of `c`, and when its `is_reset` is true it also
has the `is_reset` and the buffer of `c`. -/
structure zero_kept (c q : cbuf_t) : Prop where
  len_eq : q.len = c.len
  of_reset : q.is_reset = true → c.is_reset = true ∧ q.buf = c.buf

/-- The operations that keep `zero_filled`: all but `cbuf_write_char`, which
stores a byte and leaves `is_reset` as it is, and `cbuf_adjust_size`, which
changes the length. -/
def Op.keeps_zero_fill : Op → Bool
  | .write_char _ _ => false
  | .adjust_size _ => false
  | _ => true

/-! ## Concrete rings and runs -/

/-- A caller's buffer holding the letters from `A` on. -/
def demo_src : Mem := fun i => 65 + i

/-- A caller's buffer holding zeros. -/
def demo_dst : Mem := fun _ => 0

/-- A ring of length 8 holding two bytes, at offsets 4 and 5. -/
def demo_ring : cbuf_t := { cbuf_initialize_etc 8 demo_dst with head := 6, tail := 4 }

/-- The calls of the scenario with a wrap: write 6, read 4, write 4, read 6. -/
def demo_xfers : List Xfer :=
  [Xfer.write demo_src 6 false, Xfer.read demo_dst 4, Xfer.write (shift demo_src 6) 4 false,
    Xfer.read demo_dst 6]

/-- A list of calls that uses every kind of index update. -/
def demo_ops : List Op :=
  [Op.write (some demo_src) 6 false, Op.read (some demo_dst) 4 false, Op.skip true 1,
    Op.rewind_len 2, Op.adjust_size 4, Op.write_char 65 false]

/-- The ring after `demo_ops` on a fresh ring of length 8. -/
def demo_ops_ring : cbuf_t :=
  (cbuf_write_char (cbuf_adjust_size (cbuf_rewind_len (cbuf_skip
    (cbuf_read_attempt (cbuf_write (cbuf_initialize_etc 8 demo_dst) (some demo_src) 6 false).1
      (some demo_dst) 4 false).1 true 1) 2).1 4) 65 false).1

/-- A list of calls that handle the event. -/
def demo_event_ops : List Op :=
  [Op.write (some demo_src) 6 false, Op.read_char 0 false, Op.write_char 65 false, Op.trash 2,
    Op.reset]

/-- The ring after `demo_event_ops` on a fresh ring of length 8. -/
def demo_event_ring : cbuf_t :=
  cbuf_reset (cbuf_trash (cbuf_write_char (cbuf_read_char_attempt
    (cbuf_write (cbuf_initialize_etc 8 demo_dst) (some demo_src) 6 false).1 0).1 65 false).1 2)

/-- The calls that leave a fresh ring of length 3 empty at offset 2. -/
def wrap3_ops : List Op := [Op.write (some demo_src) 2 false, Op.read none 2 false]

/-- The calls that leave a fresh ring of length 3 full with `head` below
`tail`. -/
def full3_ops : List Op :=
  [Op.write (some demo_src) 2 false, Op.read none 1 false, Op.write (some demo_src) 1 false]

/-- A fresh ring of length 8 after the write of the five bytes `ABCDE`. -/
def abcde_ring : cbuf_t :=
  (cbuf_write (cbuf_initialize_etc 8 demo_dst) (some demo_src) 5 false).1

/-- A ring of length 8 whose reader is hardware (`SW_IS_READER` cleared on a
fresh ring) after the write of the five bytes `ABCDE`. -/
def hw_reader_ring : cbuf_t :=
  (cbuf_write (cbuf_clear_flag (cbuf_initialize_etc 8 demo_dst) CBUF_FLAG_SW_IS_READER)
    (some demo_src) 5 false).1

/-- A ring of length 8 whose stored bytes wrap: `ABCD` written at offset 6, so
that `head` is 2 and `tail` is 6. -/
def wrapped_ring : cbuf_t :=
  (cbuf_write (cbuf_skip (cbuf_skip (cbuf_initialize_etc 8 demo_dst) true 6) false 6)
    (some demo_src) 4 false).1

/-- A ring of length 23259, which is not a power of two, left empty with
`head` and `tail` at 10000 by a write of 10000 bytes and their read. -/
def chunk_ring : cbuf_t :=
  (cbuf_read_attempt
    (cbuf_write (cbuf_initialize_etc 23259 demo_dst) (some demo_src) 10000 false).1
    none 10000 false).1

/-- A fresh ring of length 8 on which `CBUF_FLAG_NO_EVENT` has been set with
`cbuf_set_flag`. -/
def no_event_flag_ring : cbuf_t :=
  cbuf_set_flag (cbuf_initialize_etc 8 demo_dst) CBUF_FLAG_NO_EVENT

/-- The ring of length 3 after `full3_ops`: full, with `head` 0 and `tail` 1. -/
def full3_ring : cbuf_t :=
  (cbuf_write (cbuf_read_attempt
    (cbuf_write (cbuf_initialize_etc 3 demo_dst) (some demo_src) 2 false).1 none 1 false).1
    (some demo_src) 1 false).1

/-- The ring of length 3 after `wrap3_ops` and a write of one byte: it holds
one byte, with `head` 0 and `tail` 2. -/
def wrap3_ring : cbuf_t :=
  (cbuf_write (cbuf_read_attempt
    (cbuf_write (cbuf_initialize_etc 3 demo_dst) (some demo_src) 2 false).1 none 2 false).1
    (some demo_src) 1 false).1

/-- A ring of length 5 after a write of 4 bytes and a read of 3: it holds one
byte, with `head` 4 and `tail` 3. -/
def ring5 : cbuf_t :=
  (cbuf_read_attempt
    (cbuf_write (cbuf_initialize_etc 5 demo_dst) (some demo_src) 4 false).1 none 3 false).1

/-- The calls that bring a stale byte back: after the reset with zeros a
`cbuf_write_char` of `A` and its read, then two `NULL` writes of one byte, each
read back, on a ring of length 2. -/
def stale_ops : List Op :=
  [Op.reset_with_zero, Op.write_char 65 false, Op.read_char 0 false, Op.write none 1 false,
    Op.read (some demo_dst) 1 false, Op.write none 1 false]

/-- A ring of length 8 whose reader is hardware, empty with `head` and `tail`
at offset 6. -/
def hw_wrap_ring : cbuf_t :=
  cbuf_skip (cbuf_skip (cbuf_clear_flag (cbuf_initialize_etc 8 demo_dst) CBUF_FLAG_SW_IS_READER)
    true 6) false 6

/-! ## Well-formed rings and the arithmetic of the indices -/

theorem usub_of_le {a b : Nat} (hba : b ≤ a) (ha : a < UINT_MOD) : usub a b = a - b := by
  unfold usub
  rw [Nat.mod_eq_of_lt ha, Nat.mod_eq_of_lt (lt_of_le_of_lt hba ha)]
  have h : a + UINT_MOD - b = (a - b) + UINT_MOD := by omega
  rw [h, Nat.add_mod_right, Nat.mod_eq_of_lt (by omega)]

theorem usub_of_lt {a b : Nat} (hab : a < b) (hb : b < UINT_MOD) :
    usub a b = a + UINT_MOD - b := by
  unfold usub
  rw [Nat.mod_eq_of_lt hb, Nat.mod_eq_of_lt (lt_trans hab hb), Nat.mod_eq_of_lt (by omega)]

theorem modpow2_eq (v p : Nat) : modpow2 v p = v % 2 ^ p := by
  unfold modpow2
  exact Nat.and_pow_two_sub_one_eq_mod v p

theorem pow_dvd_uint {p : Nat} (h : 2 ^ p < UINT_MOD) : 2 ^ p ∣ UINT_MOD := by
  have hp : p < 32 := by
    by_contra hcon
    have h32 : 32 ≤ p := by omega
    have := Nat.pow_le_pow_right (by decide : 1 ≤ 2) h32
    unfold UINT_MOD at h
    omega
  unfold UINT_MOD
  exact pow_dvd_pow 2 (le_of_lt hp)

/-- A sum or difference computed modulo something keeps its residue modulo a
power of two that divides a `uint`'s range and, below, a `size_t`'s. -/
theorem mod_mod_uint {p : Nat} (h : 2 ^ p < UINT_MOD) (x : Nat) :
    x % UINT_MOD % 2 ^ p = x % 2 ^ p :=
  Nat.mod_mod_of_dvd x (pow_dvd_uint h)

theorem mod_mod_size {p : Nat} (h : 2 ^ p < UINT_MOD) (x : Nat) :
    x % SIZE_MOD % 2 ^ p = x % 2 ^ p := by
  apply Nat.mod_mod_of_dvd
  have h1 : UINT_MOD ∣ SIZE_MOD := by
    unfold UINT_MOD SIZE_MOD
    exact pow_dvd_pow 2 (by decide)
  exact dvd_trans (pow_dvd_uint h) h1

/-- The macro `INC_POINTER` stays below the length. -/
theorem INC_POINTER_lt {c : cbuf_t} (h : wf c) (m ptr inc : Nat) :
    INC_POINTER c m ptr inc < c.len := by
  unfold INC_POINTER
  split
  · next hp =>
    rw [modpow2_eq, h.pow2 hp]
    exact Nat.mod_lt _ (Nat.two_pow_pos _)
  · exact Nat.mod_lt _ h.len_pos

/-- The macro `DEC_POINTER` stays below the length. -/
theorem DEC_POINTER_lt {c : cbuf_t} (h : wf c) (ptr inc : Nat) :
    DEC_POINTER c ptr inc < c.len := by
  unfold DEC_POINTER
  split
  · next hp =>
    rw [modpow2_eq, h.pow2 hp]
    exact Nat.mod_lt _ (Nat.two_pow_pos _)
  · exact Nat.mod_lt _ h.len_pos

/-- The macro `INC_POINTER` is the sum modulo the length when the sum does not
leave the type it is computed in. -/
theorem INC_POINTER_eq {c : cbuf_t} (h : wf c) {m ptr inc : Nat} (hm : ptr + inc < m) :
    INC_POINTER c m ptr inc = (ptr + inc) % c.len := by
  unfold INC_POINTER
  rw [Nat.mod_eq_of_lt hm]
  split
  · next hp =>
    have hl := h.len_lt
    rw [h.pow2 hp] at hl ⊢
    rw [modpow2_eq, mod_mod_uint hl]
  · rfl

theorem mod_wrap {a n : Nat} (h : a < 2 * n) : a % n = if a < n then a else a - n := by
  split
  · next h1 => exact Nat.mod_eq_of_lt h1
  · next h1 =>
    rw [Nat.mod_eq_sub_mod (by omega), Nat.mod_eq_of_lt (by omega)]

theorem used_lt {c : cbuf_t} (h : wf c) : used c < c.len := by
  have h1 := h.head_lt
  have h2 := h.tail_lt
  unfold used
  split <;> omega

theorem used_eq_zero_iff {c : cbuf_t} (h : wf c) : used c = 0 ↔ c.head = c.tail := by
  have h1 := h.head_lt
  have h2 := h.tail_lt
  unfold used
  split <;> omega

/-- The value `consumed` of `cbuf_space_avail`, which `cbuf_space_used` returns,
is `(head - tail) mod len` when the unsigned difference does not wrap or the
length is a power of two. -/
theorem consumed_eq {c : cbuf_t} (h : wf c) (hc : c.tail ≤ c.head ∨ c.len = 2 ^ c.len_pow2) :
    (if c.len_pow2 ≠ 0 then modpow2 (usub c.head c.tail) c.len_pow2
      else usub c.head c.tail % c.len) = used c := by
  have h1 := h.head_lt
  have h2 := h.tail_lt
  have h3 := h.len_lt
  by_cases hle : c.tail ≤ c.head
  · rw [usub_of_le hle (by omega)]
    have hu : used c = c.head - c.tail := by unfold used; rw [if_pos hle]
    rw [hu]
    split
    · next hp =>
      rw [modpow2_eq, ← h.pow2 hp]
      exact Nat.mod_eq_of_lt (by omega)
    · exact Nat.mod_eq_of_lt (by omega)
  · have hlt : c.head < c.tail := by omega
    have hpw : c.len = 2 ^ c.len_pow2 := by
      rcases hc with hc | hc
      · omega
      · exact hc
    have hu : used c = c.head + c.len - c.tail := by unfold used; rw [if_neg hle]
    rw [usub_of_lt hlt (by omega), hu]
    have hd : c.len ∣ UINT_MOD := by
      have := h.len_lt
      rw [hpw] at this ⊢
      exact pow_dvd_uint this
    obtain ⟨k, hk⟩ := hd
    have hk1 : 1 ≤ k := by
      rcases Nat.eq_zero_or_pos k with h0 | h0
      · rw [h0] at hk
        simp [UINT_MOD] at hk
      · exact h0
    have key : (c.head + UINT_MOD - c.tail) % c.len = c.head + c.len - c.tail := by
      have e : c.head + UINT_MOD - c.tail = (c.head + c.len - c.tail) + c.len * (k - 1) := by
        have e2 : c.len * k = c.len * (k - 1) + c.len := by
          conv_lhs => rw [show k = (k - 1) + 1 by omega]
          rw [Nat.mul_add, Nat.mul_one]
        rw [hk, e2]
        omega
      rw [e, Nat.add_mul_mod_self_left]
      exact Nat.mod_eq_of_lt (by omega)
    split
    · rw [modpow2_eq, ← hpw]
      exact key
    · exact key

theorem cbuf_space_used_eq {c : cbuf_t} (h : wf c)
    (hc : c.tail ≤ c.head ∨ c.len = 2 ^ c.len_pow2) : cbuf_space_used c = used c := by
  unfold cbuf_space_used
  exact consumed_eq h hc

theorem cbuf_space_avail_eq {c : cbuf_t} (h : wf c)
    (hc : c.tail ≤ c.head ∨ c.len = 2 ^ c.len_pow2) : cbuf_space_avail c = c.len - 1 - used c := by
  have hu := used_lt h
  have h3 := h.len_lt
  have hcons := consumed_eq h hc
  unfold cbuf_space_avail
  split
  · next hp =>
    rw [if_pos hp] at hcons
    simp only [hcons, valpow2, ← h.pow2 hp]
    rw [usub_of_le (le_of_lt hu) h3, usub_of_le (by omega) (by omega)]
    omega
  · next hp =>
    rw [if_neg hp] at hcons
    simp only [hcons]
    rw [usub_of_le (le_of_lt hu) h3, usub_of_le (by omega) (by omega)]
    omega

/-! ## Byte lists -/

theorem bytes_length (m : Mem) (off n : Nat) : (bytes m off n).length = n := by
  simp [bytes]

theorem bytes_zero (m : Mem) (off : Nat) : bytes m off 0 = [] := by
  simp [bytes]

theorem bytes_append (m : Mem) (off a b : Nat) :
    bytes m off (a + b) = bytes m off a ++ bytes m (off + a) b := by
  simp [bytes, List.range_add, List.map_append, List.map_map, Function.comp_def, Nat.add_assoc]

theorem bytes_congr {m m' : Mem} {off off' n : Nat}
    (h : ∀ k, k < n → m (off + k) = m' (off' + k)) : bytes m off n = bytes m' off' n := by
  unfold bytes
  apply List.map_congr_left
  intro k hk
  exact h k (List.mem_range.mp hk)

theorem bytes_memcpy (dst : Mem) (doff : Nat) (src : Mem) (soff n : Nat) :
    bytes (memcpy dst doff src soff n) doff n = bytes src soff n := by
  apply bytes_congr
  intro k hk
  simp [memcpy, hk]

theorem bytes_memset (m : Mem) (off v n : Nat) :
    bytes (memset m off v n) off n = List.replicate n v := by
  apply List.ext_getElem
  · simp [bytes]
  · intro i h1 h2
    simp [bytes] at h1
    simp [bytes, memset, h1]

theorem bytes_shift (m : Mem) (k off n : Nat) : bytes (shift m k) off n = bytes m (k + off) n := by
  apply bytes_congr
  intro i hi
  simp [shift, Nat.add_assoc]

/-! ## The segment a pass of the write loop fills -/

theorem cbuf_get_contiguous_space_eq {c : cbuf_t} (h : wf c) (len pos : Nat) :
    cbuf_get_contiguous_space c len pos = min (run_space c) (len - pos) := by
  have h1 := h.head_lt
  have h2 := h.tail_lt
  have h3 := h.len_lt
  unfold cbuf_get_contiguous_space run_space
  by_cases hle : c.tail ≤ c.head
  · rw [if_pos hle, if_pos hle]
    by_cases h0 : c.tail = 0
    · rw [if_pos h0, if_pos h0, usub_of_le (le_of_lt h1) h3,
        usub_of_le (show 1 ≤ c.len - c.head by omega) (by omega)]
    · rw [if_neg h0, if_neg h0, usub_of_le (le_of_lt h1) h3]
  · have hlt : c.head < c.tail := by omega
    rw [if_neg hle, if_neg hle, usub_of_le (le_of_lt hlt) (by omega),
      usub_of_le (show 1 ≤ c.tail - c.head by omega) (by omega)]

theorem run_space_le {c : cbuf_t} (h : wf c) : run_space c ≤ c.len - 1 - used c := by
  have h1 := h.head_lt
  have h2 := h.tail_lt
  simp only [run_space, used]
  split_ifs <;> omega

/-- With room left in the ring there is room at `head`. -/
theorem run_space_pos {c : cbuf_t} (h : wf c) (hu : used c < c.len - 1) : 0 < run_space c := by
  have h1 := h.head_lt
  have h2 := h.tail_lt
  simp only [used] at hu
  simp only [run_space]
  split_ifs at hu ⊢ <;> omega

theorem run_space_bound {c : cbuf_t} (h : wf c) {wl : Nat} (hwl : wl ≤ run_space c) :
    c.head + wl ≤ c.len ∧ (c.head + wl = c.len → c.tail ≤ c.head ∧ c.tail ≠ 0) ∧
    (c.head < c.tail → c.head + wl < c.tail) := by
  have h1 := h.head_lt
  have h2 := h.tail_lt
  simp only [run_space] at hwl
  split_ifs at hwl <;> omega

/-- Where `head` is after a run of `wl ≤ run_space` bytes. -/
theorem head_advance {c : cbuf_t} (h : wf c) {wl : Nat} (hwl : wl ≤ run_space c) :
    (c.head + wl) % c.len = if c.head + wl < c.len then c.head + wl else 0 := by
  have hb := (run_space_bound h hwl).1
  split
  · next hlt => exact Nat.mod_eq_of_lt hlt
  · next hlt =>
    have : c.head + wl = c.len := by omega
    rw [this, Nat.mod_self]

theorem appended_wf {c c' : cbuf_t} {wl : Nat} (h : wf c) (ha : appended c c' wl) : wf c' := by
  refine ⟨?_, ?_, ?_, ?_, ?_⟩
  · rw [ha.len_eq]; exact h.len_pos
  · rw [ha.len_eq]; exact h.len_lt
  · rw [ha.len_eq, ha.head_eq]; exact Nat.mod_lt _ h.len_pos
  · rw [ha.len_eq, ha.tail_eq]; exact h.tail_lt
  · rw [ha.len_eq, ha.len_pow2_eq]; exact h.pow2

theorem appended_used {c c' : cbuf_t} {wl : Nat} (h : wf c) (hwl : wl ≤ run_space c)
    (ha : appended c c' wl) : used c' = used c + wl := by
  have h1 := h.head_lt
  have h2 := h.tail_lt
  have hh := ha.head_eq
  have hb := run_space_bound h hwl
  rw [head_advance h hwl] at hh
  simp only [used, ha.tail_eq, ha.len_eq]
  split_ifs at hh ⊢ <;> omega

theorem appended_contents {c c' : cbuf_t} {wl : Nat} (h : wf c) (hwl : wl ≤ run_space c)
    (ha : appended c c' wl) : contents c' = contents c ++ bytes c'.buf c.head wl := by
  have h1 := h.head_lt
  have h2 := h.tail_lt
  have hh := ha.head_eq
  have hf := ha.frame
  have hb := run_space_bound h hwl
  rw [head_advance h hwl] at hh
  unfold contents
  rw [ha.tail_eq, ha.len_eq]
  by_cases hle : c.tail ≤ c.head
  · rw [if_pos hle]
    by_cases hlt : c.head + wl < c.len
    · rw [if_pos hlt] at hh
      rw [hh, if_pos (by omega)]
      have e : c.head + wl - c.tail = (c.head - c.tail) + wl := by omega
      rw [e, bytes_append]
      have e2 : c.tail + (c.head - c.tail) = c.head := by omega
      rw [e2]
      congr 1
      apply bytes_congr
      intro k hk
      exact hf _ (by omega)
    · rw [if_neg hlt] at hh
      rw [hh, if_neg (by omega), bytes_zero, List.append_nil]
      have e : c.len - c.tail = (c.head - c.tail) + wl := by omega
      rw [e, bytes_append]
      have e2 : c.tail + (c.head - c.tail) = c.head := by omega
      rw [e2]
      congr 1
      apply bytes_congr
      intro k hk
      exact hf _ (by omega)
  · rw [if_pos (by omega)] at hh
    rw [hh, if_neg hle, if_neg (by omega), bytes_append, List.append_assoc, Nat.zero_add]
    congr 1
    · apply bytes_congr
      intro k hk
      exact hf _ (by omega)
    · congr 1
      apply bytes_congr
      intro k hk
      exact hf _ (by omega)

/-! ## The write path -/

theorem same_conf_refl (c : cbuf_t) : same_conf c c := ⟨rfl, rfl, rfl, rfl, rfl⟩

theorem same_conf_trans {a b c : cbuf_t} (h1 : same_conf a b) (h2 : same_conf b c) :
    same_conf a c :=
  ⟨h2.len_eq.trans h1.len_eq, h2.len_pow2_eq.trans h1.len_pow2_eq,
    h2.len_max_eq.trans h1.len_max_eq, h2.flags_eq.trans h1.flags_eq,
    h2.no_event_eq.trans h1.no_event_eq⟩

theorem INC_POINTER_congr {c c' : cbuf_t} (h1 : c'.len = c.len) (h2 : c'.len_pow2 = c.len_pow2)
    (m ptr inc : Nat) : INC_POINTER c' m ptr inc = INC_POINTER c m ptr inc := by
  unfold INC_POINTER
  rw [h1, h2]

theorem write_pass_conf (c : cbuf_t) (buf : Option Mem) (en : Bool) (pos wl : Nat) :
    same_conf c (write_pass c buf en pos wl) := by
  cases buf <;> refine ⟨?_, ?_, ?_, ?_, ?_⟩ <;> simp only [write_pass] <;> split_ifs <;> rfl

theorem write_pass_tail (c : cbuf_t) (buf : Option Mem) (en : Bool) (pos wl : Nat) :
    (write_pass c buf en pos wl).tail = c.tail := by
  cases buf <;> simp only [write_pass] <;> split_ifs <;> rfl

theorem write_pass_event (c : cbuf_t) (buf : Option Mem) (en : Bool) (pos wl : Nat) :
    (write_pass c buf en pos wl).event = c.event := by
  cases buf <;> simp only [write_pass] <;> split_ifs <;> rfl

theorem write_pass_head (c : cbuf_t) (buf : Option Mem) (en : Bool) (pos wl : Nat) :
    (write_pass c buf en pos wl).head = INC_POINTER c SIZE_MOD c.head wl := by
  cases buf <;> simp only [write_pass] <;> split_ifs <;> rfl

/-- The backing buffer after a pass that copies from the caller's buffer. -/
theorem write_pass_buf_some (c : cbuf_t) (src : Mem) (pos wl : Nat) :
    (write_pass c (some src) true pos wl).buf = memcpy c.buf c.head src pos wl := by
  simp only [write_pass]
  split_ifs <;> rfl

/-- The backing buffer after a pass of a `NULL` write that fills with zeros. -/
theorem write_pass_buf_none (c : cbuf_t) (pos wl : Nat) (hr : c.is_reset = false) :
    (write_pass c none true pos wl).buf = memset c.buf c.head 0 wl := by
  simp only [write_pass, hr]
  split_ifs <;> simp_all

theorem write_pass_frame (c : cbuf_t) (buf : Option Mem) (en : Bool) (pos wl i : Nat)
    (hi : i < c.head ∨ c.head + wl ≤ i) : (write_pass c buf en pos wl).buf i = c.buf i := by
  have hn : ¬(c.head ≤ i ∧ i < c.head + wl) := by omega
  cases buf <;> simp only [write_pass] <;> split_ifs <;> simp [memset, memcpy, hn]

theorem write_pass_appended {c : cbuf_t} (h : wf c) (buf : Option Mem) (en : Bool)
    (pos : Nat) {wl : Nat} (hwl : wl ≤ run_space c) :
    appended c (write_pass c buf en pos wl) wl := by
  have hb := (run_space_bound h hwl).1
  have h3 := h.len_lt
  refine ⟨?_, write_pass_tail .., (write_pass_conf ..).len_eq, (write_pass_conf ..).len_pow2_eq,
    fun i hi => write_pass_frame c buf en pos wl i hi⟩
  rw [write_pass_head]
  apply INC_POINTER_eq h
  simp only [SIZE_MOD, UINT_MOD] at h3 ⊢
  omega

theorem write_loop_stop (buf : Option Mem) (n : Nat) (en : Bool) (fuel : Nat) (c : cbuf_t)
    (pos : Nat) (h : ¬(pos < n ∧ cbuf_space_avail c > 0)) :
    write_loop buf n en fuel c pos = (c, pos) := by
  cases fuel with
  | zero => rfl
  | succ k => simp only [write_loop, if_neg h]

theorem write_loop_break (buf : Option Mem) (n : Nat) (en : Bool) (fuel : Nat) (c : cbuf_t)
    (pos : Nat) (h : cbuf_get_contiguous_space c n pos = 0) :
    write_loop buf n en fuel c pos = (c, pos) := by
  cases fuel with
  | zero => rfl
  | succ k =>
    simp only [write_loop, h]
    split_ifs <;> rfl

theorem write_loop_step (buf : Option Mem) (n : Nat) (en : Bool) (fuel : Nat) (c : cbuf_t)
    (pos : Nat) (h : pos < n ∧ cbuf_space_avail c > 0)
    (hw : cbuf_get_contiguous_space c n pos ≠ 0) :
    write_loop buf n en (fuel + 1) c pos =
      write_loop buf n en fuel
        (write_pass c buf en pos (cbuf_get_contiguous_space c n pos))
        (pos + cbuf_get_contiguous_space c n pos) := by
  simp only [write_loop, if_pos h, if_neg hw]

theorem write_post_refl {c : cbuf_t} (h : wf c) {pos n : Nat} (hp : pos ≤ n) :
    write_post c pos n (c, pos) := by
  refine ⟨h, same_conf_refl c, rfl, rfl, le_refl _, hp, by simp, ?_⟩
  simp only [Nat.sub_self, Nat.add_zero]
  exact (Nat.mod_eq_of_lt h.head_lt).symm

theorem write_loop_spec (buf : Option Mem) (n : Nat) (en : Bool) :
    ∀ (fuel : Nat) (c : cbuf_t) (pos : Nat), wf c → pos ≤ n →
      write_post c pos n (write_loop buf n en fuel c pos) := by
  intro fuel
  induction fuel with
  | zero => intro c pos h hp; exact write_post_refl h hp
  | succ k ih =>
    intro c pos h hp
    by_cases hc : pos < n ∧ cbuf_space_avail c > 0
    · by_cases hw : cbuf_get_contiguous_space c n pos = 0
      · rw [write_loop_break buf n en _ c pos hw]
        exact write_post_refl h hp
      · rw [write_loop_step buf n en k c pos hc hw]
        have hwl := cbuf_get_contiguous_space_eq h n pos
        generalize cbuf_get_contiguous_space c n pos = wl at hwl hw ⊢
        have hrs : wl ≤ run_space c := by omega
        have hnp : wl ≤ n - pos := by omega
        have ha := write_pass_appended h buf en pos hrs
        have hwf1 := appended_wf h ha
        have hu1 := appended_used h hrs ha
        have r := ih (write_pass c buf en pos wl) (pos + wl) hwf1 (by omega)
        have hconf := write_pass_conf c buf en pos wl
        refine ⟨r.wf_out, same_conf_trans hconf r.conf, ?_, ?_, ?_, r.le_len, ?_, ?_⟩
        · rw [r.tail_eq, write_pass_tail]
        · rw [r.event_eq, write_pass_event]
        · have := r.pos_le; omega
        · have := r.pos_le
          rw [r.used_eq, hu1]; omega
        · have := r.pos_le
          rw [r.head_eq, ha.head_eq, hconf.len_eq, Nat.mod_add_mod]
          congr 1
          omega
    · rw [write_loop_stop buf n en _ c pos hc]
      exact write_post_refl h hp

/-- The write loop has passes enough: from `len - pos` passes on, one more
changes nothing, in every ring state. -/
theorem write_loop_fuel (buf : Option Mem) (n : Nat) (en : Bool) :
    ∀ (fuel : Nat) (c : cbuf_t) (pos : Nat), n - pos ≤ fuel →
      write_loop buf n en (fuel + 1) c pos = write_loop buf n en fuel c pos := by
  intro fuel
  induction fuel with
  | zero =>
    intro c pos hf
    rw [write_loop_stop buf n en 1 c pos (by omega)]
    rfl
  | succ k ih =>
    intro c pos hf
    by_cases hc : pos < n ∧ cbuf_space_avail c > 0
    · by_cases hw : cbuf_get_contiguous_space c n pos = 0
      · rw [write_loop_break buf n en _ c pos hw, write_loop_break buf n en _ c pos hw]
      · rw [write_loop_step buf n en (k + 1) c pos hc hw, write_loop_step buf n en k c pos hc hw]
        exact ih _ _ (by omega)
    · rw [write_loop_stop buf n en _ c pos hc, write_loop_stop buf n en _ c pos hc]

/-- The write loop appends to the stored bytes the bytes it takes from the
caller's buffer, for every ring length. -/
theorem write_loop_contents (src : Mem) (n : Nat) :
    ∀ (fuel : Nat) (c : cbuf_t) (pos : Nat), wf c → pos ≤ n →
      contents (write_loop (some src) n true fuel c pos).1 =
        contents c ++ bytes src pos ((write_loop (some src) n true fuel c pos).2 - pos) := by
  intro fuel
  induction fuel with
  | zero => intro c pos h hp; simp [write_loop, bytes_zero]
  | succ k ih =>
    intro c pos h hp
    by_cases hc : pos < n ∧ cbuf_space_avail c > 0
    · by_cases hw : cbuf_get_contiguous_space c n pos = 0
      · rw [write_loop_break (some src) n true _ c pos hw]
        simp [bytes_zero]
      · rw [write_loop_step (some src) n true k c pos hc hw]
        have hwl := cbuf_get_contiguous_space_eq h n pos
        generalize cbuf_get_contiguous_space c n pos = wl at hwl hw ⊢
        have hrs : wl ≤ run_space c := by omega
        have ha := write_pass_appended h (some src) true pos hrs
        have hwf1 := appended_wf h ha
        have hpost := write_loop_spec (some src) n true k _ (pos + wl) hwf1 (by omega)
        have hle := hpost.pos_le
        rw [ih _ (pos + wl) hwf1 (by omega), appended_contents h hrs ha, write_pass_buf_some,
          bytes_memcpy, List.append_assoc]
        congr 1
        generalize (write_loop (some src) n true k (write_pass c (some src) true pos wl)
          (pos + wl)).2 = q at hle ⊢
        have e : q - pos = wl + (q - (pos + wl)) := by omega
        rw [e, bytes_append]
    · rw [write_loop_stop (some src) n true _ c pos hc]
      simp [bytes_zero]

/-- The count of the write loop when `cbuf_space_avail` is exact: the request
or the free space, whichever is less. -/
theorem write_loop_count (buf : Option Mem) (n : Nat) (en : Bool) :
    ∀ (fuel : Nat) (c : cbuf_t) (pos : Nat), wf c → c.len = 2 ^ c.len_pow2 → n - pos ≤ fuel →
      (write_loop buf n en fuel c pos).2 = pos + min (n - pos) (c.len - 1 - used c) := by
  intro fuel
  induction fuel with
  | zero =>
    intro c pos h hpw hf
    simp only [write_loop]
    omega
  | succ k ih =>
    intro c pos h hpw hf
    have hav := cbuf_space_avail_eq h (Or.inr hpw)
    by_cases hc : pos < n ∧ cbuf_space_avail c > 0
    · have hwl := cbuf_get_contiguous_space_eq h n pos
      have hrp := run_space_pos h (by omega)
      have hrl := run_space_le h
      have hw : cbuf_get_contiguous_space c n pos ≠ 0 := by omega
      rw [write_loop_step buf n en k c pos hc hw]
      generalize cbuf_get_contiguous_space c n pos = wl at hwl hw ⊢
      have hrs : wl ≤ run_space c := by omega
      have ha := write_pass_appended h buf en pos hrs
      have hwf1 := appended_wf h ha
      have hu1 := appended_used h hrs ha
      have hconf := write_pass_conf c buf en pos wl
      rw [ih _ (pos + wl) hwf1 (by rw [hconf.len_eq, hconf.len_pow2_eq]; exact hpw) (by omega),
        hu1, hconf.len_eq]
      omega
    · rw [write_loop_stop buf n en _ c pos hc]
      simp only
      omega

theorem advanced_refl {c : cbuf_t} (h : wf c) : advanced c c 0 :=
  ⟨h, same_conf_refl c, rfl, rfl, (Nat.mod_eq_of_lt h.head_lt).symm⟩

theorem advanced_trans {a b c : cbuf_t} {j k : Nat} (h1 : advanced a b j) (h2 : advanced b c k) :
    advanced a c (j + k) := by
  refine ⟨h2.wf_out, same_conf_trans h1.conf h2.conf, h2.tail_eq.trans h1.tail_eq, ?_, ?_⟩
  · rw [h2.used_eq, h1.used_eq, Nat.add_assoc]
  · rw [h2.head_eq, h1.head_eq, h1.conf.len_eq, Nat.mod_add_mod, Nat.add_assoc]

/-- The event bit plays no part in `advanced`. -/
theorem advanced_event {c c' : cbuf_t} {k : Nat} (h : advanced c c' k) (e : Bool) :
    advanced c { c' with event := e } k :=
  ⟨⟨h.wf_out.len_pos, h.wf_out.len_lt, h.wf_out.head_lt, h.wf_out.tail_lt, h.wf_out.pow2⟩,
    ⟨h.conf.len_eq, h.conf.len_pow2_eq, h.conf.len_max_eq, h.conf.flags_eq, h.conf.no_event_eq⟩,
    h.tail_eq, h.used_eq, h.head_eq⟩

theorem write_loop_advanced (buf : Option Mem) (n : Nat) (en : Bool) (c : cbuf_t) (h : wf c) :
    advanced c (write_loop buf n en n c 0).1 (write_loop buf n en n c 0).2 := by
  have r := write_loop_spec buf n en n c 0 h (Nat.zero_le _)
  exact ⟨r.wf_out, r.conf, r.tail_eq, r.used_eq, r.head_eq⟩

theorem cbuf_write_wo_lock_count (c : cbuf_t) (buf : Option Mem) (n : Nat) (cr : Bool) :
    (cbuf_write_wo_lock c buf n cr).2 = (write_loop buf n (cbuf_is_sw_writer c) n c 0).2 := rfl

theorem cbuf_write_wo_lock_advanced {c : cbuf_t} (h : wf c) (buf : Option Mem) (n : Nat)
    (cr : Bool) :
    advanced c (cbuf_write_wo_lock c buf n cr).1 (cbuf_write_wo_lock c buf n cr).2 := by
  have r := write_loop_advanced buf n (cbuf_is_sw_writer c) c h
  rw [cbuf_write_wo_lock_count]
  simp only [cbuf_write_wo_lock]
  split_ifs
  · exact advanced_event r true
  · exact r

theorem cbuf_write_wo_lock_le {c : cbuf_t} (h : wf c) (buf : Option Mem) (n : Nat) (cr : Bool) :
    (cbuf_write_wo_lock c buf n cr).2 ≤ n :=
  (write_loop_spec buf n (cbuf_is_sw_writer c) n c 0 h (Nat.zero_le _)).le_len

/-- The count of `cbuf_write_wo_lock` on a ring whose length is a power of two. -/
theorem cbuf_write_wo_lock_exact {c : cbuf_t} (h : wf c) (hpw : c.len = 2 ^ c.len_pow2)
    (buf : Option Mem) (n : Nat) (cr : Bool) :
    (cbuf_write_wo_lock c buf n cr).2 = min n (c.len - 1 - used c) := by
  rw [cbuf_write_wo_lock_count,
    write_loop_count buf n (cbuf_is_sw_writer c) n c 0 h hpw (by omega)]
  omega

theorem cbuf_write_wo_lock_buf (c : cbuf_t) (buf : Option Mem) (n : Nat) (cr : Bool) :
    (cbuf_write_wo_lock c buf n cr).1.buf = (write_loop buf n (cbuf_is_sw_writer c) n c 0).1.buf := by
  simp only [cbuf_write_wo_lock]
  split_ifs <;> rfl

theorem contents_congr {c c' : cbuf_t} (h1 : c'.head = c.head) (h2 : c'.tail = c.tail)
    (h3 : c'.len = c.len) (h4 : c'.buf = c.buf) : contents c' = contents c := by
  unfold contents
  rw [h1, h2, h3, h4]

/-- With a software writer `cbuf_write_wo_lock` appends to the stored bytes the
bytes it accepted, for every ring length. -/
theorem cbuf_write_wo_lock_contents {c : cbuf_t} (h : wf c) (hsw : cbuf_is_sw_writer c = true)
    (src : Mem) (n : Nat) (cr : Bool) :
    contents (cbuf_write_wo_lock c (some src) n cr).1 =
      contents c ++ bytes src 0 (cbuf_write_wo_lock c (some src) n cr).2 := by
  have hl := write_loop_contents src n n c 0 h (Nat.zero_le _)
  rw [cbuf_write_wo_lock_count, hsw]
  rw [Nat.sub_zero] at hl
  rw [← hl]
  apply contents_congr
  all_goals (simp only [cbuf_write_wo_lock, hsw]; split_ifs <;> rfl)

theorem write_chunks_spec (cr : Bool) :
    ∀ (loop : Nat) (c : cbuf_t) (buf : Mem) (rem pos : Nat), wf c →
      advanced c (write_chunks cr loop c buf rem pos).1 ((write_chunks cr loop c buf rem pos).2 - pos)
      ∧ pos ≤ (write_chunks cr loop c buf rem pos).2
      ∧ (write_chunks cr loop c buf rem pos).2 - pos ≤ rem := by
  intro loop
  induction loop with
  | zero =>
    intro c buf rem pos h
    simp only [write_chunks, Nat.sub_self]
    exact ⟨advanced_refl h, le_refl _, Nat.zero_le _⟩
  | succ k ih =>
    intro c buf rem pos h
    simp only [write_chunks]
    have ha := cbuf_write_wo_lock_advanced h (some buf)
      (if rem > CBUF_WRITE_MAX_CHUNK then CBUF_WRITE_MAX_CHUNK else rem) cr
    have hle := cbuf_write_wo_lock_le h (some buf)
      (if rem > CBUF_WRITE_MAX_CHUNK then CBUF_WRITE_MAX_CHUNK else rem) cr
    generalize cbuf_write_wo_lock c (some buf)
      (if rem > CBUF_WRITE_MAX_CHUNK then CBUF_WRITE_MAX_CHUNK else rem) cr = r at ha hle ⊢
    have hchunk : (if rem > CBUF_WRITE_MAX_CHUNK then CBUF_WRITE_MAX_CHUNK else rem) ≤ rem := by
      split_ifs <;> omega
    by_cases hz : r.2 = 0
    · rw [if_pos hz]
      simp only [Nat.sub_self]
      rw [hz] at ha
      exact ⟨ha, le_refl _, Nat.zero_le _⟩
    · rw [if_neg hz]
      obtain ⟨h1, h2, h3⟩ := ih r.1 (shift buf r.2) (rem - r.2) (pos + r.2) ha.wf_out
      generalize (write_chunks cr k r.1 (shift buf r.2) (rem - r.2) (pos + r.2)) = q at h1 h2 h3 ⊢
      refine ⟨?_, by omega, by omega⟩
      have e : q.2 - pos = r.2 + (q.2 - (pos + r.2)) := by omega
      rw [e]
      exact advanced_trans ha h1

/-- The count of the chunk loop of `cbuf_write` on a ring whose length is a power
of two, when the passes left cover what can be written. -/
theorem write_chunks_count (cr : Bool) :
    ∀ (loop : Nat) (c : cbuf_t) (buf : Mem) (rem pos : Nat), wf c → c.len = 2 ^ c.len_pow2 →
      min rem (c.len - 1 - used c) ≤ loop * CBUF_WRITE_MAX_CHUNK →
      (write_chunks cr loop c buf rem pos).2 = pos + min rem (c.len - 1 - used c) := by
  intro loop
  induction loop with
  | zero =>
    intro c buf rem pos h hpw hl
    simp only [write_chunks]
    omega
  | succ k ih =>
    intro c buf rem pos h hpw hl
    simp only [write_chunks]
    have ha := cbuf_write_wo_lock_advanced h (some buf)
      (if rem > CBUF_WRITE_MAX_CHUNK then CBUF_WRITE_MAX_CHUNK else rem) cr
    have hex := cbuf_write_wo_lock_exact h hpw (some buf)
      (if rem > CBUF_WRITE_MAX_CHUNK then CBUF_WRITE_MAX_CHUNK else rem) cr
    generalize cbuf_write_wo_lock c (some buf)
      (if rem > CBUF_WRITE_MAX_CHUNK then CBUF_WRITE_MAX_CHUNK else rem) cr = r at ha hex ⊢
    have hu := ha.used_eq
    have hlen := ha.conf.len_eq
    have hul := used_lt ha.wf_out
    by_cases hz : r.2 = 0
    · rw [if_pos hz]
      simp only
      split_ifs at hex <;> simp only [CBUF_WRITE_MAX_CHUNK] at * <;> omega
    · rw [if_neg hz]
      rw [ih r.1 (shift buf r.2) (rem - r.2) (pos + r.2) ha.wf_out
        (by rw [ha.conf.len_eq, ha.conf.len_pow2_eq]; exact hpw)
        (by rw [hu, hlen]; split_ifs at hex <;> simp only [CBUF_WRITE_MAX_CHUNK] at * <;> omega)]
      rw [hu, hlen]
      split_ifs at hex <;> simp only [CBUF_WRITE_MAX_CHUNK] at * <;> omega

theorem chunk_count_eq {n : Nat} (h : n < UINT_MOD) :
    chunk_count n 16384 = n / 16384 + (if n % 16384 ≠ 0 then 1 else 0) := by
  simp only [chunk_count, UINT_MOD] at *
  split_ifs <;> omega

theorem chunk_count_cover {n : Nat} (h : n < UINT_MOD) : n ≤ chunk_count n 16384 * 16384 := by
  rw [chunk_count_eq h]
  split_ifs <;> omega

/-- The function `cbuf_write` moves `head` forward by its count, on every path,
for every ring length. -/
theorem cbuf_write_advanced {c : cbuf_t} (h : wf c) (buf : Option Mem) (n : Nat) (cr : Bool) :
    advanced c (cbuf_write c buf n cr).1 (cbuf_write c buf n cr).2
    ∧ (cbuf_write c buf n cr).2 ≤ n := by
  cases buf with
  | none =>
    simp only [cbuf_write]
    exact ⟨cbuf_write_wo_lock_advanced h none n cr, cbuf_write_wo_lock_le h none n cr⟩
  | some src =>
    simp only [cbuf_write]
    split_ifs
    · exact ⟨cbuf_write_wo_lock_advanced h (some src) n cr, cbuf_write_wo_lock_le h (some src) n cr⟩
    · obtain ⟨h1, h2, h3⟩ :=
        write_chunks_spec cr (chunk_count n CBUF_WRITE_MAX_CHUNK) c src n 0 h
      rw [Nat.sub_zero] at h1 h3
      exact ⟨h1, h3⟩

/-- The count of `cbuf_write` on a ring whose length is a power of two. -/
theorem cbuf_write_exact {c : cbuf_t} (h : wf c) (hpw : c.len = 2 ^ c.len_pow2)
    (buf : Option Mem) {n : Nat} (hn : n < UINT_MOD) (cr : Bool) :
    (cbuf_write c buf n cr).2 = min n (c.len - 1 - used c) := by
  cases buf with
  | none =>
    simp only [cbuf_write]
    exact cbuf_write_wo_lock_exact h hpw none n cr
  | some src =>
    simp only [cbuf_write]
    split_ifs
    · exact cbuf_write_wo_lock_exact h hpw (some src) n cr
    · have hcov := chunk_count_cover hn
      rw [write_chunks_count cr _ c src n 0 h hpw
        (by simp only [CBUF_WRITE_MAX_CHUNK]; omega)]
      omega

/-! ## The read path -/

theorem cbuf_get_contiguous_used_eq {c : cbuf_t} (h : wf c) (buflen pos : Nat) :
    cbuf_get_contiguous_used c buflen pos = min (run_used c) (buflen - pos) := by
  have h1 := h.head_lt
  have h2 := h.tail_lt
  have h3 := h.len_lt
  unfold cbuf_get_contiguous_used run_used
  by_cases hlt : c.tail < c.head
  · rw [if_pos hlt, if_pos hlt, usub_of_le (le_of_lt hlt) (by omega)]
  · rw [if_neg hlt, if_neg hlt, usub_of_le (le_of_lt h2) h3]

theorem run_used_pos {c : cbuf_t} (h : wf c) : 0 < run_used c := by
  have h2 := h.tail_lt
  simp only [run_used]
  split_ifs <;> omega

theorem run_used_le {c : cbuf_t} (h : wf c) (hne : c.tail ≠ c.head) : run_used c ≤ used c := by
  have h1 := h.head_lt
  have h2 := h.tail_lt
  simp only [run_used, used]
  split_ifs <;> omega

theorem consumed_refl {c : cbuf_t} (h : wf c) : consumed c c 0 :=
  ⟨h, same_conf_refl c, rfl, rfl, rfl, (Nat.mod_eq_of_lt h.tail_lt).symm⟩

theorem consumed_trans {a b c : cbuf_t} {j k : Nat} (h1 : consumed a b j) (h2 : consumed b c k) :
    consumed a c (j + k) := by
  refine ⟨h2.wf_out, same_conf_trans h1.conf h2.conf, h2.head_eq.trans h1.head_eq,
    h2.buf_eq.trans h1.buf_eq, ?_, ?_⟩
  · rw [h1.used_eq, h2.used_eq]; omega
  · rw [h2.tail_eq, h1.tail_eq, h1.conf.len_eq, Nat.mod_add_mod, Nat.add_assoc]

/-- The event bit plays no part in `consumed`. -/
theorem consumed_event {c c' : cbuf_t} {k : Nat} (h : consumed c c' k) (e : Bool) :
    consumed c { c' with event := e } k :=
  ⟨⟨h.wf_out.len_pos, h.wf_out.len_lt, h.wf_out.head_lt, h.wf_out.tail_lt, h.wf_out.pow2⟩,
    ⟨h.conf.len_eq, h.conf.len_pow2_eq, h.conf.len_max_eq, h.conf.flags_eq, h.conf.no_event_eq⟩,
    h.head_eq, h.buf_eq, h.used_eq, h.tail_eq⟩

/-- A run of `rl ≤ run_used` bytes taken at `tail` is the front of the stored
bytes. -/
theorem consumed_contents {c c' : cbuf_t} {rl : Nat} (h : wf c) (hne : c.tail ≠ c.head)
    (hrl : rl ≤ run_used c) (hc : consumed c c' rl) :
    contents c = bytes c.buf c.tail rl ++ contents c' := by
  have h1 := h.head_lt
  have h2 := h.tail_lt
  have ht := hc.tail_eq
  simp only [run_used] at hrl
  unfold contents
  rw [hc.head_eq, hc.buf_eq, hc.conf.len_eq]
  by_cases hlt : c.tail < c.head
  · rw [if_pos hlt] at hrl
    rw [Nat.mod_eq_of_lt (by omega)] at ht
    rw [ht, if_pos (le_of_lt hlt), if_pos (by omega)]
    have e : c.head - c.tail = rl + (c.head - (c.tail + rl)) := by omega
    rw [e, bytes_append]
  · rw [if_neg hlt] at hrl
    have hgt : c.head < c.tail := by omega
    rw [if_neg (by omega)]
    by_cases hfull : c.tail + rl < c.len
    · rw [Nat.mod_eq_of_lt hfull] at ht
      rw [ht, if_neg (by omega)]
      have e : c.len - c.tail = rl + (c.len - (c.tail + rl)) := by omega
      rw [e, bytes_append, List.append_assoc]
    · have e : c.tail + rl = c.len := by omega
      rw [e, Nat.mod_self] at ht
      rw [ht, if_pos (Nat.zero_le _), Nat.sub_zero]
      congr 2
      omega

theorem read_pass_conf (c : cbuf_t) (buf : Option Mem) (en : Bool) (pos rl : Nat) :
    same_conf c (read_pass c buf en pos rl).1 := by
  refine ⟨?_, ?_, ?_, ?_, ?_⟩ <;> simp only [read_pass] <;> split_ifs <;> rfl

theorem read_pass_head (c : cbuf_t) (buf : Option Mem) (en : Bool) (pos rl : Nat) :
    (read_pass c buf en pos rl).1.head = c.head := by
  simp only [read_pass]; split_ifs <;> rfl

theorem read_pass_buf (c : cbuf_t) (buf : Option Mem) (en : Bool) (pos rl : Nat) :
    (read_pass c buf en pos rl).1.buf = c.buf := by
  simp only [read_pass]; split_ifs <;> rfl

theorem read_pass_event (c : cbuf_t) (buf : Option Mem) (en : Bool) (pos rl : Nat) :
    (read_pass c buf en pos rl).1.event = c.event := by
  simp only [read_pass]; split_ifs <;> rfl

theorem read_pass_tail (c : cbuf_t) (buf : Option Mem) (en : Bool) (pos rl : Nat) :
    (read_pass c buf en pos rl).1.tail = INC_POINTER c SIZE_MOD c.tail rl := by
  simp only [read_pass]; split_ifs <;> rfl

/-- The caller's buffer after a pass that copies to it. -/
theorem read_pass_out_some (c : cbuf_t) (dst : Mem) (pos rl : Nat) :
    (read_pass c (some dst) true pos rl).2 = some (memcpy dst pos c.buf c.tail rl) := by
  simp only [read_pass]; split_ifs <;> rfl

theorem read_pass_out_none (c : cbuf_t) (en : Bool) (pos rl : Nat) :
    (read_pass c none en pos rl).2 = none := rfl

/-- A ring that differs from `c` by `tail` moved over a run of `rl ≤ run_used`
bytes has consumed `rl` bytes. -/
theorem consumed_of_fields {c c' : cbuf_t} (h : wf c) (hne : c.tail ≠ c.head) {rl : Nat}
    (hrl : rl ≤ run_used c) (hconf : same_conf c c') (hhead : c'.head = c.head)
    (hbuf : c'.buf = c.buf) (htail : c'.tail = (c.tail + rl) % c.len) : consumed c c' rl := by
  have h1 := h.head_lt
  have h2 := h.tail_lt
  have hwf : wf c' := by
    refine ⟨?_, ?_, ?_, ?_, ?_⟩
    · rw [hconf.len_eq]; exact h.len_pos
    · rw [hconf.len_eq]; exact h.len_lt
    · rw [hconf.len_eq, hhead]; exact h.head_lt
    · rw [hconf.len_eq, htail]; exact Nat.mod_lt _ h.len_pos
    · rw [hconf.len_eq, hconf.len_pow2_eq]; exact h.pow2
  refine ⟨hwf, hconf, hhead, hbuf, ?_, htail⟩
  simp only [used, hhead, htail, hconf.len_eq]
  simp only [run_used] at hrl
  by_cases hlt : c.tail < c.head
  · rw [if_pos hlt] at hrl
    rw [Nat.mod_eq_of_lt (by omega)]
    split_ifs <;> omega
  · rw [if_neg hlt] at hrl
    by_cases hfull : c.tail + rl < c.len
    · rw [Nat.mod_eq_of_lt hfull]
      split_ifs <;> omega
    · have e : c.tail + rl = c.len := by omega
      rw [e, Nat.mod_self]
      split_ifs <;> omega

theorem run_used_bound {c : cbuf_t} (h : wf c) {rl : Nat} (hrl : rl ≤ run_used c) :
    c.tail + rl ≤ c.len := by
  have h1 := h.head_lt
  have h2 := h.tail_lt
  simp only [run_used] at hrl
  split_ifs at hrl <;> omega

theorem read_pass_consumed {c : cbuf_t} (h : wf c) (hne : c.tail ≠ c.head) (buf : Option Mem)
    (en : Bool) (pos : Nat) {rl : Nat} (hrl : rl ≤ run_used c) :
    consumed c (read_pass c buf en pos rl).1 rl := by
  have h3 := h.len_lt
  have hb := run_used_bound h hrl
  refine consumed_of_fields h hne hrl (read_pass_conf ..) (read_pass_head ..)
    (read_pass_buf ..) ?_
  rw [read_pass_tail]
  apply INC_POINTER_eq h
  simp only [SIZE_MOD, UINT_MOD] at h3 ⊢
  omega

theorem read_loop_stop (n : Nat) (en : Bool) (fuel : Nat) (c : cbuf_t) (buf : Option Mem)
    (pos : Nat) (h : ¬(pos < n ∧ c.tail ≠ c.head)) :
    read_loop n en fuel c buf pos = (c, buf, pos) := by
  cases fuel with
  | zero => rfl
  | succ k => simp only [read_loop, if_neg h]

theorem read_loop_step (n : Nat) (en : Bool) (fuel : Nat) (c : cbuf_t) (buf : Option Mem)
    (pos : Nat) (h : pos < n ∧ c.tail ≠ c.head) :
    read_loop n en (fuel + 1) c buf pos =
      read_loop n en fuel
        (read_pass c buf en pos (cbuf_get_contiguous_used c n pos)).1
        (read_pass c buf en pos (cbuf_get_contiguous_used c n pos)).2
        (pos + cbuf_get_contiguous_used c n pos) := by
  simp only [read_loop, if_pos h]

theorem read_loop_spec (n : Nat) (en : Bool) :
    ∀ (fuel : Nat) (c : cbuf_t) (buf : Option Mem) (pos : Nat), wf c → pos ≤ n →
      consumed c (read_loop n en fuel c buf pos).1 ((read_loop n en fuel c buf pos).2.2 - pos)
      ∧ (read_loop n en fuel c buf pos).1.event = c.event
      ∧ pos ≤ (read_loop n en fuel c buf pos).2.2
      ∧ (read_loop n en fuel c buf pos).2.2 ≤ n := by
  intro fuel
  induction fuel with
  | zero =>
    intro c buf pos h hp
    show consumed c c (pos - pos) ∧ c.event = c.event ∧ pos ≤ pos ∧ pos ≤ n
    rw [Nat.sub_self]
    exact ⟨consumed_refl h, rfl, le_refl _, hp⟩
  | succ k ih =>
    intro c buf pos h hp
    by_cases hc : pos < n ∧ c.tail ≠ c.head
    · rw [read_loop_step n en k c buf pos hc]
      have hrl := cbuf_get_contiguous_used_eq h n pos
      generalize cbuf_get_contiguous_used c n pos = rl at hrl ⊢
      have hru : rl ≤ run_used c := by omega
      have hcons := read_pass_consumed h hc.2 buf en pos hru
      obtain ⟨h1, h2, h3, h4⟩ := ih (read_pass c buf en pos rl).1 (read_pass c buf en pos rl).2
        (pos + rl) hcons.wf_out (by omega)
      generalize read_loop n en k (read_pass c buf en pos rl).1 (read_pass c buf en pos rl).2
        (pos + rl) = q at h1 h2 h3 h4 ⊢
      refine ⟨?_, ?_, by omega, h4⟩
      · have e : q.2.2 - pos = rl + (q.2.2 - (pos + rl)) := by omega
        rw [e]
        exact consumed_trans hcons h1
      · rw [h2, read_pass_event]
    · rw [read_loop_stop n en _ c buf pos hc]
      show consumed c c (pos - pos) ∧ c.event = c.event ∧ pos ≤ pos ∧ pos ≤ n
      rw [Nat.sub_self]
      exact ⟨consumed_refl h, rfl, le_refl _, hp⟩

/-- The read loop has passes enough: on a well-formed ring, from `buflen - pos`
passes on, one more changes nothing. -/
theorem read_loop_fuel (n : Nat) (en : Bool) :
    ∀ (fuel : Nat) (c : cbuf_t) (buf : Option Mem) (pos : Nat), wf c → n - pos ≤ fuel →
      read_loop n en (fuel + 1) c buf pos = read_loop n en fuel c buf pos := by
  intro fuel
  induction fuel with
  | zero =>
    intro c buf pos _ hf
    rw [read_loop_stop n en 1 c buf pos (by omega)]
    rfl
  | succ k ih =>
    intro c buf pos h hf
    by_cases hc : pos < n ∧ c.tail ≠ c.head
    · rw [read_loop_step n en (k + 1) c buf pos hc, read_loop_step n en k c buf pos hc]
      have hrl := cbuf_get_contiguous_used_eq h n pos
      have hpos := run_used_pos h
      generalize cbuf_get_contiguous_used c n pos = rl at hrl ⊢
      have hru : rl ≤ run_used c := by omega
      exact ih _ _ _ (read_pass_consumed h hc.2 buf en pos hru).wf_out (by omega)
    · rw [read_loop_stop n en _ c buf pos hc, read_loop_stop n en _ c buf pos hc]

/-- The count of the read loop, for every ring length: the request or the
stored bytes, whichever is less. -/
theorem read_loop_count (n : Nat) (en : Bool) :
    ∀ (fuel : Nat) (c : cbuf_t) (buf : Option Mem) (pos : Nat), wf c → n - pos ≤ fuel →
      (read_loop n en fuel c buf pos).2.2 = pos + min (n - pos) (used c) := by
  intro fuel
  induction fuel with
  | zero =>
    intro c buf pos h hf
    simp only [read_loop]
    omega
  | succ k ih =>
    intro c buf pos h hf
    by_cases hc : pos < n ∧ c.tail ≠ c.head
    · rw [read_loop_step n en k c buf pos hc]
      have hrl := cbuf_get_contiguous_used_eq h n pos
      have hpos := run_used_pos h
      have hle := run_used_le h hc.2
      generalize cbuf_get_contiguous_used c n pos = rl at hrl ⊢
      have hru : rl ≤ run_used c := by omega
      have hcons := read_pass_consumed h hc.2 buf en pos hru
      have hu := hcons.used_eq
      rw [ih _ _ (pos + rl) hcons.wf_out (by omega)]
      omega
    · rw [read_loop_stop n en _ c buf pos hc]
      simp only
      have := used_eq_zero_iff h
      by_cases hp : pos < n
      · have : c.head = c.tail := by
          by_contra hne
          exact hc ⟨hp, fun e => hne e.symm⟩
        have : used c = 0 := (used_eq_zero_iff h).mpr this
        omega
      · omega

/-- With a software reader the read loop delivers the front of the stored bytes
to the caller's buffer, from offset `pos` on, and leaves the buffer below `pos`
as it was. -/
theorem read_loop_out (n : Nat) :
    ∀ (fuel : Nat) (c : cbuf_t) (dst : Mem) (pos : Nat), wf c → pos ≤ n →
      ∃ d, (read_loop n true fuel c (some dst) pos).2.1 = some d
        ∧ (∀ i, i < pos → d i = dst i)
        ∧ contents c = bytes d pos ((read_loop n true fuel c (some dst) pos).2.2 - pos)
            ++ contents (read_loop n true fuel c (some dst) pos).1 := by
  intro fuel
  induction fuel with
  | zero =>
    intro c dst pos h hp
    exact ⟨dst, rfl, fun _ _ => rfl, by simp [read_loop, bytes_zero]⟩
  | succ k ih =>
    intro c dst pos h hp
    by_cases hc : pos < n ∧ c.tail ≠ c.head
    · rw [read_loop_step n true k c (some dst) pos hc]
      have hrl := cbuf_get_contiguous_used_eq h n pos
      generalize cbuf_get_contiguous_used c n pos = rl at hrl ⊢
      have hru : rl ≤ run_used c := by omega
      have hcons := read_pass_consumed h hc.2 (some dst) true pos hru
      have hcont := consumed_contents h hc.2 hru hcons
      have hspec := read_loop_spec n true k (read_pass c (some dst) true pos rl).1
        (read_pass c (some dst) true pos rl).2 (pos + rl) hcons.wf_out (by omega)
      rw [read_pass_out_some] at hspec ⊢
      obtain ⟨d, hd1, hd2, hd3⟩ := ih (read_pass c (some dst) true pos rl).1
        (memcpy dst pos c.buf c.tail rl) (pos + rl) hcons.wf_out (by omega)
      generalize read_loop n true k (read_pass c (some dst) true pos rl).1
        (some (memcpy dst pos c.buf c.tail rl)) (pos + rl) = q at hspec hd1 hd3 ⊢
      refine ⟨d, hd1, ?_, ?_⟩
      · intro i hi
        rw [hd2 i (by omega)]
        simp only [memcpy]
        rw [if_neg (by omega)]
      · have hq := hspec.2.2.1
        have e : q.2.2 - pos = rl + (q.2.2 - (pos + rl)) := by omega
        rw [hcont, hd3, e, bytes_append, List.append_assoc]
        congr 1
        apply bytes_congr
        intro j hj
        rw [hd2 (pos + j) (by omega)]
        simp only [memcpy]
        rw [if_pos (by omega)]
        congr 1
        omega
    · rw [read_loop_stop n true _ c (some dst) pos hc]
      exact ⟨dst, rfl, fun _ _ => rfl, by simp [bytes_zero]⟩

theorem cbuf_read_wo_lock_consumed {c : cbuf_t} (h : wf c) (buf : Option Mem) (n : Nat)
    (block : Bool) :
    consumed c (cbuf_read_wo_lock c buf n block).1 (cbuf_read_wo_lock c buf n block).2.2
    ∧ (cbuf_read_wo_lock c buf n block).2.2 ≤ n := by
  obtain ⟨h1, _, _, h4⟩ := read_loop_spec n (cbuf_is_sw_reader c) n c buf 0 h (Nat.zero_le _)
  rw [Nat.sub_zero] at h1
  simp only [cbuf_read_wo_lock]
  split_ifs
  · exact ⟨consumed_event h1 false, h4⟩
  · exact ⟨h1, h4⟩
  · exact ⟨consumed_refl h, Nat.zero_le _⟩

/-- The count of `cbuf_read_wo_lock`, for every ring length. -/
theorem cbuf_read_wo_lock_exact {c : cbuf_t} (h : wf c) (buf : Option Mem) (n : Nat)
    (block : Bool) : (cbuf_read_wo_lock c buf n block).2.2 = min n (used c) := by
  have hc := read_loop_count n (cbuf_is_sw_reader c) n c buf 0 h (by omega)
  simp only [cbuf_read_wo_lock]
  split_ifs with h1 h2
  · simp only [hc]; omega
  · simp only [hc]; omega
  · have : used c = 0 := (used_eq_zero_iff h).mpr (by
      by_contra hne
      exact h1 (fun e => hne e.symm))
    simp only [this]
    omega

/-- With a software reader `cbuf_read_wo_lock` delivers the front of the stored
bytes, for every ring length. -/
theorem cbuf_read_wo_lock_out {c : cbuf_t} (h : wf c) (hsw : cbuf_is_sw_reader c = true)
    (dst : Mem) (n : Nat) (block : Bool) :
    ∃ d, (cbuf_read_wo_lock c (some dst) n block).2.1 = some d
      ∧ contents c = bytes d 0 (cbuf_read_wo_lock c (some dst) n block).2.2
          ++ contents (cbuf_read_wo_lock c (some dst) n block).1 := by
  obtain ⟨d, hd1, _, hd3⟩ := read_loop_out n n c dst 0 h (Nat.zero_le _)
  rw [Nat.sub_zero] at hd3
  simp only [cbuf_read_wo_lock, hsw]
  split_ifs
  · refine ⟨d, hd1, ?_⟩
    rw [hd3]
    congr 1
  · exact ⟨d, hd1, hd3⟩
  · exact ⟨dst, rfl, by simp [bytes_zero]⟩

theorem read_chunks_spec (block : Bool) :
    ∀ (loop : Nat) (c : cbuf_t) (buf : Mem) (rem ret : Nat), wf c →
      consumed c (read_chunks block loop c buf rem ret).1
        ((read_chunks block loop c buf rem ret).2.2 - ret)
      ∧ ret ≤ (read_chunks block loop c buf rem ret).2.2
      ∧ (read_chunks block loop c buf rem ret).2.2 - ret ≤ rem := by
  intro loop
  induction loop with
  | zero =>
    intro c buf rem ret h
    show consumed c c (ret - ret) ∧ ret ≤ ret ∧ ret - ret ≤ rem
    rw [Nat.sub_self]
    exact ⟨consumed_refl h, le_refl _, Nat.zero_le _⟩
  | succ k ih =>
    intro c buf rem ret h
    simp only [read_chunks]
    obtain ⟨ha, hle⟩ := cbuf_read_wo_lock_consumed h (some (shift buf ret))
      (if rem > CBUF_READ_MAX_CHUNK then CBUF_READ_MAX_CHUNK else rem) block
    generalize cbuf_read_wo_lock c (some (shift buf ret))
      (if rem > CBUF_READ_MAX_CHUNK then CBUF_READ_MAX_CHUNK else rem) block = r at ha hle ⊢
    have hchunk : (if rem > CBUF_READ_MAX_CHUNK then CBUF_READ_MAX_CHUNK else rem) ≤ rem := by
      split_ifs <;> omega
    by_cases hz : r.2.2 = 0
    · rw [if_pos hz]
      simp only [Nat.sub_self]
      rw [hz] at ha
      exact ⟨ha, le_refl _, Nat.zero_le _⟩
    · rw [if_neg hz]
      generalize (match r.2.1 with
        | some v => unshift buf ret v
        | none => buf) = b1
      obtain ⟨h1, h2, h3⟩ := ih r.1 b1 (rem - r.2.2) (ret + r.2.2) ha.wf_out
      generalize (read_chunks block k r.1 b1 (rem - r.2.2) (ret + r.2.2)) = q at h1 h2 h3 ⊢
      refine ⟨?_, by omega, by omega⟩
      have e : q.2.2 - ret = r.2.2 + (q.2.2 - (ret + r.2.2)) := by omega
      rw [e]
      exact consumed_trans ha h1

/-- The count of the chunk loop of `cbuf_read`, when the passes left cover what
can be read. -/
theorem read_chunks_count (block : Bool) :
    ∀ (loop : Nat) (c : cbuf_t) (buf : Mem) (rem ret : Nat), wf c →
      min rem (used c) ≤ loop * CBUF_READ_MAX_CHUNK →
      (read_chunks block loop c buf rem ret).2.2 = ret + min rem (used c) := by
  intro loop
  induction loop with
  | zero =>
    intro c buf rem ret h hl
    simp only [read_chunks]
    omega
  | succ k ih =>
    intro c buf rem ret h hl
    simp only [read_chunks]
    obtain ⟨ha, _⟩ := cbuf_read_wo_lock_consumed h (some (shift buf ret))
      (if rem > CBUF_READ_MAX_CHUNK then CBUF_READ_MAX_CHUNK else rem) block
    have hex := cbuf_read_wo_lock_exact h (some (shift buf ret))
      (if rem > CBUF_READ_MAX_CHUNK then CBUF_READ_MAX_CHUNK else rem) block
    generalize cbuf_read_wo_lock c (some (shift buf ret))
      (if rem > CBUF_READ_MAX_CHUNK then CBUF_READ_MAX_CHUNK else rem) block = r at ha hex ⊢
    have hu := ha.used_eq
    by_cases hz : r.2.2 = 0
    · rw [if_pos hz]
      simp only
      split_ifs at hex <;> simp only [CBUF_READ_MAX_CHUNK] at * <;> omega
    · rw [if_neg hz]
      generalize (match r.2.1 with
        | some v => unshift buf ret v
        | none => buf) = b1
      rw [ih r.1 b1 (rem - r.2.2) (ret + r.2.2) ha.wf_out
        (by split_ifs at hex <;> simp only [CBUF_READ_MAX_CHUNK] at * <;> omega)]
      split_ifs at hex <;> simp only [CBUF_READ_MAX_CHUNK] at * <;> omega

/-- An attempt of `cbuf_read` moves `tail` forward by its count, on every path,
for every ring length. -/
theorem cbuf_read_attempt_consumed {c : cbuf_t} (h : wf c) (buf : Option Mem) (n : Nat)
    (block : Bool) :
    consumed c (cbuf_read_attempt c buf n block).1 (cbuf_read_attempt c buf n block).2.2
    ∧ (cbuf_read_attempt c buf n block).2.2 ≤ n := by
  cases buf with
  | none =>
    simp only [cbuf_read_attempt]
    exact cbuf_read_wo_lock_consumed h none n block
  | some dst =>
    simp only [cbuf_read_attempt]
    split_ifs
    · exact cbuf_read_wo_lock_consumed h (some dst) n block
    · obtain ⟨h1, h2, h3⟩ :=
        read_chunks_spec block (chunk_count n CBUF_READ_MAX_CHUNK) c dst n 0 h
      rw [Nat.sub_zero] at h1 h3
      exact ⟨h1, h3⟩

/-- The count of an attempt of `cbuf_read`, for every ring length. -/
theorem cbuf_read_attempt_exact {c : cbuf_t} (h : wf c) (buf : Option Mem) {n : Nat}
    (hn : n < UINT_MOD ∨ cbuf_reader_use_max_chunk c = false ∨ buf = none) (block : Bool) :
    (cbuf_read_attempt c buf n block).2.2 = min n (used c) := by
  cases buf with
  | none =>
    simp only [cbuf_read_attempt]
    exact cbuf_read_wo_lock_exact h none n block
  | some dst =>
    simp only [cbuf_read_attempt]
    split_ifs with hflag
    · exact cbuf_read_wo_lock_exact h (some dst) n block
    · have hn1 : n < UINT_MOD := by
        rcases hn with hn | hn | hn
        · exact hn
        · exact absurd hn hflag
        · exact absurd hn (by simp)
      have hcov := chunk_count_cover hn1
      rw [read_chunks_count block _ c dst n 0 h
        (by simp only [CBUF_READ_MAX_CHUNK]; omega)]
      omega

/-- A non-blocking `cbuf_read` returns: it is one attempt. -/
theorem cbuf_read_nonblock (c : cbuf_t) (buf : Option Mem) (n : Nat) :
    cbuf_read c buf n false = some (cbuf_read_attempt c buf n false) := by
  simp [cbuf_read]

/-! ## Initialisation -/

theorem _cbuf_set_size_len (c : cbuf_t) (len : Nat) :
    (_cbuf_set_size c len).len = len % UINT_MOD := by
  simp only [_cbuf_set_size]; split_ifs <;> rfl

theorem _cbuf_set_size_pow2 (c : cbuf_t) (len : Nat) :
    (_cbuf_set_size c len).len_pow2 ≠ 0 →
      (_cbuf_set_size c len).len = 2 ^ (_cbuf_set_size c len).len_pow2 := by
  simp only [_cbuf_set_size]
  split_ifs with h
  · intro _
    simp only [ispow2, decide_eq_true_eq] at h
    exact h.symm
  · intro h0
    exact absurd rfl h0

theorem _cbuf_set_size_frame (c : cbuf_t) (len : Nat) :
    (_cbuf_set_size c len).head = c.head ∧ (_cbuf_set_size c len).tail = c.tail
    ∧ (_cbuf_set_size c len).len_max = c.len_max ∧ (_cbuf_set_size c len).buf = c.buf
    ∧ (_cbuf_set_size c len).event = c.event ∧ (_cbuf_set_size c len).no_event = c.no_event
    ∧ (_cbuf_set_size c len).is_reset = c.is_reset ∧ (_cbuf_set_size c len).flags = c.flags
    ∧ (_cbuf_set_size c len).cache = c.cache := by
  simp only [_cbuf_set_size]; split_ifs <;> exact ⟨rfl, rfl, rfl, rfl, rfl, rfl, rfl, rfl, rfl⟩

/-- The fields of a freshly initialised ring. -/
theorem cbuf_initialize_etc_fields (len : Nat) (buf : Mem) :
    (cbuf_initialize_etc len buf).head = 0 ∧ (cbuf_initialize_etc len buf).tail = 0
    ∧ (cbuf_initialize_etc len buf).len = len % UINT_MOD
    ∧ (cbuf_initialize_etc len buf).len_max = len % UINT_MOD
    ∧ (cbuf_initialize_etc len buf).buf = buf
    ∧ (cbuf_initialize_etc len buf).event = false
    ∧ (cbuf_initialize_etc len buf).no_event = false
    ∧ (cbuf_initialize_etc len buf).is_reset = false
    ∧ (cbuf_initialize_etc len buf).flags = CBUF_FLAG_DEFAULT
    ∧ (cbuf_initialize_etc len buf).cache = [] := by
  by_cases h : ispow2 (len % UINT_MOD) = true <;> simp [cbuf_initialize_etc, _cbuf_set_size, h]

theorem cbuf_initialize_etc_wf {len : Nat} (buf : Mem) (h1 : 1 ≤ len) (h2 : len < UINT_MOD) :
    wf (cbuf_initialize_etc len buf) := by
  obtain ⟨hh, ht, hl, _⟩ := cbuf_initialize_etc_fields len buf
  rw [Nat.mod_eq_of_lt h2] at hl
  refine ⟨by omega, by omega, by omega, by omega, ?_⟩
  have := _cbuf_set_size_pow2
    { head := 0, tail := 0, len_max := len % UINT_MOD, len := 0, len_pow2 := 0, buf := buf,
      event := false, no_event := false, is_reset := false, flags := 0, cache := [] } len
  exact this

theorem default_flags_sw {c : cbuf_t} (h : c.flags = CBUF_FLAG_DEFAULT) :
    cbuf_is_sw_writer c = true ∧ cbuf_is_sw_reader c = true
    ∧ cbuf_writer_use_max_chunk c = false ∧ cbuf_reader_use_max_chunk c = false := by
  simp only [cbuf_is_sw_writer, cbuf_is_sw_reader, cbuf_writer_use_max_chunk,
    cbuf_reader_use_max_chunk, h]
  decide

/-! ## The contracts of `cbuf_write` and `cbuf_read` -/

theorem wf_of_pow2 {c : cbuf_t} (hpw : c.len = 2 ^ c.len_pow2) (hlt : c.len < UINT_MOD)
    (hh : c.head < c.len) (ht : c.tail < c.len) : wf c :=
  ⟨by omega, hlt, hh, ht, fun _ => hpw⟩

/-- C2: on a ring whose length is a power of two at least 2, with `head` and
`tail` below the length, `cbuf_write` of `n < len` bytes, from a buffer or from
`NULL`, whatever the flags, returns the smaller of `n` and `cbuf_space_avail` at
entry; the count is below `n` only when the ring is full on exit; `head` becomes
`(head + count) mod len`, `tail` stays, and `cbuf_space_used` grows by the
count. -/
theorem cbuf_write_returns_min (c : cbuf_t) (buf : Option Mem) (n : Nat) (canreschedule : Bool)
    (hpw : c.len = 2 ^ c.len_pow2) (hlen : 2 ≤ c.len) (hlt : c.len < UINT_MOD)
    (hh : c.head < c.len) (ht : c.tail < c.len) (hn : n < c.len) :
    (cbuf_write c buf n canreschedule).2 = min n (cbuf_space_avail c)
    ∧ ((cbuf_write c buf n canreschedule).2 < n →
        cbuf_space_avail (cbuf_write c buf n canreschedule).1 = 0)
    ∧ (cbuf_write c buf n canreschedule).1.head
        = (c.head + (cbuf_write c buf n canreschedule).2) % c.len
    ∧ (cbuf_write c buf n canreschedule).1.tail = c.tail
    ∧ cbuf_space_used (cbuf_write c buf n canreschedule).1
        = cbuf_space_used c + (cbuf_write c buf n canreschedule).2 := by
  have h := wf_of_pow2 hpw hlt hh ht
  obtain ⟨ha, _⟩ := cbuf_write_advanced h buf n canreschedule
  have hex := cbuf_write_exact h hpw buf (lt_trans hn hlt) canreschedule
  have hpw1 : (cbuf_write c buf n canreschedule).1.len
      = 2 ^ (cbuf_write c buf n canreschedule).1.len_pow2 := by
    rw [ha.conf.len_eq, ha.conf.len_pow2_eq]; exact hpw
  have hu := ha.used_eq
  rw [cbuf_space_avail_eq h (Or.inr hpw), cbuf_space_avail_eq ha.wf_out (Or.inr hpw1),
    cbuf_space_used_eq h (Or.inr hpw), cbuf_space_used_eq ha.wf_out (Or.inr hpw1), ha.conf.len_eq]
  refine ⟨hex, ?_, ha.head_eq, ha.tail_eq, hu⟩
  intro hshort
  omega

/-- Where the contract of C3 holds: on a ring whose length is a power of two,
with `head` and `tail` below the length, a non-blocking `cbuf_read` of `n`
bytes, where `n` is any count when the read is not chunked (flag clear, or
`NULL` buffer) and a 32-bit count when it is, returns, and its count is the
smaller of `n` and `cbuf_space_used` at entry; the count is 0 only when `n = 0`
or the ring is empty; `tail` becomes `(tail + count) mod len`; `head` and the
stored bytes stay; the read into `NULL` has the same count and leaves the same
indices. -/
theorem cbuf_read_returns_min (c : cbuf_t) (buf : Option Mem) (n : Nat)
    (hpw : c.len = 2 ^ c.len_pow2) (hlt : c.len < UINT_MOD)
    (hh : c.head < c.len) (ht : c.tail < c.len)
    (hn : n < UINT_MOD ∨ cbuf_reader_use_max_chunk c = false ∨ buf = none) :
    ∃ r r0, cbuf_read c buf n false = some r
      ∧ r.2.2 = min n (cbuf_space_used c)
      ∧ (r.2.2 = 0 → n = 0 ∨ c.head = c.tail)
      ∧ r.1.tail = (c.tail + r.2.2) % c.len
      ∧ r.1.head = c.head
      ∧ r.1.buf = c.buf
      ∧ cbuf_read c none n false = some r0
      ∧ r0.2.2 = r.2.2 ∧ r0.1.tail = r.1.tail ∧ r0.1.head = r.1.head := by
  have h := wf_of_pow2 hpw hlt hh ht
  obtain ⟨ha, _⟩ := cbuf_read_attempt_consumed h buf n false
  have hex := cbuf_read_attempt_exact h buf hn false
  obtain ⟨ha0, _⟩ := cbuf_read_attempt_consumed h none n false
  have hex0 := cbuf_read_attempt_exact h none (n := n) (Or.inr (Or.inr rfl)) false
  refine ⟨cbuf_read_attempt c buf n false, cbuf_read_attempt c none n false,
    cbuf_read_nonblock c buf n, ?_, ?_, ha.tail_eq, ha.head_eq, ha.buf_eq,
    cbuf_read_nonblock c none n, ?_, ?_, ?_⟩
  · rw [cbuf_space_used_eq h (Or.inr hpw)]
    exact hex
  · intro hz
    have hu := used_eq_zero_iff h
    rw [hex] at hz
    by_cases h0 : n = 0
    · exact Or.inl h0
    · right
      apply hu.mp
      omega
  · rw [hex0, hex]
  · rw [ha0.tail_eq, ha.tail_eq, hex0, hex]
  · rw [ha0.head_eq, ha.head_eq]

/-! ## First in, first out -/

theorem cbuf_write_unchunked {c : cbuf_t} (h : cbuf_writer_use_max_chunk c = false)
    (buf : Option Mem) (n : Nat) (cr : Bool) :
    cbuf_write c buf n cr = cbuf_write_wo_lock c buf n cr := by
  cases buf <;> simp [cbuf_write, h]

theorem cbuf_read_attempt_unchunked {c : cbuf_t} (h : cbuf_reader_use_max_chunk c = false)
    (buf : Option Mem) (n : Nat) (block : Bool) :
    cbuf_read_attempt c buf n block = cbuf_read_wo_lock c buf n block := by
  cases buf <;> simp [cbuf_read_attempt, h]

theorem fifo_step_inv {s : Fifo} (h : fifo_inv s) (x : Xfer) : fifo_inv (fifo_step s x) := by
  obtain ⟨hsw, hsr, hcw, hcr⟩ := default_flags_sw h.flags_eq
  cases x with
  | write src n cr =>
    simp only [fifo_step]
    rw [cbuf_write_unchunked hcw]
    have ha := cbuf_write_wo_lock_advanced h.wf_ring (some src) n cr
    have hc := cbuf_write_wo_lock_contents h.wf_ring hsw src n cr
    refine ⟨ha.wf_out, ?_, ?_⟩
    · show (cbuf_write_wo_lock s.ring (some src) n cr).1.flags = CBUF_FLAG_DEFAULT
      rw [ha.conf.flags_eq]; exact h.flags_eq
    · show s.accepted ++ bytes src 0 (cbuf_write_wo_lock s.ring (some src) n cr).2
        = s.returned ++ contents (cbuf_write_wo_lock s.ring (some src) n cr).1
      rw [hc, h.stored, List.append_assoc]
  | read dst n =>
    simp only [fifo_step]
    rw [cbuf_read_nonblock, cbuf_read_attempt_unchunked hcr]
    obtain ⟨ha, _⟩ := cbuf_read_wo_lock_consumed h.wf_ring (some dst) n false
    obtain ⟨d, hd1, hd2⟩ := cbuf_read_wo_lock_out h.wf_ring hsr dst n false
    refine ⟨ha.wf_out, ?_, ?_⟩
    · show (cbuf_read_wo_lock s.ring (some dst) n false).1.flags = CBUF_FLAG_DEFAULT
      rw [ha.conf.flags_eq]; exact h.flags_eq
    · show s.accepted = (s.returned ++ bytes ((cbuf_read_wo_lock s.ring (some dst) n false).2.1.getD
          dst) 0 (cbuf_read_wo_lock s.ring (some dst) n false).2.2)
          ++ contents (cbuf_read_wo_lock s.ring (some dst) n false).1
      rw [hd1, Option.getD_some, h.stored, hd2, List.append_assoc]

theorem fifo_run_inv (xs : List Xfer) : ∀ s : Fifo, fifo_inv s → fifo_inv (fifo_run s xs) := by
  induction xs with
  | nil => intro s h; exact h
  | cons x xs ih =>
    intro s h
    exact ih (fifo_step s x) (fifo_step_inv h x)

theorem contents_empty {c : cbuf_t} (h : c.head = c.tail) : contents c = [] := by
  unfold contents
  rw [h, if_pos (le_refl _), Nat.sub_self, bytes_zero]

theorem contents_length {c : cbuf_t} (h : wf c) : (contents c).length = used c := by
  have h1 := h.head_lt
  have h2 := h.tail_lt
  unfold contents used
  split_ifs
  · rw [bytes_length]
  · rw [List.length_append, bytes_length, bytes_length]; omega

/-- C1: first in, first out.  For every ring length `len ≥ 2`, power of two or
not, and every list of `cbuf_write` calls from a buffer with `n < len` and of
non-blocking `cbuf_read` calls into a buffer, run on a freshly initialised
ring, the bytes the reads returned are an initial segment of the bytes the
writes accepted, and are all of them when the ring ends empty.  And at an
empty ring so reached, wherever `head = tail` stands, a write of `n` bytes that
returns `n` followed by a read of `n` returns `n` and exactly those bytes. -/
theorem fifo_order (len : Nat) (buf : Mem) (xs : List Xfer)
    (hlen : 2 ≤ len) (hlt : len < UINT_MOD) (hfit : ∀ x ∈ xs, x.wreq < len) :
    (∃ rest, (fifo_run ⟨cbuf_initialize_etc len buf, [], []⟩ xs).accepted
        = (fifo_run ⟨cbuf_initialize_etc len buf, [], []⟩ xs).returned ++ rest)
    ∧ ((fifo_run ⟨cbuf_initialize_etc len buf, [], []⟩ xs).ring.head
          = (fifo_run ⟨cbuf_initialize_etc len buf, [], []⟩ xs).ring.tail →
        (fifo_run ⟨cbuf_initialize_etc len buf, [], []⟩ xs).returned
          = (fifo_run ⟨cbuf_initialize_etc len buf, [], []⟩ xs).accepted)
    ∧ ((fifo_run ⟨cbuf_initialize_etc len buf, [], []⟩ xs).ring.head
          = (fifo_run ⟨cbuf_initialize_etc len buf, [], []⟩ xs).ring.tail →
        ∀ (src dst : Mem) (n : Nat) (canreschedule : Bool), n < len →
          (cbuf_write (fifo_run ⟨cbuf_initialize_etc len buf, [], []⟩ xs).ring
            (some src) n canreschedule).2 = n →
          ∃ r d, cbuf_read (cbuf_write (fifo_run ⟨cbuf_initialize_etc len buf, [], []⟩ xs).ring
              (some src) n canreschedule).1 (some dst) n false = some r
            ∧ r.2.2 = n ∧ r.2.1 = some d ∧ bytes d 0 n = bytes src 0 n) := by
  have h0 : fifo_inv ⟨cbuf_initialize_etc len buf, [], []⟩ := by
    obtain ⟨hh, ht, _, _, _, _, _, _, hf, _⟩ := cbuf_initialize_etc_fields len buf
    refine ⟨cbuf_initialize_etc_wf buf (by omega) hlt, hf, ?_⟩
    show [] = [] ++ contents (cbuf_initialize_etc len buf)
    rw [contents_empty (by rw [hh, ht])]
    rfl
  have hinv := fifo_run_inv xs _ h0
  generalize fifo_run ⟨cbuf_initialize_etc len buf, [], []⟩ xs = s at hinv ⊢
  refine ⟨⟨contents s.ring, hinv.stored⟩, ?_, ?_⟩
  · intro he
    rw [hinv.stored, contents_empty he, List.append_nil]
  · intro he src dst n cr _ hret
    obtain ⟨hsw, hsr, hcw, hcr⟩ := default_flags_sw hinv.flags_eq
    rw [cbuf_write_unchunked hcw] at hret ⊢
    have ha := cbuf_write_wo_lock_advanced hinv.wf_ring (some src) n cr
    have hc := cbuf_write_wo_lock_contents hinv.wf_ring hsw src n cr
    rw [contents_empty he, List.nil_append, hret] at hc
    have hu := ha.used_eq
    rw [(used_eq_zero_iff hinv.wf_ring).mpr he, hret, Nat.zero_add] at hu
    generalize (cbuf_write_wo_lock s.ring (some src) n cr).1 = c1 at ha hc hu ⊢
    have hcr1 : cbuf_reader_use_max_chunk c1 = false := by
      simp only [cbuf_reader_use_max_chunk, ha.conf.flags_eq] at hcr ⊢
      exact hcr
    have hsr1 : cbuf_is_sw_reader c1 = true := by
      simp only [cbuf_is_sw_reader, ha.conf.flags_eq] at hsr ⊢
      exact hsr
    rw [cbuf_read_nonblock, cbuf_read_attempt_unchunked hcr1]
    have hex := cbuf_read_wo_lock_exact ha.wf_out (some dst) n false
    rw [hu, Nat.min_self] at hex
    obtain ⟨d, hd1, hd2⟩ := cbuf_read_wo_lock_out ha.wf_out hsr1 dst n false
    refine ⟨_, d, rfl, hex, hd1, ?_⟩
    rw [hex, hc] at hd2
    have hl := congrArg List.length hd2
    rw [List.length_append, bytes_length, bytes_length] at hl
    have hnil : contents (cbuf_read_wo_lock c1 (some dst) n false).1 = [] :=
      List.eq_nil_of_length_eq_zero (by omega)
    rw [hnil, List.append_nil] at hd2
    exact hd2.symm

/-! ## The public operations, one call at a time -/

theorem kept_of_conf {c c' : cbuf_t} (h : wf c') (hc : same_conf c c') : kept c c' :=
  ⟨h, hc.len_eq, hc.len_pow2_eq, hc.len_max_eq, hc.no_event_eq⟩

theorem kept_trans {a b c : cbuf_t} (h1 : kept a b) (h2 : kept b c) : kept a c :=
  ⟨h2.wf_out, h2.len_eq.trans h1.len_eq, h2.len_pow2_eq.trans h1.len_pow2_eq,
    h2.len_max_eq.trans h1.len_max_eq,
    h2.no_event_eq.trans h1.no_event_eq⟩

theorem wf_of_fields {c c' : cbuf_t} (h : wf c) (h1 : c'.len = c.len)
    (h2 : c'.len_pow2 = c.len_pow2) (h3 : c'.head < c.len) (h4 : c'.tail < c.len) : wf c' := by
  refine ⟨?_, ?_, ?_, ?_, ?_⟩
  · rw [h1]; exact h.len_pos
  · rw [h1]; exact h.len_lt
  · rw [h1]; exact h3
  · rw [h1]; exact h4
  · rw [h1, h2]; exact h.pow2

theorem cbuf_read_some {c : cbuf_t} {buf : Option Mem} {n : Nat} {block : Bool}
    {r : cbuf_t × Option Mem × Nat} (h : cbuf_read c buf n block = some r) :
    r = cbuf_read_attempt c buf n block := by
  simp only [cbuf_read] at h
  split_ifs at h
  exact (Option.some.inj h).symm

theorem cbuf_read_char_some {c : cbuf_t} {ch : Nat} {block : Bool} {r : cbuf_t × Nat × Nat}
    (h : cbuf_read_char c ch block = some r) : r = cbuf_read_char_attempt c ch := by
  simp only [cbuf_read_char] at h
  split_ifs at h
  exact (Option.some.inj h).symm

theorem cbuf_reset_eq (c : cbuf_t) :
    cbuf_reset c = (cbuf_read_attempt c none c.len false).1 := by
  simp [cbuf_reset, cbuf_read_nonblock, cbuf_size]

theorem cbuf_write_char_kept {c : cbuf_t} (h : wf c) (ch : Nat) (cr : Bool) :
    kept c (cbuf_write_char c ch cr).1 ∧ (cbuf_write_char c ch cr).1.tail = c.tail := by
  have hl := INC_POINTER_lt h UINT_MOD c.head 1
  simp only [cbuf_write_char]
  split_ifs
  · exact ⟨⟨wf_of_fields h rfl rfl hl h.tail_lt, rfl, rfl, rfl, rfl⟩, rfl⟩
  · exact ⟨⟨wf_of_fields h rfl rfl hl h.tail_lt, rfl, rfl, rfl, rfl⟩, rfl⟩
  · exact ⟨⟨h, rfl, rfl, rfl, rfl⟩, rfl⟩

theorem cbuf_read_char_attempt_kept {c : cbuf_t} (h : wf c) (ch : Nat) :
    kept c (cbuf_read_char_attempt c ch).1 := by
  have hl := INC_POINTER_lt h UINT_MOD c.tail 1
  simp only [cbuf_read_char_attempt]
  split_ifs
  · exact ⟨wf_of_fields h rfl rfl h.head_lt hl, rfl, rfl, rfl, rfl⟩
  · exact ⟨wf_of_fields h rfl rfl h.head_lt hl, rfl, rfl, rfl, rfl⟩
  · exact ⟨h, rfl, rfl, rfl, rfl⟩

theorem cbuf_skip_kept {c : cbuf_t} (h : wf c) (is_write : Bool) (n : Nat) :
    kept c (cbuf_skip c is_write n) := by
  simp only [cbuf_skip]
  split_ifs
  · exact ⟨wf_of_fields h rfl rfl (INC_POINTER_lt h _ _ _) h.tail_lt, rfl, rfl, rfl, rfl⟩
  · exact ⟨wf_of_fields h rfl rfl h.head_lt (INC_POINTER_lt h _ _ _), rfl, rfl, rfl, rfl⟩

theorem cbuf_trash_kept {c : cbuf_t} (h : wf c) (n : Nat) : kept c (cbuf_trash c n) := by
  simp only [cbuf_trash]
  split_ifs
  · exact ⟨h, rfl, rfl, rfl, rfl⟩
  · refine ⟨wf_of_fields h rfl rfl (INC_POINTER_lt h _ _ _) ?_, rfl, rfl, rfl, rfl⟩
    show INC_POINTER { c with head := INC_POINTER c SIZE_MOD c.head n } SIZE_MOD c.tail n < c.len
    rw [INC_POINTER_congr (c := c) rfl rfl]
    exact INC_POINTER_lt h _ _ _

theorem cbuf_rewind_kept {c : cbuf_t} (h : wf c) : kept c (cbuf_rewind c).1 :=
  ⟨wf_of_fields h rfl rfl h.tail_lt h.tail_lt, rfl, rfl, rfl, rfl⟩

theorem cbuf_rewind_len_kept {c : cbuf_t} (h : wf c) (n : Nat) :
    kept c (cbuf_rewind_len c n).1 :=
  ⟨wf_of_fields h rfl rfl (DEC_POINTER_lt h _ _) h.tail_lt, rfl, rfl, rfl, rfl⟩

theorem cbuf_reset_kept {c : cbuf_t} (h : wf c) : kept c (cbuf_reset c) := by
  rw [cbuf_reset_eq]
  obtain ⟨ha, _⟩ := cbuf_read_attempt_consumed h none c.len false
  exact kept_of_conf ha.wf_out ha.conf

theorem cbuf_reset_indexes_kept {c : cbuf_t} (h : wf c) : kept c (cbuf_reset_indexes c) := by
  have hk := cbuf_reset_kept h
  have hp := h.len_pos
  refine ⟨wf_of_fields hk.wf_out rfl rfl ?_ ?_, hk.len_eq, hk.len_pow2_eq, hk.len_max_eq, hk.no_event_eq⟩
  · show 0 < (cbuf_reset c).len
    rw [hk.len_eq]; exact hp
  · show 0 < (cbuf_reset c).len
    rw [hk.len_eq]; exact hp

theorem cbuf_reset_with_zero_kept {c : cbuf_t} (h : wf c) : kept c (cbuf_reset_with_zero c) := by
  have h1 : wf { c with buf := memset c.buf 0 0 (cbuf_size c) } :=
    wf_of_fields h rfl rfl h.head_lt h.tail_lt
  have hr := cbuf_reset_kept h1
  have hi := cbuf_reset_indexes_kept h1
  simp only [cbuf_reset_with_zero]
  split_ifs
  · exact ⟨wf_of_fields hr.wf_out rfl rfl hr.wf_out.head_lt hr.wf_out.tail_lt, hr.len_eq,
      hr.len_pow2_eq, hr.len_max_eq, hr.no_event_eq⟩
  · exact ⟨wf_of_fields hi.wf_out rfl rfl hi.wf_out.head_lt hi.wf_out.tail_lt, hi.len_eq,
      hi.len_pow2_eq, hi.len_max_eq, hi.no_event_eq⟩
  · exact ⟨wf_of_fields hi.wf_out rfl rfl hi.wf_out.head_lt hi.wf_out.tail_lt, hi.len_eq,
      hi.len_pow2_eq, hi.len_max_eq, hi.no_event_eq⟩

theorem cbuf_change_flag_kept {c : cbuf_t} (h : wf c) (flag : Nat) (set : Bool) :
    kept c (cbuf_change_flag c flag set) := by
  simp only [cbuf_change_flag]
  split_ifs
  · exact ⟨wf_of_fields h rfl rfl h.head_lt h.tail_lt, rfl, rfl, rfl, rfl⟩
  · exact ⟨wf_of_fields h rfl rfl h.head_lt h.tail_lt, rfl, rfl, rfl, rfl⟩

/-- After `cbuf_adjust_size` with a new length from 1 to `len_max` the ring is
well formed, has the new length and the old capacity. -/
theorem cbuf_adjust_size_wf (c : cbuf_t) {new_len : Nat} (h1 : 1 ≤ new_len)
    (h2 : new_len ≤ c.len_max) (h3 : c.len_max < UINT_MOD) :
    wf (cbuf_adjust_size c new_len) ∧ (cbuf_adjust_size c new_len).len = new_len
    ∧ (cbuf_adjust_size c new_len).len_max = c.len_max
    ∧ (cbuf_adjust_size c new_len).no_event = c.no_event := by
  have hl := _cbuf_set_size_len { c with head := 0, tail := 0 } new_len
  have hp := _cbuf_set_size_pow2 { c with head := 0, tail := 0 } new_len
  obtain ⟨hh, ht, hm, _, _, hn, _⟩ := _cbuf_set_size_frame { c with head := 0, tail := 0 } new_len
  rw [Nat.mod_eq_of_lt (by omega)] at hl
  unfold cbuf_adjust_size
  refine ⟨⟨?_, ?_, ?_, ?_, hp⟩, hl, hm, hn⟩
  · rw [hl]; exact h1
  · rw [hl]; omega
  · rw [hl, hh]; exact h1
  · rw [hl, ht]; exact h1

/-! ## The well-formedness invariant -/

theorem okring_of_kept {c c' : cbuf_t} (h : okring c) (hk : kept c c') : okring c' :=
  ⟨hk.wf_out, by rw [hk.len_eq, hk.len_max_eq]; exact h.len_le,
    by rw [hk.len_max_eq]; exact h.len_max_lt⟩

/-- Every call made within its precondition that returns keeps the invariant
and the `no_event` field. -/
theorem exec_okring {c c' : cbuf_t} (h : okring c) (op : Op) (hpre : op.pre c = true)
    (hex : op.exec c = some c') : okring c' ∧ c'.no_event = c.no_event := by
  have hw := h.wf_ring
  cases op with
  | adjust_size new_len =>
    simp only [Op.pre, decide_eq_true_eq] at hpre
    simp only [Op.exec, Option.some.injEq] at hex
    subst hex
    obtain ⟨h1, h2, h3, h4⟩ := cbuf_adjust_size_wf c hpre.1 hpre.2 h.len_max_lt
    exact ⟨⟨h1, by rw [h2, h3]; exact hpre.2, by rw [h3]; exact h.len_max_lt⟩, h4⟩
  | write buf n cr =>
    simp only [Op.exec, Option.some.injEq] at hex
    subst hex
    obtain ⟨ha, _⟩ := cbuf_write_advanced hw buf n cr
    exact ⟨okring_of_kept h (kept_of_conf ha.wf_out ha.conf), ha.conf.no_event_eq⟩
  | read buf n block =>
    simp only [Op.exec, Option.map_eq_some'] at hex
    obtain ⟨r, hr, hrc⟩ := hex
    subst hrc
    rw [cbuf_read_some hr]
    obtain ⟨ha, _⟩ := cbuf_read_attempt_consumed hw buf n block
    exact ⟨okring_of_kept h (kept_of_conf ha.wf_out ha.conf), ha.conf.no_event_eq⟩
  | write_char ch cr =>
    simp only [Op.exec, Option.some.injEq] at hex
    subst hex
    have hk := (cbuf_write_char_kept hw ch cr).1
    exact ⟨okring_of_kept h hk, hk.no_event_eq⟩
  | read_char ch block =>
    simp only [Op.exec, Option.map_eq_some'] at hex
    obtain ⟨r, hr, hrc⟩ := hex
    subst hrc
    rw [cbuf_read_char_some hr]
    have hk := cbuf_read_char_attempt_kept hw ch
    exact ⟨okring_of_kept h hk, hk.no_event_eq⟩
  | peek =>
    simp only [Op.exec, Option.some.injEq] at hex
    subst hex
    exact ⟨h, rfl⟩
  | skip is_write n =>
    simp only [Op.exec, Option.some.injEq] at hex
    subst hex
    have hk := cbuf_skip_kept hw is_write n
    exact ⟨okring_of_kept h hk, hk.no_event_eq⟩
  | trash n =>
    simp only [Op.exec, Option.some.injEq] at hex
    subst hex
    have hk := cbuf_trash_kept hw n
    exact ⟨okring_of_kept h hk, hk.no_event_eq⟩
  | rewind =>
    simp only [Op.exec, Option.some.injEq] at hex
    subst hex
    have hk := cbuf_rewind_kept hw
    exact ⟨okring_of_kept h hk, hk.no_event_eq⟩
  | rewind_len n =>
    simp only [Op.exec, Option.some.injEq] at hex
    subst hex
    have hk := cbuf_rewind_len_kept hw n
    exact ⟨okring_of_kept h hk, hk.no_event_eq⟩
  | reset =>
    simp only [Op.exec, Option.some.injEq] at hex
    subst hex
    have hk := cbuf_reset_kept hw
    exact ⟨okring_of_kept h hk, hk.no_event_eq⟩
  | reset_indexes =>
    simp only [Op.exec, Option.some.injEq] at hex
    subst hex
    have hk := cbuf_reset_indexes_kept hw
    exact ⟨okring_of_kept h hk, hk.no_event_eq⟩
  | reset_with_zero =>
    simp only [Op.exec, Option.some.injEq] at hex
    subst hex
    have hk := cbuf_reset_with_zero_kept hw
    exact ⟨okring_of_kept h hk, hk.no_event_eq⟩
  | change_flag flag set =>
    simp only [Op.exec, Option.some.injEq] at hex
    subst hex
    have hk := cbuf_change_flag_kept hw flag set
    exact ⟨okring_of_kept h hk, hk.no_event_eq⟩

theorem run_cons_some {c c' : cbuf_t} {op : Op} {ops : List Op}
    (h : run c (op :: ops) = some c') :
    op.pre c = true ∧ ∃ c1, op.exec c = some c1 ∧ run c1 ops = some c' := by
  simp only [run] at h
  split_ifs at h with hp
  refine ⟨hp, ?_⟩
  cases he : op.exec c with
  | none => rw [he] at h; simp at h
  | some c1 => rw [he] at h; exact ⟨c1, rfl, h⟩

theorem run_okring (ops : List Op) :
    ∀ (c c' : cbuf_t), okring c → run c ops = some c' →
      okring c' ∧ c'.no_event = c.no_event := by
  induction ops with
  | nil =>
    intro c c' h hr
    simp only [run, Option.some.injEq] at hr
    subst hr
    exact ⟨h, rfl⟩
  | cons op ops ih =>
    intro c c' h hr
    obtain ⟨hp, c1, he, hr1⟩ := run_cons_some hr
    obtain ⟨h1, hn1⟩ := exec_okring h op hp he
    obtain ⟨h2, hn2⟩ := ih c1 c' h1 hr1
    exact ⟨h2, hn2.trans hn1⟩

theorem cbuf_initialize_etc_okring {len : Nat} (buf : Mem) (h1 : 1 ≤ len) (h2 : len < UINT_MOD) :
    okring (cbuf_initialize_etc len buf) := by
  obtain ⟨_, _, hl, hm, _⟩ := cbuf_initialize_etc_fields len buf
  refine ⟨cbuf_initialize_etc_wf buf h1 h2, by rw [hl, hm], ?_⟩
  rw [hm]
  exact Nat.mod_lt _ (by decide)

/-- C6: the well-formedness invariant.  After `cbuf_initialize_etc` with a
length `len ≥ 1` (a `uint`) and any list of public operations, each called
within its precondition (`n < len` for write, skip, trash and rewind_len, a new
length from 1 to `len_max` for adjust_size) and returning, `head < len`,
`tail < len` and `1 ≤ len ≤ len_max`. -/
theorem wf_invariant (len : Nat) (buf : Mem) (ops : List Op) (c : cbuf_t)
    (hlen : 1 ≤ len) (hlt : len < UINT_MOD)
    (hrun : run (cbuf_initialize_etc len buf) ops = some c) :
    c.head < c.len ∧ c.tail < c.len ∧ 1 ≤ c.len ∧ c.len ≤ c.len_max := by
  obtain ⟨h, _⟩ := run_okring ops _ c (cbuf_initialize_etc_okring buf hlen hlt) hrun
  exact ⟨h.wf_ring.head_lt, h.wf_ring.tail_lt, h.wf_ring.len_pos, h.len_le⟩

/-! ## The event -/

theorem advanced_nonempty {c c' : cbuf_t} {k : Nat} (h : wf c) (ha : advanced c c' k) :
    c'.head = c'.tail → c.head = c.tail := by
  intro he
  have h1 := (used_eq_zero_iff ha.wf_out).mpr he
  have h2 := ha.used_eq
  exact (used_eq_zero_iff h).mp (by omega)

theorem consumed_nonempty {c c' : cbuf_t} {k : Nat} (h : wf c) (ha : consumed c c' k) :
    c.head = c.tail → c'.head = c'.tail := by
  intro he
  have h1 := (used_eq_zero_iff h).mpr he
  have h2 := ha.used_eq
  exact (used_eq_zero_iff ha.wf_out).mp (by omega)

/-- The event after `cbuf_write_wo_lock` on a ring that uses its event: signaled
if the ring is not empty, else as before. -/
theorem cbuf_write_wo_lock_event {c : cbuf_t} (hne : c.no_event = false) (h : wf c)
    (buf : Option Mem) (n : Nat) (cr : Bool) :
    (cbuf_write_wo_lock c buf n cr).1.event =
      (if (cbuf_write_wo_lock c buf n cr).1.head ≠ (cbuf_write_wo_lock c buf n cr).1.tail
        then true else c.event) := by
  have r := write_loop_spec buf n (cbuf_is_sw_writer c) n c 0 h (Nat.zero_le _)
  have hn := r.conf.no_event_eq
  have he := r.event_eq
  rw [hne] at hn
  simp only [cbuf_write_wo_lock]
  split_ifs with h1 h2 h3
  · rfl
  · exact absurd h1.2 h2
  · exact absurd ⟨hn, h3⟩ h1
  · exact he

theorem cbuf_write_wo_lock_good {c : cbuf_t} (h : good c) (buf : Option Mem) (n : Nat)
    (cr : Bool) : good (cbuf_write_wo_lock c buf n cr).1 := by
  have ha := cbuf_write_wo_lock_advanced h.wf_ring buf n cr
  have he := cbuf_write_wo_lock_event h.uses_event h.wf_ring buf n cr
  refine ⟨ha.wf_out, ha.conf.no_event_eq.trans h.uses_event, ?_⟩
  rw [he]
  split_ifs with h1
  · simp [h1]
  · have h2 : c.head = c.tail := advanced_nonempty h.wf_ring ha (not_not.mp h1)
    have h3 : ¬(c.event = true) := fun e => (h.event_iff.mp e) h2
    constructor
    · intro e; exact absurd e h3
    · intro e; exact absurd e h1

theorem write_chunks_good (cr : Bool) :
    ∀ (loop : Nat) (c : cbuf_t) (buf : Mem) (rem pos : Nat), good c →
      good (write_chunks cr loop c buf rem pos).1 := by
  intro loop
  induction loop with
  | zero => intro c buf rem pos h; exact h
  | succ k ih =>
    intro c buf rem pos h
    simp only [write_chunks]
    have hg := cbuf_write_wo_lock_good h (some buf)
      (if rem > CBUF_WRITE_MAX_CHUNK then CBUF_WRITE_MAX_CHUNK else rem) cr
    generalize (if rem > CBUF_WRITE_MAX_CHUNK then CBUF_WRITE_MAX_CHUNK else rem) = chunk at hg ⊢
    split_ifs
    · exact hg
    · exact ih _ _ _ _ hg

theorem cbuf_write_good {c : cbuf_t} (h : good c) (buf : Option Mem) (n : Nat) (cr : Bool) :
    good (cbuf_write c buf n cr).1 := by
  cases buf with
  | none => exact cbuf_write_wo_lock_good h none n cr
  | some src =>
    simp only [cbuf_write]
    split_ifs
    · exact cbuf_write_wo_lock_good h (some src) n cr
    · exact write_chunks_good cr _ c src n 0 h

/-- The event after `cbuf_read_wo_lock` on a ring that uses its event:
unsignaled if the call found bytes and emptied the ring, else as before. -/
theorem cbuf_read_wo_lock_event {c : cbuf_t} (hne : c.no_event = false) (h : wf c)
    (buf : Option Mem) (n : Nat) (block : Bool) :
    (cbuf_read_wo_lock c buf n block).1.event =
      (if c.tail ≠ c.head ∧
          (cbuf_read_wo_lock c buf n block).1.tail = (cbuf_read_wo_lock c buf n block).1.head
        then false else c.event) := by
  obtain ⟨r1, r2, _, _⟩ := read_loop_spec n (cbuf_is_sw_reader c) n c buf 0 h (Nat.zero_le _)
  have hn := r1.conf.no_event_eq
  rw [hne] at hn
  by_cases h1 : c.tail ≠ c.head
  · simp only [cbuf_read_wo_lock, if_pos h1]
    by_cases h2 : (read_loop n (cbuf_is_sw_reader c) n c buf 0).1.tail
        = (read_loop n (cbuf_is_sw_reader c) n c buf 0).1.head
    · rw [if_pos ⟨hn, h2⟩, if_pos ⟨h1, h2⟩]
    · rw [if_neg (fun e => h2 e.2), if_neg (fun e => h2 e.2)]
      exact r2
  · simp only [cbuf_read_wo_lock, if_neg h1]
    rw [if_neg (fun e => h1 e.1)]

theorem cbuf_read_wo_lock_good {c : cbuf_t} (h : good c) (buf : Option Mem) (n : Nat)
    (block : Bool) : good (cbuf_read_wo_lock c buf n block).1 := by
  obtain ⟨ha, _⟩ := cbuf_read_wo_lock_consumed h.wf_ring buf n block
  have he := cbuf_read_wo_lock_event h.uses_event h.wf_ring buf n block
  refine ⟨ha.wf_out, ha.conf.no_event_eq.trans h.uses_event, ?_⟩
  rw [he]
  split_ifs with h1
  · constructor
    · intro e; exact absurd e (by decide)
    · intro e; exact absurd h1.2.symm e
  · rw [h.event_iff]
    constructor
    · intro e1 e2
      exact h1 ⟨fun e => e1 e.symm, e2.symm⟩
    · intro e1 e2
      exact e1 (consumed_nonempty h.wf_ring ha e2)

theorem read_chunks_good (block : Bool) :
    ∀ (loop : Nat) (c : cbuf_t) (buf : Mem) (rem ret : Nat), good c →
      good (read_chunks block loop c buf rem ret).1 := by
  intro loop
  induction loop with
  | zero => intro c buf rem ret h; exact h
  | succ k ih =>
    intro c buf rem ret h
    simp only [read_chunks]
    have hg := cbuf_read_wo_lock_good h (some (shift buf ret))
      (if rem > CBUF_READ_MAX_CHUNK then CBUF_READ_MAX_CHUNK else rem) block
    generalize (if rem > CBUF_READ_MAX_CHUNK then CBUF_READ_MAX_CHUNK else rem) = chunk at hg ⊢
    split_ifs
    · exact hg
    · exact ih _ _ _ _ hg

theorem cbuf_read_attempt_good {c : cbuf_t} (h : good c) (buf : Option Mem) (n : Nat)
    (block : Bool) : good (cbuf_read_attempt c buf n block).1 := by
  cases buf with
  | none => exact cbuf_read_wo_lock_good h none n block
  | some dst =>
    simp only [cbuf_read_attempt]
    split_ifs
    · exact cbuf_read_wo_lock_good h (some dst) n block
    · exact read_chunks_good block _ c dst n 0 h

theorem good_event {c : cbuf_t} (h : good c) (e : Bool) (he : e = true ↔ c.head ≠ c.tail) :
    good { c with event := e } :=
  ⟨wf_of_fields h.wf_ring rfl rfl h.wf_ring.head_lt h.wf_ring.tail_lt, h.uses_event, he⟩

/-- On a ring whose length is a power of two `cbuf_write_char` keeps the event
signaled exactly when the ring is not empty. -/
theorem cbuf_write_char_good {c : cbuf_t} (h : good c) (hpw : c.len = 2 ^ c.len_pow2)
    (ch : Nat) (cr : Bool) : good (cbuf_write_char c ch cr).1 := by
  have hw := h.wf_ring
  have hav := cbuf_space_avail_eq hw (Or.inr hpw)
  by_cases hpos : cbuf_space_avail c > 0
  · have hrs : 1 ≤ run_space c := run_space_pos hw (by omega)
    have h3 := hw.len_lt
    have h1 := hw.head_lt
    have ha : appended c
        { c with buf := fun i => if i = c.head then ch else c.buf i,
                 head := INC_POINTER c UINT_MOD c.head 1 } 1 := by
      refine ⟨INC_POINTER_eq hw (by omega), rfl, rfl, rfl, ?_⟩
      intro i hi
      show (if i = c.head then ch else c.buf i) = c.buf i
      rw [if_neg (by omega)]
    have hu := appended_used hw hrs ha
    have hwf := appended_wf hw ha
    have hne : INC_POINTER c UINT_MOD c.head 1 ≠ c.tail := by
      intro e
      have := (used_eq_zero_iff hwf).mpr e
      omega
    simp only [cbuf_write_char, if_pos hpos]
    have e1 : INC_POINTER { c with buf := fun i => if i = c.head then ch else c.buf i }
        UINT_MOD c.head 1 = INC_POINTER c UINT_MOD c.head 1 := INC_POINTER_congr rfl rfl _ _ _
    rw [e1, if_pos ⟨h.uses_event, hne⟩]
    exact ⟨wf_of_fields hwf rfl rfl hwf.head_lt hwf.tail_lt, h.uses_event,
      ⟨fun _ => hne, fun _ => rfl⟩⟩
  · simp only [cbuf_write_char, if_neg hpos]
    exact h

theorem cbuf_read_char_attempt_good {c : cbuf_t} (h : good c) (ch : Nat) :
    good (cbuf_read_char_attempt c ch).1 := by
  have hw := h.wf_ring
  by_cases hne : c.tail ≠ c.head
  · have h3 := hw.len_lt
    have h2 := hw.tail_lt
    have hru : 1 ≤ run_used c := run_used_pos hw
    have ha : consumed c { c with tail := INC_POINTER c UINT_MOD c.tail 1 } 1 :=
      consumed_of_fields hw hne hru ⟨rfl, rfl, rfl, rfl, rfl⟩ rfl rfl
        (INC_POINTER_eq hw (by omega))
    have hev : c.event = true := h.event_iff.mpr (fun e => hne e.symm)
    simp only [cbuf_read_char_attempt, if_pos hne]
    by_cases he : INC_POINTER c UINT_MOD c.tail 1 = c.head
    · rw [if_pos ⟨h.uses_event, he⟩]
      refine ⟨wf_of_fields ha.wf_out rfl rfl ha.wf_out.head_lt ha.wf_out.tail_lt,
        h.uses_event, ?_⟩
      constructor
      · intro e; exact absurd e Bool.false_ne_true
      · intro e; exact absurd he.symm e
    · rw [if_neg (fun e => he e.2)]
      exact ⟨ha.wf_out, h.uses_event, ⟨fun _ e => he e.symm, fun _ => hev⟩⟩
  · simp only [cbuf_read_char_attempt, if_neg hne]
    exact h

theorem add_mod_inj {a b n m : Nat} (ha : a < m) (hb : b < m) (hn : n < m) :
    (a + n) % m = (b + n) % m ↔ a = b := by
  rw [mod_wrap (by omega : a + n < 2 * m), mod_wrap (by omega : b + n < 2 * m)]
  split_ifs <;> omega

theorem cbuf_trash_good {c : cbuf_t} (h : good c) {n : Nat} (hn : n < c.len) :
    good (cbuf_trash c n) := by
  have hw := h.wf_ring
  have h1 := hw.head_lt
  have h2 := hw.tail_lt
  have h3 := hw.len_lt
  have hk := cbuf_trash_kept hw n
  simp only [cbuf_trash] at hk ⊢
  split_ifs at hk ⊢
  · exact h
  · refine ⟨hk.wf_out, h.uses_event, ?_⟩
    show c.event = true ↔ INC_POINTER c SIZE_MOD c.head n
      ≠ INC_POINTER { c with head := INC_POINTER c SIZE_MOD c.head n } SIZE_MOD c.tail n
    have eh : INC_POINTER c SIZE_MOD c.head n = (c.head + n) % c.len :=
      INC_POINTER_eq hw (by simp only [SIZE_MOD, UINT_MOD] at h3 ⊢; omega)
    have et : INC_POINTER c SIZE_MOD c.tail n = (c.tail + n) % c.len :=
      INC_POINTER_eq hw (by simp only [SIZE_MOD, UINT_MOD] at h3 ⊢; omega)
    have e2 : INC_POINTER { c with head := INC_POINTER c SIZE_MOD c.head n } SIZE_MOD c.tail n
        = INC_POINTER c SIZE_MOD c.tail n := INC_POINTER_congr rfl rfl _ _ _
    rw [e2, eh, et, h.event_iff, ne_eq, ne_eq, add_mod_inj h1 h2 hn]

/-- The function `cbuf_reset` moves `tail` to `head` and leaves `head` and the
stored bytes as they were, for every ring length. -/
theorem cbuf_reset_empty {c : cbuf_t} (h : wf c) :
    (cbuf_reset c).head = c.head ∧ (cbuf_reset c).tail = c.head ∧ (cbuf_reset c).buf = c.buf := by
  rw [cbuf_reset_eq]
  have hat : cbuf_read_attempt c none c.len false = cbuf_read_wo_lock c none c.len false := rfl
  rw [hat]
  obtain ⟨ha, _⟩ := cbuf_read_wo_lock_consumed h none c.len false
  have hex := cbuf_read_wo_lock_exact h none c.len false
  have hu := used_lt h
  have hue := ha.used_eq
  have h0 : used (cbuf_read_wo_lock c none c.len false).1 = 0 := by omega
  have he := (used_eq_zero_iff ha.wf_out).mp h0
  exact ⟨ha.head_eq, by rw [← he, ha.head_eq], ha.buf_eq⟩

/-- The event after `cbuf_reset` on a ring that uses its event: unsignaled if the
ring was not empty, else as before. -/
theorem cbuf_reset_event {c : cbuf_t} (h : wf c) (hne : c.no_event = false) :
    (cbuf_reset c).event = (if c.tail ≠ c.head then false else c.event) := by
  obtain ⟨h1, h2, _⟩ := cbuf_reset_empty h
  have he := cbuf_read_wo_lock_event hne h none c.len false
  rw [cbuf_reset_eq] at h1 h2 ⊢
  have hat : cbuf_read_attempt c none c.len false = cbuf_read_wo_lock c none c.len false := rfl
  rw [hat] at h1 h2 ⊢
  rw [he, h1, h2]
  by_cases hc : c.tail ≠ c.head
  · rw [if_pos ⟨hc, rfl⟩, if_pos hc]
  · rw [if_neg (fun e => hc e.1), if_neg hc]

theorem cbuf_reset_good {c : cbuf_t} (h : good c) : good (cbuf_reset c) := by
  rw [cbuf_reset_eq]
  exact cbuf_read_attempt_good h none c.len false

theorem cbuf_reset_indexes_good {c : cbuf_t} (h : good c) : good (cbuf_reset_indexes c) := by
  have hg := cbuf_reset_good h
  obtain ⟨h1, h2, _⟩ := cbuf_reset_empty h.wf_ring
  have hk := cbuf_reset_indexes_kept h.wf_ring
  refine ⟨hk.wf_out, hk.no_event_eq.trans h.uses_event, ?_⟩
  show (cbuf_reset c).event = true ↔ (0 : Nat) ≠ 0
  rw [hg.event_iff, h1, h2]
  simp

theorem cbuf_reset_with_zero_good {c : cbuf_t} (h : good c) :
    good (cbuf_reset_with_zero c) := by
  have h1 : good { c with buf := memset c.buf 0 0 (cbuf_size c) } :=
    ⟨wf_of_fields h.wf_ring rfl rfl h.wf_ring.head_lt h.wf_ring.tail_lt, h.uses_event,
      h.event_iff⟩
  have hr := cbuf_reset_good h1
  have hi := cbuf_reset_indexes_good h1
  simp only [cbuf_reset_with_zero]
  split_ifs
  · exact ⟨wf_of_fields hr.wf_ring rfl rfl hr.wf_ring.head_lt hr.wf_ring.tail_lt,
      hr.uses_event, hr.event_iff⟩
  · exact ⟨wf_of_fields hi.wf_ring rfl rfl hi.wf_ring.head_lt hi.wf_ring.tail_lt,
      hi.uses_event, hi.event_iff⟩
  · exact ⟨wf_of_fields hi.wf_ring rfl rfl hi.wf_ring.head_lt hi.wf_ring.tail_lt,
      hi.uses_event, hi.event_iff⟩

theorem log2_uint_pow (p : Nat) (hp : p < 32) : log2_uint (2 ^ p) = p := by
  interval_cases p <;> rfl

theorem pow_lt_uint {p : Nat} (h : 2 ^ p < UINT_MOD) : p < 32 := by
  by_contra hcon
  have h32 : 32 ≤ p := by omega
  have := Nat.pow_le_pow_right (by decide : 1 ≤ 2) h32
  unfold UINT_MOD at h
  omega

/-- A fresh ring whose length is a power of two has the logarithm in
`len_pow2`. -/
theorem cbuf_initialize_etc_pow2 {len p : Nat} (buf : Mem) (hp : len = 2 ^ p)
    (hlt : len < UINT_MOD) :
    (cbuf_initialize_etc len buf).len = 2 ^ (cbuf_initialize_etc len buf).len_pow2 := by
  have hp32 : p < 32 := pow_lt_uint (by rw [← hp]; exact hlt)
  have hl : log2_uint len = p := by rw [hp]; exact log2_uint_pow p hp32
  have hi : ispow2 len = true := by
    simp only [ispow2, decide_eq_true_eq, hl]
    exact hp.symm
  simp only [cbuf_initialize_etc, _cbuf_set_size, Nat.mod_eq_of_lt hlt, hi, if_true, hl]
  exact hp

/-- Every call that handles the event, made within its precondition and
returning, keeps the event signaled exactly when the ring is not empty; for
`cbuf_write_char` the length is to be a power of two. -/
theorem exec_good {c c' : cbuf_t} (h : good c) (op : Op) (hs : op.event_safe = true)
    (hw : c.len = 2 ^ c.len_pow2 ∨ op.is_write_char = false)
    (hpre : op.pre c = true) (hex : op.exec c = some c') :
    good c' ∧ c'.len = c.len ∧ c'.len_pow2 = c.len_pow2 := by
  have hwf := h.wf_ring
  cases op with
  | write buf n cr =>
    simp only [Op.exec, Option.some.injEq] at hex
    subst hex
    obtain ⟨ha, _⟩ := cbuf_write_advanced hwf buf n cr
    exact ⟨cbuf_write_good h buf n cr, ha.conf.len_eq, ha.conf.len_pow2_eq⟩
  | read buf n block =>
    simp only [Op.exec, Option.map_eq_some'] at hex
    obtain ⟨r, hr, hrc⟩ := hex
    subst hrc
    rw [cbuf_read_some hr]
    obtain ⟨ha, _⟩ := cbuf_read_attempt_consumed hwf buf n block
    exact ⟨cbuf_read_attempt_good h buf n block, ha.conf.len_eq, ha.conf.len_pow2_eq⟩
  | write_char ch cr =>
    simp only [Op.exec, Option.some.injEq] at hex
    subst hex
    have hpw : c.len = 2 ^ c.len_pow2 := by
      rcases hw with hw | hw
      · exact hw
      · simp [Op.is_write_char] at hw
    have hk := (cbuf_write_char_kept hwf ch cr).1
    exact ⟨cbuf_write_char_good h hpw ch cr, hk.len_eq, hk.len_pow2_eq⟩
  | read_char ch block =>
    simp only [Op.exec, Option.map_eq_some'] at hex
    obtain ⟨r, hr, hrc⟩ := hex
    subst hrc
    rw [cbuf_read_char_some hr]
    have hk := cbuf_read_char_attempt_kept hwf ch
    exact ⟨cbuf_read_char_attempt_good h ch, hk.len_eq, hk.len_pow2_eq⟩
  | peek =>
    simp only [Op.exec, Option.some.injEq] at hex
    subst hex
    exact ⟨h, rfl, rfl⟩
  | trash n =>
    simp only [Op.pre, decide_eq_true_eq] at hpre
    simp only [Op.exec, Option.some.injEq] at hex
    subst hex
    have hk := cbuf_trash_kept hwf n
    exact ⟨cbuf_trash_good h hpre, hk.len_eq, hk.len_pow2_eq⟩
  | reset =>
    simp only [Op.exec, Option.some.injEq] at hex
    subst hex
    have hk := cbuf_reset_kept hwf
    exact ⟨cbuf_reset_good h, hk.len_eq, hk.len_pow2_eq⟩
  | reset_indexes =>
    simp only [Op.exec, Option.some.injEq] at hex
    subst hex
    have hk := cbuf_reset_indexes_kept hwf
    exact ⟨cbuf_reset_indexes_good h, hk.len_eq, hk.len_pow2_eq⟩
  | reset_with_zero =>
    simp only [Op.exec, Option.some.injEq] at hex
    subst hex
    have hk := cbuf_reset_with_zero_kept hwf
    exact ⟨cbuf_reset_with_zero_good h, hk.len_eq, hk.len_pow2_eq⟩
  | skip is_write n => simp [Op.event_safe] at hs
  | rewind => simp [Op.event_safe] at hs
  | rewind_len n => simp [Op.event_safe] at hs
  | adjust_size new_len => simp [Op.event_safe] at hs
  | change_flag flag set => simp [Op.event_safe] at hs

theorem run_good (ops : List Op) :
    ∀ (c c' : cbuf_t), good c → (∀ op ∈ ops, op.event_safe = true) →
      (c.len = 2 ^ c.len_pow2 ∨ ∀ op ∈ ops, op.is_write_char = false) →
      run c ops = some c' → good c' := by
  induction ops with
  | nil =>
    intro c c' h _ _ hr
    simp only [run, Option.some.injEq] at hr
    subst hr
    exact h
  | cons op ops ih =>
    intro c c' h hs hw hr
    obtain ⟨hp, c1, he, hr1⟩ := run_cons_some hr
    have hw1 : c.len = 2 ^ c.len_pow2 ∨ op.is_write_char = false := by
      rcases hw with hw | hw
      · exact Or.inl hw
      · exact Or.inr (hw op (List.mem_cons_self _ _))
    obtain ⟨h1, hl, hl2⟩ := exec_good h op (hs op (List.mem_cons_self _ _)) hw1 hp he
    refine ih c1 c' h1 (fun o ho => hs o (List.mem_cons_of_mem _ ho)) ?_ hr1
    rcases hw with hw | hw
    · left; rw [hl, hl2]; exact hw
    · right; exact fun o ho => hw o (List.mem_cons_of_mem _ ho)

theorem cbuf_initialize_etc_good {len : Nat} (buf : Mem) (h1 : 1 ≤ len) (h2 : len < UINT_MOD) :
    good (cbuf_initialize_etc len buf) := by
  obtain ⟨hh, ht, _, _, _, he, hn, _⟩ := cbuf_initialize_etc_fields len buf
  refine ⟨cbuf_initialize_etc_wf buf h1 h2, hn, ?_⟩
  rw [he, hh, ht]
  simp

/-- C7, as amended: for every list of calls of write, read, write_char,
read_char, peek, trash, reset, reset_indexes and reset_with_zero on an
initialised ring (whose `no_event` is false), with write_char only on a ring
whose length is a power of two, after the calls the event is signaled if and
only if `head ≠ tail`. -/
theorem event_invariant (len : Nat) (buf : Mem) (ops : List Op) (c : cbuf_t)
    (hlen : 1 ≤ len) (hlt : len < UINT_MOD)
    (hops : ∀ op ∈ ops, op.event_safe = true)
    (hwc : (∃ p, len = 2 ^ p) ∨ ∀ op ∈ ops, op.is_write_char = false)
    (hrun : run (cbuf_initialize_etc len buf) ops = some c) :
    c.event = true ↔ c.head ≠ c.tail := by
  have hw : (cbuf_initialize_etc len buf).len = 2 ^ (cbuf_initialize_etc len buf).len_pow2
      ∨ ∀ op ∈ ops, op.is_write_char = false := by
    rcases hwc with ⟨p, hp⟩ | hwc
    · exact Or.inl (cbuf_initialize_etc_pow2 buf hp hlt)
    · exact Or.inr hwc
  exact (run_good ops _ c (cbuf_initialize_etc_good buf hlen hlt) hops hw hrun).event_iff

/-- C7, as stated, fails: on a fresh ring of length 8 the event is unsignaled
with `head ≠ tail` after skip, and signaled with `head = tail` after a
write_char followed by rewind, by rewind_len or by adjust_size; on a ring of
length 3 that is full, write_char makes `head = tail` and leaves the event
signaled. -/
theorem event_invariant_fails :
    (run (cbuf_initialize_etc 8 (fun _ => 0)) [Op.skip true 1]).map
        (fun c => (c.no_event, decide (c.event = true ↔ c.head ≠ c.tail))) = some (false, false)
    ∧ (run (cbuf_initialize_etc 8 (fun _ => 0)) [Op.write_char 65 false, Op.rewind]).map
        (fun c => (c.no_event, decide (c.event = true ↔ c.head ≠ c.tail))) = some (false, false)
    ∧ (run (cbuf_initialize_etc 8 (fun _ => 0)) [Op.write_char 65 false, Op.rewind_len 1]).map
        (fun c => (c.no_event, decide (c.event = true ↔ c.head ≠ c.tail))) = some (false, false)
    ∧ (run (cbuf_initialize_etc 8 (fun _ => 0)) [Op.write_char 65 false, Op.adjust_size 4]).map
        (fun c => (c.no_event, decide (c.event = true ↔ c.head ≠ c.tail))) = some (false, false)
    ∧ (run (cbuf_initialize_etc 3 (fun _ => 0))
        [Op.write (some (fun _ => 65)) 2 false, Op.read none 1 false,
          Op.write (some (fun _ => 66)) 1 false, Op.write_char 68 false]).map
        (fun c => (c.no_event, decide (c.event = true ↔ c.head ≠ c.tail))) = some (false, false) := by
  decide

theorem cbuf_space_used_empty {c : cbuf_t} (h : wf c) (he : c.head = c.tail) :
    cbuf_space_used c = 0 := by
  rw [cbuf_space_used_eq h (Or.inl (by omega))]
  exact (used_eq_zero_iff h).mpr he

/-- C8, as amended: in every ring state reached from initialisation by public
operations in which the event is not signaled while the ring is empty, after
`cbuf_reset`, after `cbuf_reset_indexes` and after `cbuf_reset_with_zero` the
ring is empty (`cbuf_space_used` is 0, and `head = tail`) and the event is
unsignaled; `cbuf_reset` leaves `head` and the stored bytes untouched and moves
`tail` to `head`; `cbuf_reset_indexes` leaves `head = tail = 0`. -/
theorem reset_family (len : Nat) (buf : Mem) (ops : List Op) (c : cbuf_t)
    (hlen : 1 ≤ len) (hlt : len < UINT_MOD)
    (hrun : run (cbuf_initialize_etc len buf) ops = some c)
    (hev : c.head = c.tail → c.event = false) :
    (cbuf_space_used (cbuf_reset c) = 0 ∧ (cbuf_reset c).event = false
      ∧ (cbuf_reset c).head = c.head ∧ (cbuf_reset c).buf = c.buf
      ∧ (cbuf_reset c).tail = c.head)
    ∧ (cbuf_space_used (cbuf_reset_indexes c) = 0 ∧ (cbuf_reset_indexes c).event = false
      ∧ (cbuf_reset_indexes c).head = 0 ∧ (cbuf_reset_indexes c).tail = 0)
    ∧ (cbuf_space_used (cbuf_reset_with_zero c) = 0
      ∧ (cbuf_reset_with_zero c).event = false
      ∧ (cbuf_reset_with_zero c).head = (cbuf_reset_with_zero c).tail) := by
  obtain ⟨hok, hne⟩ := run_okring ops _ c (cbuf_initialize_etc_okring buf hlen hlt) hrun
  have hne0 : c.no_event = false := by
    rw [hne]; exact (cbuf_initialize_etc_fields len buf).2.2.2.2.2.2.1
  have hw := hok.wf_ring
  have key : ∀ d : cbuf_t, wf d → d.no_event = false → (d.head = d.tail → d.event = false) →
      (cbuf_reset d).event = false := by
    intro d hd hdn hde
    rw [cbuf_reset_event hd hdn]
    split_ifs with h1
    · rfl
    · exact hde (not_not.mp h1).symm
  obtain ⟨r1, r2, r3⟩ := cbuf_reset_empty hw
  have hkr := cbuf_reset_kept hw
  have hki := cbuf_reset_indexes_kept hw
  have hkz := cbuf_reset_with_zero_kept hw
  have hwz : wf { c with buf := memset c.buf 0 0 (cbuf_size c) } :=
    wf_of_fields hw rfl rfl hw.head_lt hw.tail_lt
  obtain ⟨z1, z2, _⟩ := cbuf_reset_empty hwz
  have zev := key { c with buf := memset c.buf 0 0 (cbuf_size c) } hwz hne0 hev
  have hz : (cbuf_reset_with_zero c).head = (cbuf_reset_with_zero c).tail := by
    simp only [cbuf_reset_with_zero]
    split_ifs
    · show (cbuf_reset { c with buf := memset c.buf 0 0 (cbuf_size c) }).head
        = (cbuf_reset { c with buf := memset c.buf 0 0 (cbuf_size c) }).tail
      rw [z1, z2]
    · rfl
    · rfl
  refine ⟨⟨cbuf_space_used_empty hkr.wf_out (by rw [r1, r2]), key c hw hne0 hev, r1, r3, r2⟩,
    ⟨cbuf_space_used_empty hki.wf_out rfl, key c hw hne0 hev, rfl, rfl⟩,
    cbuf_space_used_empty hkz.wf_out hz, ?_, hz⟩
  simp only [cbuf_reset_with_zero]
  split_ifs
  · exact zev
  · exact zev
  · exact zev

/-- C8, as stated, fails: after a write_char and a rewind on a fresh ring of
length 8 the ring is empty with the event signaled, and `cbuf_reset`,
`cbuf_reset_indexes` and `cbuf_reset_with_zero` each leave it signaled. -/
theorem reset_family_fails :
    (run (cbuf_initialize_etc 8 (fun _ => 0)) [Op.write_char 65 false, Op.rewind]).map
        (fun c => (c.no_event, (cbuf_reset c).event, (cbuf_reset_indexes c).event,
          (cbuf_reset_with_zero c).event)) = some (false, true, true, true) := by
  decide

/-! ## The claims at concrete rings -/

/-- C1, witness: the scenario with a wrap on a ring of length 8 meets the
hypotheses of `fifo_order`: what the reads returned is what the writes accepted. -/
theorem fifo_order_witness :
    2 ≤ 8 ∧ 8 < UINT_MOD ∧ (∀ x ∈ demo_xfers, x.wreq < 8)
    ∧ ((fifo_run ⟨cbuf_initialize_etc 8 demo_dst, [], []⟩ demo_xfers).ring.head
          = (fifo_run ⟨cbuf_initialize_etc 8 demo_dst, [], []⟩ demo_xfers).ring.tail →
        (fifo_run ⟨cbuf_initialize_etc 8 demo_dst, [], []⟩ demo_xfers).returned
          = (fifo_run ⟨cbuf_initialize_etc 8 demo_dst, [], []⟩ demo_xfers).accepted) :=
  ⟨by decide, by decide, by decide,
    (fifo_order 8 demo_dst demo_xfers (by decide) (by decide) (by decide)).2.1⟩

/-- C2, witness: a write of 3 bytes into `demo_ring`, which wraps, meets the
hypotheses of `cbuf_write_returns_min`. -/
theorem cbuf_write_returns_min_witness :
    demo_ring.len = 2 ^ demo_ring.len_pow2 ∧ 2 ≤ demo_ring.len ∧ demo_ring.len < UINT_MOD
    ∧ demo_ring.head < demo_ring.len ∧ demo_ring.tail < demo_ring.len ∧ 3 < demo_ring.len
    ∧ (cbuf_write demo_ring (some demo_src) 3 false).2 = min 3 (cbuf_space_avail demo_ring)
    ∧ (cbuf_write demo_ring (some demo_src) 3 false).1.head
        = (demo_ring.head + (cbuf_write demo_ring (some demo_src) 3 false).2) % demo_ring.len :=
  ⟨by decide, by decide, by decide, by decide, by decide, by decide,
    (cbuf_write_returns_min demo_ring (some demo_src) 3 false (by decide) (by decide) (by decide)
      (by decide) (by decide) (by decide)).1,
    (cbuf_write_returns_min demo_ring (some demo_src) 3 false (by decide) (by decide) (by decide)
      (by decide) (by decide) (by decide)).2.2.1⟩

/-- A read of 5 bytes from `demo_ring`, which holds 2, meets the hypotheses of
`cbuf_read_returns_min`. -/
theorem cbuf_read_returns_min_witness :
    demo_ring.len = 2 ^ demo_ring.len_pow2 ∧ demo_ring.len < UINT_MOD
    ∧ demo_ring.head < demo_ring.len ∧ demo_ring.tail < demo_ring.len
    ∧ (5 < UINT_MOD ∨ cbuf_reader_use_max_chunk demo_ring = false ∨ some demo_dst = none)
    ∧ ∃ r r0, cbuf_read demo_ring (some demo_dst) 5 false = some r
      ∧ r.2.2 = min 5 (cbuf_space_used demo_ring)
      ∧ (r.2.2 = 0 → 5 = 0 ∨ demo_ring.head = demo_ring.tail)
      ∧ r.1.tail = (demo_ring.tail + r.2.2) % demo_ring.len
      ∧ r.1.head = demo_ring.head
      ∧ r.1.buf = demo_ring.buf
      ∧ cbuf_read demo_ring none 5 false = some r0
      ∧ r0.2.2 = r.2.2 ∧ r0.1.tail = r.1.tail ∧ r0.1.head = r.1.head :=
  ⟨by decide, by decide, by decide, by decide, Or.inl (by decide),
    cbuf_read_returns_min demo_ring (some demo_dst) 5 (by decide) (by decide) (by decide)
      (by decide) (Or.inl (by decide))⟩

/-- C6, witness: the calls of `demo_ops` on a fresh ring of length 8 meet the
hypotheses of `wf_invariant`. -/
theorem wf_invariant_witness :
    1 ≤ 8 ∧ 8 < UINT_MOD ∧ run (cbuf_initialize_etc 8 demo_dst) demo_ops = some demo_ops_ring
    ∧ demo_ops_ring.head < demo_ops_ring.len ∧ demo_ops_ring.tail < demo_ops_ring.len
    ∧ 1 ≤ demo_ops_ring.len ∧ demo_ops_ring.len ≤ demo_ops_ring.len_max :=
  ⟨by decide, by decide, rfl,
    wf_invariant 8 demo_dst demo_ops demo_ops_ring (by decide) (by decide) rfl⟩

/-- C7, witness: the calls of `demo_event_ops` on a fresh ring of length 8 meet
the hypotheses of `event_invariant`. -/
theorem event_invariant_witness :
    1 ≤ 8 ∧ 8 < UINT_MOD ∧ (∀ op ∈ demo_event_ops, op.event_safe = true)
    ∧ ((∃ p, 8 = 2 ^ p) ∨ ∀ op ∈ demo_event_ops, op.is_write_char = false)
    ∧ run (cbuf_initialize_etc 8 demo_dst) demo_event_ops = some demo_event_ring
    ∧ (demo_event_ring.event = true ↔ demo_event_ring.head ≠ demo_event_ring.tail) :=
  ⟨by decide, by decide, by decide, Or.inl ⟨3, by decide⟩, rfl,
    event_invariant 8 demo_dst demo_event_ops demo_event_ring (by decide) (by decide)
      (by decide) (Or.inl ⟨3, by decide⟩) rfl⟩

/-- C8, witness: the ring after `demo_ops`, which holds one byte with the event
signaled, meets the hypotheses of `reset_family`. -/
theorem reset_family_witness :
    1 ≤ 8 ∧ 8 < UINT_MOD ∧ run (cbuf_initialize_etc 8 demo_dst) demo_ops = some demo_ops_ring
    ∧ (demo_ops_ring.head = demo_ops_ring.tail → demo_ops_ring.event = false)
    ∧ cbuf_space_used (cbuf_reset demo_ops_ring) = 0
    ∧ (cbuf_reset demo_ops_ring).event = false
    ∧ (cbuf_reset_indexes demo_ops_ring).event = false
    ∧ (cbuf_reset_with_zero demo_ops_ring).event = false
    ∧ (cbuf_reset_with_zero demo_ops_ring).head = (cbuf_reset_with_zero demo_ops_ring).tail :=
  ⟨by decide, by decide, rfl, by decide,
    (reset_family 8 demo_dst demo_ops demo_ops_ring (by decide) (by decide) rfl (by decide)).1.1,
    (reset_family 8 demo_dst demo_ops demo_ops_ring (by decide) (by decide) rfl (by decide)).1.2.1,
    (reset_family 8 demo_dst demo_ops demo_ops_ring (by decide) (by decide) rfl
      (by decide)).2.1.2.1,
    (reset_family 8 demo_dst demo_ops demo_ops_ring (by decide) (by decide) rfl
      (by decide)).2.2.2⟩

/-- C5 at a failing input: a ring of length 3 after write 2, read 1, write 1
has `head = 0`, `tail = 1` and two bytes stored, `(head - tail) mod len = 2`;
`cbuf_space_used` returns 0, and `cbuf_space_avail` 2 though the ring is
full. -/
theorem cbuf_space_used_not_residue :
    (run (cbuf_initialize_etc 3 demo_dst) full3_ops).map
        (fun c => (c.head, c.tail, c.len, used c, cbuf_space_used c, cbuf_space_avail c))
      = some (0, 1, 3, 2, 0, 2) := by
  decide

/-- C4 at a failing input: a ring of length 3 after write 2, read 2 is empty
with `head = tail = 2`; a write of `len - 1 = 2` bytes returns 1, and the read
of 2 that follows returns 1. -/
theorem capacity_short_of_len_minus_one :
    (run (cbuf_initialize_etc 3 demo_dst) wrap3_ops).map
        (fun c => (c.head, c.tail, c.len, (cbuf_write c (some demo_src) 2 false).2,
          (cbuf_read (cbuf_write c (some demo_src) 2 false).1 (some demo_dst) 2 false).map
            (fun r => r.2.2)))
      = some (2, 2, 3, 1, some 1) := by
  decide

/-- C9 at a failing input: a ring set up on a buffer of 4 bytes, all 7, and
lowered to length 2 by `cbuf_adjust_size`; after `cbuf_reset_with_zero` the 4
bytes of the backing buffer are 0, 0, 7, 7. -/
theorem reset_with_zero_leaves_bytes :
    (run (cbuf_initialize_etc 4 (fun _ => 7)) [Op.adjust_size 2, Op.reset_with_zero]).map
        (fun c => (c.len, c.len_max, bytes c.buf 0 c.len_max)) = some (2, 4, [0, 0, 7, 7]) := by
  decide

/-- C10 at a failing input: a ring of length 3 with the default flags after
write 2, read 2 is empty with `head = tail = 2` and `is_reset` false;
`cbuf_write(NULL, 2)` returns 1. -/
theorem null_write_short :
    (run (cbuf_initialize_etc 3 demo_dst) wrap3_ops).map
        (fun c => (c.head, c.tail, c.len, c.is_reset, decide (c.flags = CBUF_FLAG_DEFAULT),
          (cbuf_write c none 2 false).2))
      = some (2, 2, 3, false, true, 1) := by
  decide

/-! ## What holds on rings whose length is a power of two -/

theorem write_pass_is_reset_none (c : cbuf_t) (en : Bool) (pos wl : Nat) :
    (write_pass c none en pos wl).is_reset = c.is_reset := by
  simp only [write_pass]; split_ifs <;> rfl

/-- With a software writer and `is_reset` false, the write loop of a `NULL`
write appends zeros to the stored bytes, for every ring length. -/
theorem write_loop_zeros (n : Nat) :
    ∀ (fuel : Nat) (c : cbuf_t) (pos : Nat), wf c → c.is_reset = false → pos ≤ n →
      contents (write_loop none n true fuel c pos).1 =
        contents c ++ List.replicate ((write_loop none n true fuel c pos).2 - pos) 0 := by
  intro fuel
  induction fuel with
  | zero => intro c pos h _ hp; simp [write_loop]
  | succ k ih =>
    intro c pos h hr hp
    by_cases hc : pos < n ∧ cbuf_space_avail c > 0
    · by_cases hw : cbuf_get_contiguous_space c n pos = 0
      · rw [write_loop_break none n true _ c pos hw]
        simp
      · rw [write_loop_step none n true k c pos hc hw]
        have hwl := cbuf_get_contiguous_space_eq h n pos
        generalize cbuf_get_contiguous_space c n pos = wl at hwl hw ⊢
        have hrs : wl ≤ run_space c := by omega
        have ha := write_pass_appended h none true pos hrs
        have hwf1 := appended_wf h ha
        have hpost := write_loop_spec none n true k _ (pos + wl) hwf1 (by omega)
        have hle := hpost.pos_le
        rw [ih _ (pos + wl) hwf1 (by rw [write_pass_is_reset_none]; exact hr) (by omega),
          appended_contents h hrs ha, write_pass_buf_none c pos wl hr, bytes_memset,
          List.append_assoc]
        congr 1
        generalize (write_loop none n true k (write_pass c none true pos wl) (pos + wl)).2 = q
          at hle ⊢
        have e : q - pos = wl + (q - (pos + wl)) := by omega
        rw [e, List.replicate_add]
    · rw [write_loop_stop none n true _ c pos hc]
      simp

theorem cbuf_write_null_contents {c : cbuf_t} (h : wf c) (hsw : cbuf_is_sw_writer c = true)
    (hr : c.is_reset = false) (n : Nat) (cr : Bool) :
    contents (cbuf_write c none n cr).1
      = contents c ++ List.replicate (cbuf_write c none n cr).2 0 := by
  have hl := write_loop_zeros n n c 0 h hr (Nat.zero_le _)
  rw [Nat.sub_zero] at hl
  show contents (cbuf_write_wo_lock c none n cr).1
    = contents c ++ List.replicate (cbuf_write_wo_lock c none n cr).2 0
  rw [cbuf_write_wo_lock_count, hsw, ← hl]
  apply contents_congr
  all_goals (simp only [cbuf_write_wo_lock, hsw]; split_ifs <;> rfl)

/-- With a software reader the chunk loop of `cbuf_read` delivers the front of
the stored bytes to the caller's buffer, from offset `ret` on, and leaves the
buffer below `ret` as it was. -/
theorem read_chunks_out (block : Bool) :
    ∀ (loop : Nat) (c : cbuf_t) (buf : Mem) (rem ret : Nat), wf c →
      cbuf_is_sw_reader c = true →
      (∀ i, i < ret → (read_chunks block loop c buf rem ret).2.1 i = buf i)
      ∧ contents c = bytes (read_chunks block loop c buf rem ret).2.1 ret
          ((read_chunks block loop c buf rem ret).2.2 - ret)
          ++ contents (read_chunks block loop c buf rem ret).1 := by
  intro loop
  induction loop with
  | zero =>
    intro c buf rem ret h _
    exact ⟨fun _ _ => rfl, by simp [read_chunks, bytes_zero]⟩
  | succ k ih =>
    intro c buf rem ret h hsw
    simp only [read_chunks]
    obtain ⟨ha, _⟩ := cbuf_read_wo_lock_consumed h (some (shift buf ret))
      (if rem > CBUF_READ_MAX_CHUNK then CBUF_READ_MAX_CHUNK else rem) block
    obtain ⟨d, hd1, hd2⟩ := cbuf_read_wo_lock_out h hsw (shift buf ret)
      (if rem > CBUF_READ_MAX_CHUNK then CBUF_READ_MAX_CHUNK else rem) block
    generalize cbuf_read_wo_lock c (some (shift buf ret))
      (if rem > CBUF_READ_MAX_CHUNK then CBUF_READ_MAX_CHUNK else rem) block = r at ha hd1 hd2 ⊢
    rw [hd1]
    have hsw1 : cbuf_is_sw_reader r.1 = true := by
      simp only [cbuf_is_sw_reader, ha.conf.flags_eq] at hsw ⊢
      exact hsw
    have hlow : ∀ i, i < ret → unshift buf ret d i = buf i := by
      intro i hi
      simp [unshift, hi]
    have hseg : bytes (unshift buf ret d) ret r.2.2 = bytes d 0 r.2.2 := by
      apply bytes_congr
      intro j _
      simp [unshift]
    by_cases hz : r.2.2 = 0
    · rw [if_pos hz]
      refine ⟨hlow, ?_⟩
      show contents c = bytes (unshift buf ret d) ret (ret - ret) ++ contents r.1
      rw [Nat.sub_self, bytes_zero, List.nil_append, hd2, hz, bytes_zero, List.nil_append]
    · rw [if_neg hz]
      obtain ⟨h1, h2⟩ := ih r.1 (unshift buf ret d) (rem - r.2.2) (ret + r.2.2) ha.wf_out hsw1
      obtain ⟨_, h3, _⟩ := read_chunks_spec block k r.1 (unshift buf ret d) (rem - r.2.2)
        (ret + r.2.2) ha.wf_out
      generalize read_chunks block k r.1 (unshift buf ret d) (rem - r.2.2) (ret + r.2.2) = q
        at h1 h2 h3 ⊢
      refine ⟨fun i hi => by rw [h1 i (by omega), hlow i hi], ?_⟩
      have e : q.2.2 - ret = r.2.2 + (q.2.2 - (ret + r.2.2)) := by omega
      rw [hd2, h2, e, bytes_append, List.append_assoc]
      congr 1
      rw [← hseg]
      apply bytes_congr
      intro j hj
      exact (h1 (ret + j) (by omega)).symm

/-- With a software reader a non-blocking `cbuf_read` into a buffer delivers the
front of the stored bytes, on every path, for every ring length. -/
theorem cbuf_read_attempt_out {c : cbuf_t} (h : wf c) (hsw : cbuf_is_sw_reader c = true)
    (dst : Mem) (n : Nat) (block : Bool) :
    ∃ d, (cbuf_read_attempt c (some dst) n block).2.1 = some d
      ∧ contents c = bytes d 0 (cbuf_read_attempt c (some dst) n block).2.2
          ++ contents (cbuf_read_attempt c (some dst) n block).1 := by
  simp only [cbuf_read_attempt]
  split_ifs
  · exact cbuf_read_wo_lock_out h hsw dst n block
  · obtain ⟨_, h2⟩ := read_chunks_out block (chunk_count n CBUF_READ_MAX_CHUNK) c dst n 0 h hsw
    rw [Nat.sub_zero] at h2
    exact ⟨_, rfl, h2⟩

/-- On a ring whose length is a power of two the usable capacity is `len - 1`:
at an empty ring, wherever `head = tail` stands, a write of `len - 1` bytes
returns `len - 1`, a write of one more byte returns 0, and a read of `len - 1`
bytes returns `len - 1`. -/
theorem capacity_pow2 (c : cbuf_t) (b1 b2 b3 : Option Mem) (cr : Bool)
    (hpw : c.len = 2 ^ c.len_pow2) (hlen : 2 ≤ c.len) (hlt : c.len < UINT_MOD)
    (he : c.head = c.tail) (ht : c.tail < c.len) :
    (cbuf_write c b1 (c.len - 1) cr).2 = c.len - 1
    ∧ (cbuf_write (cbuf_write c b1 (c.len - 1) cr).1 b2 1 cr).2 = 0
    ∧ (cbuf_read_attempt (cbuf_write (cbuf_write c b1 (c.len - 1) cr).1 b2 1 cr).1 b3
        (c.len - 1) false).2.2 = c.len - 1 := by
  have h := wf_of_pow2 hpw hlt (by omega) ht
  have hu : used c = 0 := (used_eq_zero_iff h).mpr he
  obtain ⟨ha, _⟩ := cbuf_write_advanced h b1 (c.len - 1) cr
  have hex := cbuf_write_exact h hpw b1 (by omega : c.len - 1 < UINT_MOD) cr
  have hu1 := ha.used_eq
  generalize cbuf_write c b1 (c.len - 1) cr = w1 at ha hex hu1 ⊢
  have hpw1 : w1.1.len = 2 ^ w1.1.len_pow2 := by
    rw [ha.conf.len_eq, ha.conf.len_pow2_eq]; exact hpw
  obtain ⟨ha2, _⟩ := cbuf_write_advanced ha.wf_out b2 1 cr
  have hex2 := cbuf_write_exact ha.wf_out hpw1 b2 (by decide : 1 < UINT_MOD) cr
  have hu2 := ha2.used_eq
  have hl1 := ha.conf.len_eq
  generalize cbuf_write w1.1 b2 1 cr = w2 at ha2 hex2 hu2 ⊢
  have hex3 := cbuf_read_attempt_exact ha2.wf_out b3 (Or.inl (by omega : c.len - 1 < UINT_MOD)) false
  refine ⟨by omega, by omega, ?_⟩
  rw [hex3]
  omega

/-- On a ring whose length is a power of two a `NULL` write is a zero fill: at
an empty ring with software writer and reader and `is_reset` false, whatever
the backing buffer holds, `cbuf_write(NULL, n)` with `n < len` returns `n` and
the read of `n` bytes that follows returns `n` bytes that are all 0. -/
theorem null_write_zero_fill_pow2 (c : cbuf_t) (dst : Mem) (n : Nat) (cr : Bool)
    (hpw : c.len = 2 ^ c.len_pow2) (hlt : c.len < UINT_MOD)
    (he : c.head = c.tail) (ht : c.tail < c.len)
    (hsw : cbuf_is_sw_writer c = true) (hsr : cbuf_is_sw_reader c = true)
    (hr : c.is_reset = false) (hn : n < c.len) :
    (cbuf_write c none n cr).2 = n
    ∧ ∃ r d, cbuf_read (cbuf_write c none n cr).1 (some dst) n false = some r
        ∧ r.2.2 = n ∧ r.2.1 = some d ∧ bytes d 0 n = List.replicate n 0 := by
  have h := wf_of_pow2 hpw hlt (by omega) ht
  have hu : used c = 0 := (used_eq_zero_iff h).mpr he
  obtain ⟨ha, _⟩ := cbuf_write_advanced h none n cr
  have hex := cbuf_write_exact h hpw none (by omega : n < UINT_MOD) cr
  have hc := cbuf_write_null_contents h hsw hr n cr
  have hret : (cbuf_write c none n cr).2 = n := by omega
  have hu1 := ha.used_eq
  rw [contents_empty he, List.nil_append, hret] at hc
  rw [hret, hu, Nat.zero_add] at hu1
  generalize (cbuf_write c none n cr).1 = c1 at ha hc hu1 ⊢
  have hsr1 : cbuf_is_sw_reader c1 = true := by
    simp only [cbuf_is_sw_reader, ha.conf.flags_eq] at hsr ⊢
    exact hsr
  have hex3 := cbuf_read_attempt_exact ha.wf_out (some dst) (Or.inl (by omega : n < UINT_MOD)) false
  rw [hu1, Nat.min_self] at hex3
  obtain ⟨d, hd1, hd2⟩ := cbuf_read_attempt_out ha.wf_out hsr1 dst n false
  refine ⟨hret, _, d, cbuf_read_nonblock c1 (some dst) n, hex3, hd1, ?_⟩
  rw [hex3, hc] at hd2
  have hl := congrArg List.length hd2
  rw [List.length_append, bytes_length, List.length_replicate] at hl
  have hnil : contents (cbuf_read_attempt c1 (some dst) n false).1 = [] :=
    List.eq_nil_of_length_eq_zero (by omega)
  rw [hnil, List.append_nil] at hd2
  exact hd2.symm

/-- After `cbuf_reset_with_zero` the bytes of the backing buffer below the
active length are 0 and the others are as before. -/
theorem reset_with_zero_active (c : cbuf_t) (h : wf c) (i : Nat) :
    (cbuf_reset_with_zero c).buf i = if i < c.len then 0 else c.buf i := by
  have hwz : wf { c with buf := memset c.buf 0 0 (cbuf_size c) } :=
    wf_of_fields h rfl rfl h.head_lt h.tail_lt
  obtain ⟨_, _, hb⟩ := cbuf_reset_empty hwz
  have hm : memset c.buf 0 0 (cbuf_size c) i = if i < c.len then 0 else c.buf i := by
    simp [memset, cbuf_size]
  rw [← hm]
  simp only [cbuf_reset_with_zero]
  split_ifs
  · show (cbuf_reset { c with buf := memset c.buf 0 0 (cbuf_size c) }).buf i = _
    rw [hb]
  · show (cbuf_reset { c with buf := memset c.buf 0 0 (cbuf_size c) }).buf i = _
    rw [hb]
  · show (cbuf_reset { c with buf := memset c.buf 0 0 (cbuf_size c) }).buf i = _
    rw [hb]

/-! ## Initialisation, resize, skip and rewind -/

theorem usub_self (a : Nat) : usub a a = 0 := by
  unfold usub
  have h : a % UINT_MOD < UINT_MOD := Nat.mod_lt _ (by decide)
  have e : a % UINT_MOD + UINT_MOD - a % UINT_MOD = UINT_MOD := by omega
  rw [e, Nat.mod_self]

/-- With `head = tail` the function `cbuf_space_used` returns 0, in every ring
state. -/
theorem cbuf_space_used_of_eq {c : cbuf_t} (he : c.head = c.tail) : cbuf_space_used c = 0 := by
  unfold cbuf_space_used
  rw [he, usub_self]
  split_ifs
  · rw [modpow2_eq, Nat.zero_mod]
  · exact Nat.zero_mod _

/-- An attempt of `cbuf_read` on an empty ring reads nothing and leaves the ring
as it is. -/
theorem cbuf_read_attempt_empty {c : cbuf_t} (he : c.head = c.tail) (buf : Option Mem)
    (n : Nat) (block : Bool) :
    (cbuf_read_attempt c buf n block).2.2 = 0 ∧ (cbuf_read_attempt c buf n block).1 = c := by
  have hw : ∀ b m, cbuf_read_wo_lock c b m block = (c, b, 0) := by
    intro b m
    simp [cbuf_read_wo_lock, he]
  cases buf with
  | none =>
    show (cbuf_read_wo_lock c none n block).2.2 = 0 ∧ (cbuf_read_wo_lock c none n block).1 = c
    rw [hw]
    exact ⟨rfl, rfl⟩
  | some dst =>
    simp only [cbuf_read_attempt]
    split_ifs
    · rw [hw]; exact ⟨rfl, rfl⟩
    · cases chunk_count n CBUF_READ_MAX_CHUNK with
      | zero => exact ⟨rfl, rfl⟩
      | succ k => simp [read_chunks, hw]

/-- C19: after `cbuf_initialize_etc(len, buf)` with a length `len ≥ 1` (a `uint`)
`head = 0`, `tail = 0`, `len = len_max = len`, `buf` is the buffer supplied, the
flags are exactly `SW_IS_WRITER | SW_IS_READER | BUF_IS_CACHEABLE` (no
`NO_EVENT`, no chunking flag), `no_event` and `is_reset` are false and the event
is not signaled; `cbuf_space_used` returns 0 and `cbuf_space_avail` returns
`len - 1`. -/
theorem cbuf_initialize_etc_state (len : Nat) (buf : Mem) (hlen : 1 ≤ len)
    (hlt : len < UINT_MOD) :
    (cbuf_initialize_etc len buf).head = 0
    ∧ (cbuf_initialize_etc len buf).tail = 0
    ∧ (cbuf_initialize_etc len buf).len = len
    ∧ (cbuf_initialize_etc len buf).len_max = len
    ∧ (cbuf_initialize_etc len buf).buf = buf
    ∧ (cbuf_initialize_etc len buf).flags
        = CBUF_FLAG_SW_IS_WRITER ||| CBUF_FLAG_SW_IS_READER ||| CBUF_FLAG_BUF_IS_CACHEABLE
    ∧ cbuf_is_no_event (cbuf_initialize_etc len buf) = false
    ∧ cbuf_reader_use_max_chunk (cbuf_initialize_etc len buf) = false
    ∧ cbuf_writer_use_max_chunk (cbuf_initialize_etc len buf) = false
    ∧ (cbuf_initialize_etc len buf).no_event = false
    ∧ (cbuf_initialize_etc len buf).is_reset = false
    ∧ (cbuf_initialize_etc len buf).event = false
    ∧ cbuf_space_used (cbuf_initialize_etc len buf) = 0
    ∧ cbuf_space_avail (cbuf_initialize_etc len buf) = len - 1 := by
  obtain ⟨hh, ht, hl, hm, hb, he, hn, hr, hf, _⟩ := cbuf_initialize_etc_fields len buf
  have hw := cbuf_initialize_etc_wf buf hlen hlt
  rw [Nat.mod_eq_of_lt hlt] at hl hm
  have hu : used (cbuf_initialize_etc len buf) = 0 := (used_eq_zero_iff hw).mpr (by rw [hh, ht])
  have hav := cbuf_space_avail_eq hw (Or.inl (by rw [hh, ht]))
  rw [hu, hl] at hav
  refine ⟨hh, ht, hl, hm, hb, hf, ?_, ?_, ?_, hn, hr, he,
    cbuf_space_used_of_eq (by rw [hh, ht]), by rw [hav]; omega⟩
  · simp only [cbuf_is_no_event, hf]; decide
  · simp only [cbuf_reader_use_max_chunk, hf]; decide
  · simp only [cbuf_writer_use_max_chunk, hf]; decide

/-- C19, witness: a ring set up with length 12 meets the hypotheses of
`cbuf_initialize_etc_state`. -/
theorem cbuf_initialize_etc_state_witness :
    1 ≤ 12 ∧ 12 < UINT_MOD
    ∧ (cbuf_initialize_etc 12 demo_dst).len = 12
    ∧ cbuf_space_avail (cbuf_initialize_etc 12 demo_dst) = 12 - 1 :=
  ⟨by decide, by decide,
    (cbuf_initialize_etc_state 12 demo_dst (by decide) (by decide)).2.2.1,
    (cbuf_initialize_etc_state 12 demo_dst (by decide) (by decide)).2.2.2.2.2.2.2.2.2.2.2.2.2⟩

/-- C20: for every ring (its capacity a `uint`) and every `new_len` from 1 to
`len_max`, `cbuf_adjust_size(new_len)` leaves `head = tail = 0` and
`len = new_len`, so that `cbuf_space_used` returns 0, `cbuf_space_avail`
returns `new_len - 1` and no byte is stored; `len_max`, `buf` and the flags are
as before; and `cbuf_adjust_size(len_max)` is within its precondition
afterwards and brings the length back to `len_max`. -/
theorem cbuf_adjust_size_state (c : cbuf_t) (new_len : Nat) (h1 : 1 ≤ new_len)
    (h2 : new_len ≤ c.len_max) (h3 : c.len_max < UINT_MOD) :
    (cbuf_adjust_size c new_len).head = 0
    ∧ (cbuf_adjust_size c new_len).tail = 0
    ∧ (cbuf_adjust_size c new_len).len = new_len
    ∧ cbuf_space_used (cbuf_adjust_size c new_len) = 0
    ∧ cbuf_space_avail (cbuf_adjust_size c new_len) = new_len - 1
    ∧ contents (cbuf_adjust_size c new_len) = []
    ∧ (cbuf_adjust_size c new_len).len_max = c.len_max
    ∧ (cbuf_adjust_size c new_len).buf = c.buf
    ∧ (cbuf_adjust_size c new_len).flags = c.flags
    ∧ Op.pre (cbuf_adjust_size c new_len) (Op.adjust_size c.len_max) = true
    ∧ (cbuf_adjust_size (cbuf_adjust_size c new_len) c.len_max).len = c.len_max := by
  obtain ⟨hw, hl, hm, _⟩ := cbuf_adjust_size_wf c h1 h2 h3
  obtain ⟨hh, ht, _, hb, _, _, _, hf, _⟩ := _cbuf_set_size_frame { c with head := 0, tail := 0 } new_len
  have hh' : (cbuf_adjust_size c new_len).head = 0 := hh
  have ht' : (cbuf_adjust_size c new_len).tail = 0 := ht
  have hu : used (cbuf_adjust_size c new_len) = 0 := (used_eq_zero_iff hw).mpr (by rw [hh', ht'])
  have hav := cbuf_space_avail_eq hw (Or.inl (by rw [hh', ht']))
  rw [hu, hl] at hav
  obtain ⟨_, hl2, _, _⟩ := cbuf_adjust_size_wf (cbuf_adjust_size c new_len)
    (by omega : 1 ≤ c.len_max) (by rw [hm]) (by rw [hm]; exact h3)
  refine ⟨hh', ht', hl, cbuf_space_used_of_eq (by rw [hh', ht']), by rw [hav]; omega,
    contents_empty (by rw [hh', ht']), hm, hb, hf, ?_, hl2⟩
  simp only [Op.pre, decide_eq_true_eq, hm]
  omega

/-- C20, witness: the ring after `demo_ops`, of capacity 8, lowered to length 3,
meets the hypotheses of `cbuf_adjust_size_state`. -/
theorem cbuf_adjust_size_state_witness :
    1 ≤ 3 ∧ 3 ≤ demo_ops_ring.len_max ∧ demo_ops_ring.len_max < UINT_MOD
    ∧ (cbuf_adjust_size demo_ops_ring 3).len = 3
    ∧ cbuf_space_avail (cbuf_adjust_size demo_ops_ring 3) = 3 - 1
    ∧ (cbuf_adjust_size (cbuf_adjust_size demo_ops_ring 3) demo_ops_ring.len_max).len
        = demo_ops_ring.len_max :=
  ⟨by decide, by decide, by decide,
    (cbuf_adjust_size_state demo_ops_ring 3 (by decide) (by decide) (by decide)).2.2.1,
    (cbuf_adjust_size_state demo_ops_ring 3 (by decide) (by decide) (by decide)).2.2.2.2.1,
    (cbuf_adjust_size_state demo_ops_ring 3 (by decide) (by decide)
      (by decide)).2.2.2.2.2.2.2.2.2.2⟩

/-- C16: for every ring length (a `uint`), power of two or not, with `head` and
`tail` below it and `len_pow2` zero or its logarithm, and every `n < len`:
`cbuf_skip(true, n)` sets `head` to `(head + n) mod len` and leaves `tail`,
`cbuf_skip(false, n)` sets `tail` to `(tail + n) mod len` and leaves `head`,
and both leave the buffer, the flags, the length and the event as they
were. -/
theorem cbuf_skip_effect (c : cbuf_t) (n : Nat) (hlt : c.len < UINT_MOD)
    (hp : c.len_pow2 ≠ 0 → c.len = 2 ^ c.len_pow2)
    (hh : c.head < c.len) (ht : c.tail < c.len) (hn : n < c.len) :
    (cbuf_skip c true n).head = (c.head + n) % c.len
    ∧ (cbuf_skip c true n).tail = c.tail
    ∧ (cbuf_skip c false n).tail = (c.tail + n) % c.len
    ∧ (cbuf_skip c false n).head = c.head
    ∧ ∀ is_write : Bool,
        (cbuf_skip c is_write n).buf = c.buf
        ∧ (cbuf_skip c is_write n).flags = c.flags
        ∧ (cbuf_skip c is_write n).len = c.len
        ∧ (cbuf_skip c is_write n).len_max = c.len_max
        ∧ (cbuf_skip c is_write n).len_pow2 = c.len_pow2
        ∧ (cbuf_skip c is_write n).event = c.event
        ∧ (cbuf_skip c is_write n).no_event = c.no_event
        ∧ (cbuf_skip c is_write n).is_reset = c.is_reset
        ∧ (cbuf_skip c is_write n).cache = c.cache := by
  have hw : wf c := ⟨by omega, hlt, hh, ht, hp⟩
  have eh : INC_POINTER c SIZE_MOD c.head n = (c.head + n) % c.len :=
    INC_POINTER_eq hw (by simp only [SIZE_MOD, UINT_MOD] at hlt ⊢; omega)
  have et : INC_POINTER c SIZE_MOD c.tail n = (c.tail + n) % c.len :=
    INC_POINTER_eq hw (by simp only [SIZE_MOD, UINT_MOD] at hlt ⊢; omega)
  refine ⟨eh, rfl, et, rfl, ?_⟩
  intro is_write
  cases is_write <;> exact ⟨rfl, rfl, rfl, rfl, rfl, rfl, rfl, rfl, rfl⟩

/-- C16, witness: a skip by 5 on a ring of length 7 (not a power of two), made
from a fresh ring by a skip of each index, where the sum wraps. -/
theorem cbuf_skip_effect_witness :
    (cbuf_skip (cbuf_skip (cbuf_initialize_etc 7 demo_dst) true 6) false 4).len < UINT_MOD
    ∧ (cbuf_skip (cbuf_skip (cbuf_initialize_etc 7 demo_dst) true 6) false 4).head = 6
    ∧ (cbuf_skip (cbuf_skip (cbuf_skip (cbuf_initialize_etc 7 demo_dst) true 6) false 4)
        true 5).head = (6 + 5) % 7
    ∧ (cbuf_skip (cbuf_skip (cbuf_skip (cbuf_initialize_etc 7 demo_dst) true 6) false 4)
        false 5).tail = (4 + 5) % 7 :=
  ⟨by decide, by decide,
    (cbuf_skip_effect (cbuf_skip (cbuf_skip (cbuf_initialize_etc 7 demo_dst) true 6) false 4) 5
      (by decide) (by decide) (by decide) (by decide) (by decide)).1,
    (cbuf_skip_effect (cbuf_skip (cbuf_skip (cbuf_initialize_etc 7 demo_dst) true 6) false 4) 5
      (by decide) (by decide) (by decide) (by decide) (by decide)).2.2.1⟩

/-- What `cbuf_rewind` does in every ring state: it returns what
`cbuf_space_used` returned at entry, sets `head` to `tail` and leaves `tail` and
the buffer as they were; afterwards `cbuf_space_used` returns 0 and a
non-blocking `cbuf_read` returns, with the count 0. -/
theorem cbuf_rewind_effect (c : cbuf_t) (buf : Option Mem) (n : Nat) :
    (cbuf_rewind c).2 = cbuf_space_used c
    ∧ (cbuf_rewind c).1.head = c.tail
    ∧ (cbuf_rewind c).1.tail = c.tail
    ∧ (cbuf_rewind c).1.buf = c.buf
    ∧ cbuf_space_used (cbuf_rewind c).1 = 0
    ∧ ∃ r, cbuf_read (cbuf_rewind c).1 buf n false = some r ∧ r.2.2 = 0 :=
  ⟨rfl, rfl, rfl, rfl, cbuf_space_used_of_eq rfl,
    ⟨_, cbuf_read_nonblock _ buf n, (cbuf_read_attempt_empty rfl buf n false).1⟩⟩

/-! ## Trash and rewind by a length -/

/-- With both peers software `cbuf_trash` returns at once: the ring is as it was. -/
theorem cbuf_trash_software {c : cbuf_t} (hw : cbuf_is_sw_writer c = true)
    (hr : cbuf_is_sw_reader c = true) (n : Nat) : cbuf_trash c n = c := by
  simp [cbuf_trash, hw, hr]

/-- With a hardware peer `cbuf_trash` moves both indices forward by the length
and changes nothing else. -/
theorem cbuf_trash_hardware {c : cbuf_t} (h : wf c)
    (hp : cbuf_is_sw_writer c = false ∨ cbuf_is_sw_reader c = false) {n : Nat} (hn : n < c.len) :
    (cbuf_trash c n).head = (c.head + n) % c.len
    ∧ (cbuf_trash c n).tail = (c.tail + n) % c.len
    ∧ (cbuf_trash c n).buf = c.buf
    ∧ (cbuf_trash c n).event = c.event
    ∧ used (cbuf_trash c n) = used c := by
  have h1 := h.head_lt
  have h2 := h.tail_lt
  have h3 := h.len_lt
  have eh : INC_POINTER c SIZE_MOD c.head n = (c.head + n) % c.len :=
    INC_POINTER_eq h (by simp only [SIZE_MOD, UINT_MOD] at h3 ⊢; omega)
  have et : INC_POINTER c SIZE_MOD c.tail n = (c.tail + n) % c.len :=
    INC_POINTER_eq h (by simp only [SIZE_MOD, UINT_MOD] at h3 ⊢; omega)
  have hne : ¬ (cbuf_is_sw_writer c = true ∧ cbuf_is_sw_reader c = true) := by
    rcases hp with hp | hp <;> simp [hp]
  have e : cbuf_trash c n =
      { c with head := (c.head + n) % c.len, tail := (c.tail + n) % c.len } := by
    have ec : INC_POINTER { c with head := (c.head + n) % c.len } SIZE_MOD c.tail n
        = INC_POINTER c SIZE_MOD c.tail n := INC_POINTER_congr rfl rfl _ _ _
    simp only [cbuf_trash, if_neg hne]
    rw [eh, ec, et]
  rw [e]
  refine ⟨rfl, rfl, rfl, rfl, ?_⟩
  simp only [used]
  rw [mod_wrap (a := c.head + n) (by omega), mod_wrap (a := c.tail + n) (by omega)]
  split_ifs <;> omega

theorem bytes_take (m : Mem) (off : Nat) {k n : Nat} (h : k ≤ n) :
    (bytes m off n).take k = bytes m off k := by
  unfold bytes
  rw [← List.map_take, List.take_range, Nat.min_eq_left h]

theorem ssub_mod_len {l ptr inc : Nat} (hd : l ∣ SIZE_MOD) (hl : l < UINT_MOD)
    (hp : ptr < l) (hi : inc ≤ l) : ssub ptr inc % l = (ptr + l - inc) % l := by
  have hs : UINT_MOD < SIZE_MOD := by decide
  unfold ssub
  rw [Nat.mod_eq_of_lt (show ptr < SIZE_MOD by omega),
    Nat.mod_eq_of_lt (show inc < SIZE_MOD by omega), Nat.mod_mod_of_dvd _ hd]
  obtain ⟨k, hk⟩ := hd
  have hk1 : 1 ≤ k := by
    rcases Nat.eq_zero_or_pos k with h0 | h0
    · rw [h0, Nat.mul_zero] at hk
      exact absurd hk (by decide)
    · exact h0
  obtain ⟨j, rfl⟩ : ∃ j, k = j + 1 := ⟨k - 1, by omega⟩
  have e1 : l * (j + 1) = l * j + l := Nat.mul_succ l j
  have e : ptr + SIZE_MOD - inc = (ptr + l - inc) + l * j := by
    rw [hk, e1]
    omega
  rw [e, Nat.add_mul_mod_self_left]

/-- On a ring whose length is a power of two `DEC_POINTER` is the index moved
back modulo the length. -/
theorem DEC_POINTER_eq {c : cbuf_t} (h : wf c) (hpw : c.len = 2 ^ c.len_pow2) {ptr inc : Nat}
    (hp : ptr < c.len) (hi : inc ≤ c.len) :
    DEC_POINTER c ptr inc = (ptr + c.len - inc) % c.len := by
  have hl := h.len_lt
  have hl2 : 2 ^ c.len_pow2 < UINT_MOD := hpw ▸ hl
  have hd : c.len ∣ SIZE_MOD := by
    rw [hpw]
    exact Dvd.dvd.trans (pow_dvd_uint hl2) (by unfold UINT_MOD SIZE_MOD; exact pow_dvd_pow 2 (by decide))
  unfold DEC_POINTER
  split_ifs with hz
  · rw [modpow2_eq, mod_mod_uint hl2, ← hpw]
    exact ssub_mod_len hd hl hp hi
  · exact ssub_mod_len hd hl hp hi

/-- What `cbuf_rewind_len` does on a ring whose length is a power of two. -/
theorem cbuf_rewind_len_spec {c : cbuf_t} (h : wf c) (hpw : c.len = 2 ^ c.len_pow2) (n : Nat) :
    (cbuf_rewind_len c n).2 = min n (used c)
    ∧ (cbuf_rewind_len c n).1.head = (c.head + c.len - min n (used c)) % c.len
    ∧ used (cbuf_rewind_len c n).1 = used c - min n (used c)
    ∧ contents (cbuf_rewind_len c n).1 = (contents c).take (used c - min n (used c)) := by
  have h1 := h.head_lt
  have h2 := h.tail_lt
  have hu := used_lt h
  have er : (cbuf_rewind_len c n).2 = min n (used c) := by
    simp only [cbuf_rewind_len, cbuf_space_used_eq h (Or.inr hpw)]
    split_ifs <;> omega
  have ec : cbuf_rewind_len c n =
      ({ c with head := (c.head + c.len - min n (used c)) % c.len }, min n (used c)) := by
    have e1 : cbuf_rewind_len c n
        = ({ c with head := DEC_POINTER c c.head (cbuf_rewind_len c n).2 },
            (cbuf_rewind_len c n).2) := rfl
    rw [e1, er, DEC_POINTER_eq h hpw h1 (show min n (used c) ≤ c.len by omega)]
  rw [ec]
  have hr : min n (used c) ≤ used c := Nat.min_le_right _ _
  generalize min n (used c) = r at hr ⊢
  have hh : (c.head + c.len - r) % c.len
      = if r ≤ c.head then c.head - r else c.head + c.len - r := by
    rw [mod_wrap (by omega)]
    split_ifs <;> omega
  rw [hh]
  refine ⟨rfl, rfl, ?_, ?_⟩
  · simp only [used] at hr ⊢
    split_ifs at hr ⊢ <;> omega
  · by_cases htl : c.tail ≤ c.head
    · have hu1 : used c = c.head - c.tail := if_pos htl
      rw [hu1] at hr ⊢
      have e1 : (if r ≤ c.head then c.head - r else c.head + c.len - r) = c.head - r :=
        if_pos (by omega)
      rw [e1]
      have e2 : contents { c with head := c.head - r } = bytes c.buf c.tail (c.head - r - c.tail) :=
        if_pos (show c.tail ≤ c.head - r by omega)
      have e3 : contents c = bytes c.buf c.tail (c.head - c.tail) := if_pos htl
      rw [e2, e3, bytes_take _ _ (by omega)]
      congr 1
      omega
    · have hu1 : used c = c.head + c.len - c.tail := if_neg htl
      have e3 : contents c = bytes c.buf c.tail (c.len - c.tail) ++ bytes c.buf 0 c.head :=
        if_neg htl
      rw [hu1] at hr ⊢
      rw [e3, List.take_append_eq_append_take, bytes_length]
      by_cases hrh : r ≤ c.head
      · rw [if_pos hrh]
        have e2 : contents { c with head := c.head - r }
            = bytes c.buf c.tail (c.len - c.tail) ++ bytes c.buf 0 (c.head - r) :=
          if_neg (show ¬ c.tail ≤ c.head - r by omega)
        rw [e2, List.take_of_length_le (by rw [bytes_length]; omega),
          bytes_take _ _ (show c.head + c.len - c.tail - r - (c.len - c.tail) ≤ c.head by omega)]
        congr 2
        omega
      · rw [if_neg hrh]
        have e2 : contents { c with head := c.head + c.len - r }
            = bytes c.buf c.tail (c.head + c.len - r - c.tail) :=
          if_pos (show c.tail ≤ c.head + c.len - r by omega)
        have e4 : c.head + c.len - c.tail - r - (c.len - c.tail) = 0 := by omega
        rw [e2, e4, List.take_zero, List.append_nil, bytes_take _ _ (by omega)]
        congr 1
        omega

/-- C13: on a ring whose length is a power of two, with `head` and `tail` below
the length, `cbuf_rewind_len` of `n` returns `r`, the smaller of `n` and
`cbuf_space_used` at entry, sets `head` to `(head - r) mod len` (written
`(head + len - r) % len` on the naturals, `r` being at most `len`), leaves
`tail` and the buffer as they were, and lowers `cbuf_space_used` by `r`; the
stored bytes are then the oldest `cbuf_space_used - r` of the bytes stored at
entry, in their order, and a non-blocking read of `m` bytes by a software
reader returns the first `min m (cbuf_space_used - r)` of them.  On a fresh
ring of length 8 holding `ABCDE`, `cbuf_rewind_len` of 3 returns 3, leaves
`cbuf_space_used` 2, and the read of 5 returns the 2 bytes `AB`. -/
theorem cbuf_rewind_len_effect (c : cbuf_t) (n : Nat) (hpw : c.len = 2 ^ c.len_pow2)
    (hlt : c.len < UINT_MOD) (hh : c.head < c.len) (ht : c.tail < c.len) :
    (cbuf_rewind_len c n).2 = min n (cbuf_space_used c)
    ∧ (cbuf_rewind_len c n).1.head = (c.head + c.len - (cbuf_rewind_len c n).2) % c.len
    ∧ (cbuf_rewind_len c n).1.tail = c.tail
    ∧ (cbuf_rewind_len c n).1.buf = c.buf
    ∧ cbuf_space_used (cbuf_rewind_len c n).1 = cbuf_space_used c - (cbuf_rewind_len c n).2
    ∧ contents (cbuf_rewind_len c n).1
        = (contents c).take (cbuf_space_used c - (cbuf_rewind_len c n).2)
    ∧ (∀ (dst : Mem) (m : Nat), cbuf_is_sw_reader c = true → m < UINT_MOD →
        ∃ r d, cbuf_read (cbuf_rewind_len c n).1 (some dst) m false = some r
          ∧ r.2.1 = some d
          ∧ r.2.2 = min m (cbuf_space_used c - (cbuf_rewind_len c n).2)
          ∧ bytes d 0 r.2.2 = (contents c).take r.2.2)
    ∧ (cbuf_rewind_len abcde_ring 3).2 = 3
    ∧ cbuf_space_used (cbuf_rewind_len abcde_ring 3).1 = 2
    ∧ (cbuf_read (cbuf_rewind_len abcde_ring 3).1 (some demo_dst) 5 false).map
        (fun r => (r.2.2, bytes (r.2.1.getD demo_dst) 0 r.2.2)) = some (2, [65, 66]) := by
  have h := wf_of_pow2 hpw hlt hh ht
  obtain ⟨e1, e2, e3, e4⟩ := cbuf_rewind_len_spec h hpw n
  have hk := cbuf_rewind_len_kept h n
  have hu := cbuf_space_used_eq h (Or.inr hpw)
  have hpw1 : (cbuf_rewind_len c n).1.len = 2 ^ (cbuf_rewind_len c n).1.len_pow2 := hpw
  have hu1 := cbuf_space_used_eq hk.wf_out (Or.inr hpw1)
  refine ⟨by rw [hu]; exact e1, by rw [e1]; exact e2, rfl, rfl, by rw [hu1, hu, e1]; exact e3,
    by rw [hu, e1]; exact e4, ?_, by decide, by decide, by decide⟩
  intro dst m hsw hm
  obtain ⟨d, hd1, hd2⟩ := cbuf_read_attempt_out hk.wf_out (c := (cbuf_rewind_len c n).1) hsw dst m false
  have hex := cbuf_read_attempt_exact hk.wf_out (some dst) (Or.inl hm) false
  refine ⟨_, d, cbuf_read_nonblock _ _ _, hd1, ?_, ?_⟩
  · rw [hex, e3, hu, e1]
  · have ht1 : bytes d 0 (cbuf_read_attempt (cbuf_rewind_len c n).1 (some dst) m false).2.2
        = (contents (cbuf_rewind_len c n).1).take
            (cbuf_read_attempt (cbuf_rewind_len c n).1 (some dst) m false).2.2 := by
      rw [hd2, List.take_left' (bytes_length _ _ _)]
    rw [ht1, e4, List.take_take, hex, e3]
    congr 1
    omega

/-- C13, witness: `cbuf_rewind_len` of 1 on `demo_ring`, which holds 2 bytes
at the offsets 4 and 5 of a ring of length 8. -/
theorem cbuf_rewind_len_effect_witness :
    demo_ring.len = 2 ^ demo_ring.len_pow2 ∧ demo_ring.len < UINT_MOD
    ∧ demo_ring.head < demo_ring.len ∧ demo_ring.tail < demo_ring.len
    ∧ (cbuf_rewind_len demo_ring 1).2 = min 1 (cbuf_space_used demo_ring)
    ∧ (cbuf_rewind_len demo_ring 1).1.head
        = (demo_ring.head + demo_ring.len - (cbuf_rewind_len demo_ring 1).2) % demo_ring.len :=
  ⟨by decide, by decide, by decide, by decide,
    (cbuf_rewind_len_effect demo_ring 1 (by decide) (by decide) (by decide) (by decide)).1,
    (cbuf_rewind_len_effect demo_ring 1 (by decide) (by decide) (by decide) (by decide)).2.1⟩

/-- C14 at a failing input: a fresh ring of length 8 with the default flags,
both peers software, holds `ABCDE` with `head` 5 and `tail` 0.  After
`cbuf_trash` of 2 `head` is 5 and `tail` is 0, not 7 and 2, and the read of 5
that follows returns the 5 bytes `ABCDE`, which do not begin with `CD`. -/
theorem cbuf_trash_software_no_effect :
    cbuf_is_sw_writer abcde_ring = true ∧ cbuf_is_sw_reader abcde_ring = true
    ∧ abcde_ring.head = 5 ∧ abcde_ring.tail = 0 ∧ abcde_ring.len = 8
    ∧ (cbuf_trash abcde_ring 2).head = 5 ∧ (cbuf_trash abcde_ring 2).tail = 0
    ∧ (cbuf_read (cbuf_trash abcde_ring 2) (some demo_dst) 5 false).map
        (fun r => (r.2.2, bytes (r.2.1.getD demo_dst) 0 r.2.2))
        = some (5, [65, 66, 67, 68, 69]) := by
  decide

/-- C15 at a failing input: a ring of length 8 whose reader is hardware holds
5 bytes with `head` 5 and `tail` 0.  After `cbuf_trash` of 2 `head` is 7 and
`tail` is 2: the call moved both. -/
theorem cbuf_trash_hardware_moves :
    cbuf_is_sw_reader hw_reader_ring = false
    ∧ hw_reader_ring.head = 5 ∧ hw_reader_ring.tail = 0 ∧ hw_reader_ring.len = 8
    ∧ (cbuf_trash hw_reader_ring 2).head = 7 ∧ (cbuf_trash hw_reader_ring 2).tail = 2 := by
  decide

/-! ## Peek -/

theorem ssub_of_le {a b : Nat} (hba : b ≤ a) (ha : a < SIZE_MOD) : ssub a b = a - b := by
  unfold ssub
  rw [Nat.mod_eq_of_lt ha, Nat.mod_eq_of_lt (lt_of_le_of_lt hba ha)]
  have h : a + SIZE_MOD - b = (a - b) + SIZE_MOD := by omega
  rw [h, Nat.add_mod_right, Nat.mod_eq_of_lt (by omega)]

/-- The regions of `cbuf_peek` on a ring whose length is a power of two: the
count is the number of stored bytes, and the regions are the run from `tail`
and, when the stored bytes wrap, the run from offset 0. -/
theorem cbuf_peek_eq {c : cbuf_t} (h : wf c) (hpw : c.len = 2 ^ c.len_pow2) :
    cbuf_peek c =
      (if c.len < used c + c.tail then
        ((⟨some c.tail, c.len - c.tail⟩, ⟨some 0, used c - (c.len - c.tail)⟩), used c)
      else ((⟨if used c ≠ 0 then some c.tail else none, used c⟩, ⟨none, 0⟩), used c)) := by
  have h1 := h.head_lt
  have h2 := h.tail_lt
  have h3 := h.len_lt
  have hu := used_lt h
  have hs : UINT_MOD < SIZE_MOD := by decide
  simp only [cbuf_peek, cbuf_size, cbuf_space_used_eq h (Or.inr hpw)]
  by_cases hw : c.len < used c + c.tail
  · have hne : used c ≠ 0 := by omega
    rw [if_pos hw, if_pos hw, if_pos hne, ssub_of_le (by omega) (by omega),
      ssub_of_le (by omega) (by omega)]
  · rw [if_neg (show ¬ used c + c.tail > c.len from hw), if_neg hw]

/-- The bytes of the two regions of `cbuf_peek` are the stored bytes. -/
theorem cbuf_peek_contents {c : cbuf_t} (h : wf c) (hpw : c.len = 2 ^ c.len_pow2) :
    iovec_bytes c (cbuf_peek c).1.1 ++ iovec_bytes c (cbuf_peek c).1.2 = contents c := by
  have h1 := h.head_lt
  have h2 := h.tail_lt
  rw [cbuf_peek_eq h hpw]
  unfold used contents
  by_cases htl : c.tail ≤ c.head
  · rw [if_pos htl, if_pos htl, if_neg (by omega)]
    by_cases hz : c.head - c.tail = 0
    · simp [iovec_bytes, hz, bytes_zero]
    · simp [iovec_bytes, hz]
  · rw [if_neg htl, if_neg htl]
    by_cases hw : c.len < c.head + c.len - c.tail + c.tail
    · rw [if_pos hw]
      have e : c.head + c.len - c.tail - (c.len - c.tail) = c.head := by omega
      simp [iovec_bytes, e]
    · rw [if_neg hw]
      have e0 : c.head = 0 := by omega
      have hne : c.head + c.len - c.tail ≠ 0 := by omega
      have e : c.head + c.len - c.tail = c.len - c.tail := by omega
      simp only [iovec_bytes, if_pos hne]
      rw [e, e0, bytes_zero]

/-- C17, as amended: on a ring whose length is a power of two, with `head` and
`tail` below the length, and with a software reader, `cbuf_peek`, which
computes from the ring and stores nothing into it, returns `u`, the value of
`cbuf_space_used`; the lengths of the two regions sum to `u`; when `u` is not 0
region 0 starts at `buf + tail`; when `u` is 0 both regions are `(NULL, 0)`;
when the stored bytes do not wrap (`u + tail ≤ len`) region 0 has the length
`u` and region 1 is `(NULL, 0)`; when they wrap region 0 has the length
`len - tail` and region 1 is `(buf, u - (len - tail))`; the bytes of region 0
followed by the bytes of region 1 are the stored bytes, and they are the `u`
bytes that a non-blocking `cbuf_read` of `u` bytes then returns. -/
theorem cbuf_peek_regions (c : cbuf_t) (dst : Mem) (hpw : c.len = 2 ^ c.len_pow2)
    (hlt : c.len < UINT_MOD) (hh : c.head < c.len) (ht : c.tail < c.len)
    (hsr : cbuf_is_sw_reader c = true) :
    (cbuf_peek c).2 = cbuf_space_used c
    ∧ (cbuf_peek c).1.1.iov_len + (cbuf_peek c).1.2.iov_len = (cbuf_peek c).2
    ∧ ((cbuf_peek c).2 ≠ 0 → (cbuf_peek c).1.1.iov_base = some c.tail)
    ∧ ((cbuf_peek c).2 = 0 → (cbuf_peek c).1.1 = ⟨none, 0⟩ ∧ (cbuf_peek c).1.2 = ⟨none, 0⟩)
    ∧ ((cbuf_peek c).2 + c.tail ≤ c.len →
        (cbuf_peek c).1.1.iov_len = (cbuf_peek c).2 ∧ (cbuf_peek c).1.2 = ⟨none, 0⟩)
    ∧ (c.len < (cbuf_peek c).2 + c.tail →
        (cbuf_peek c).1.1.iov_len = c.len - c.tail
        ∧ (cbuf_peek c).1.2 = ⟨some 0, (cbuf_peek c).2 - (c.len - c.tail)⟩)
    ∧ iovec_bytes c (cbuf_peek c).1.1 ++ iovec_bytes c (cbuf_peek c).1.2 = contents c
    ∧ ∃ r d, cbuf_read c (some dst) (cbuf_peek c).2 false = some r
        ∧ r.2.2 = (cbuf_peek c).2 ∧ r.2.1 = some d
        ∧ iovec_bytes c (cbuf_peek c).1.1 ++ iovec_bytes c (cbuf_peek c).1.2
            = bytes d 0 r.2.2 := by
  have h := wf_of_pow2 hpw hlt hh ht
  have hu := used_lt h
  have hc := cbuf_peek_contents h hpw
  have hp1 : c.len < used c + c.tail → cbuf_peek c =
      ((⟨some c.tail, c.len - c.tail⟩, ⟨some 0, used c - (c.len - c.tail)⟩), used c) := by
    intro hw
    rw [cbuf_peek_eq h hpw, if_pos hw]
  have hp2 : ¬ c.len < used c + c.tail → cbuf_peek c =
      ((⟨if used c ≠ 0 then some c.tail else none, used c⟩, ⟨none, 0⟩), used c) := by
    intro hw
    rw [cbuf_peek_eq h hpw, if_neg hw]
  have e2 : (cbuf_peek c).2 = used c := by
    by_cases hw : c.len < used c + c.tail
    · rw [hp1 hw]
    · rw [hp2 hw]
  refine ⟨by rw [e2, cbuf_space_used_eq h (Or.inr hpw)], ?_, ?_, ?_, ?_, ?_, hc, ?_⟩
  · by_cases hw : c.len < used c + c.tail
    · rw [hp1 hw]
      show c.len - c.tail + (used c - (c.len - c.tail)) = used c
      omega
    · rw [hp2 hw]
      show used c + 0 = used c
      rfl
  · intro hne
    rw [e2] at hne
    by_cases hw : c.len < used c + c.tail
    · rw [hp1 hw]
    · rw [hp2 hw]
      show (if used c ≠ 0 then some c.tail else none) = some c.tail
      rw [if_pos hne]
  · intro hz
    rw [e2] at hz
    rw [hp2 (by omega)]
    show (iovec_t.mk (if used c ≠ 0 then some c.tail else none) (used c)) = ⟨none, 0⟩ ∧ _
    rw [if_neg (by omega), hz]
    exact ⟨rfl, rfl⟩
  · intro hle
    rw [e2] at hle
    rw [hp2 (by omega)]
    exact ⟨rfl, rfl⟩
  · intro hw
    rw [e2] at hw
    rw [hp1 hw]
    exact ⟨rfl, rfl⟩
  · obtain ⟨d, hd1, hd2⟩ := cbuf_read_attempt_out h hsr dst (cbuf_peek c).2 false
    have hex := cbuf_read_attempt_exact h (some dst) (n := (cbuf_peek c).2)
      (Or.inl (by rw [e2]; omega)) false
    obtain ⟨ha, _⟩ := cbuf_read_attempt_consumed h (some dst) (cbuf_peek c).2 false
    have hex1 : (cbuf_read_attempt c (some dst) (cbuf_peek c).2 false).2.2 = (cbuf_peek c).2 := by
      rw [hex]
      omega
    refine ⟨_, d, cbuf_read_nonblock _ _ _, hex1, hd1, ?_⟩
    have hue := ha.used_eq
    have hz : used (cbuf_read_attempt c (some dst) (cbuf_peek c).2 false).1 = 0 := by
      rw [hex1] at hue
      omega
    rw [hc, hd2, contents_empty ((used_eq_zero_iff ha.wf_out).mp hz), List.append_nil]

/-- C17, witness: `cbuf_peek` on `wrapped_ring`, whose four stored bytes wrap:
region 0 has the length `len - tail` and region 1 is `(buf, u - (len - tail))`. -/
theorem cbuf_peek_regions_witness :
    wrapped_ring.len = 2 ^ wrapped_ring.len_pow2 ∧ wrapped_ring.len < UINT_MOD
    ∧ wrapped_ring.head < wrapped_ring.len ∧ wrapped_ring.tail < wrapped_ring.len
    ∧ cbuf_is_sw_reader wrapped_ring = true
    ∧ wrapped_ring.len < (cbuf_peek wrapped_ring).2 + wrapped_ring.tail
    ∧ (cbuf_peek wrapped_ring).1.1.iov_len = wrapped_ring.len - wrapped_ring.tail
    ∧ (cbuf_peek wrapped_ring).1.2
        = ⟨some 0, (cbuf_peek wrapped_ring).2 - (wrapped_ring.len - wrapped_ring.tail)⟩ :=
  ⟨by decide, by decide, by decide, by decide, by decide, by decide,
    (cbuf_peek_regions wrapped_ring demo_dst (by decide) (by decide) (by decide) (by decide)
      (by decide)).2.2.2.2.2.1 (by decide)⟩

/-- C17, as stated, fails: a ring of length 8 whose reader is hardware holds
`ABCDE`.  The two regions of `cbuf_peek` cover the bytes `ABCDE`; the
non-blocking `cbuf_read` of 5 bytes that follows returns 5 and leaves the
caller's buffer of zeros as it was. -/
theorem cbuf_peek_hardware_reader :
    hw_reader_ring.len = 2 ^ hw_reader_ring.len_pow2
    ∧ hw_reader_ring.head < hw_reader_ring.len ∧ hw_reader_ring.tail < hw_reader_ring.len
    ∧ cbuf_is_sw_reader hw_reader_ring = false
    ∧ (cbuf_peek hw_reader_ring).2 = 5
    ∧ iovec_bytes hw_reader_ring (cbuf_peek hw_reader_ring).1.1
        ++ iovec_bytes hw_reader_ring (cbuf_peek hw_reader_ring).1.2 = [65, 66, 67, 68, 69]
    ∧ (cbuf_read hw_reader_ring (some demo_dst) 5 false).map
        (fun r => (r.2.2, bytes (r.2.1.getD demo_dst) 0 r.2.2)) = some (5, [0, 0, 0, 0, 0]) := by
  decide

/-! ## Blocking reads -/

/-- C18: a blocking `cbuf_read` or `cbuf_read_char` that returns has a count of
at least 1, and `cbuf_read` of at most `n`, whether the caller runs alone
(`cbuf_read`, `cbuf_read_char`) or among other threads (`cbuf_read_blocking`,
`cbuf_read_char_blocking`, over the rings `c :: cs` found at the passes).  A
pass that finds the ring empty does not return: it goes on to the next pass,
and alone it never returns.  A pass that finds bytes in the ring returns, for
`cbuf_read` with `n` at least 1. -/
theorem blocking_read_returns_data (c : cbuf_t) (cs : List cbuf_t) (buf : Option Mem)
    (n ch : Nat) (hc : wf c) (hcs : ∀ x ∈ cs, wf x) :
    (∀ r, cbuf_read c buf n true = some r → 1 ≤ r.2.2 ∧ r.2.2 ≤ n)
    ∧ (∀ r, cbuf_read_char c ch true = some r → r.2.2 = 1)
    ∧ (∀ r, cbuf_read_blocking buf n (c :: cs) = some r → 1 ≤ r.2.2 ∧ r.2.2 ≤ n)
    ∧ (∀ r, cbuf_read_char_blocking ch (c :: cs) = some r → r.2.2 = 1)
    ∧ (c.head = c.tail →
        cbuf_read_blocking buf n (c :: cs) = cbuf_read_blocking buf n cs
        ∧ cbuf_read_char_blocking ch (c :: cs) = cbuf_read_char_blocking ch cs
        ∧ cbuf_read c buf n true = none ∧ cbuf_read_char c ch true = none)
    ∧ (c.head ≠ c.tail → 1 ≤ n →
        (n < UINT_MOD ∨ cbuf_reader_use_max_chunk c = false ∨ buf = none) →
        cbuf_read_blocking buf n (c :: cs) = some (cbuf_read_attempt c buf n true)
        ∧ (c.no_event = true ∨ c.event = true →
            cbuf_read c buf n true = some (cbuf_read_attempt c buf n true)))
    ∧ (c.head ≠ c.tail →
        cbuf_read_char_blocking ch (c :: cs) = some (cbuf_read_char_attempt c ch)
        ∧ (c.no_event = true ∨ c.event = true →
            cbuf_read_char c ch true = some (cbuf_read_char_attempt c ch))) := by
  have hall : ∀ x ∈ c :: cs, wf x := by
    intro x hx
    rcases List.mem_cons.mp hx with rfl | hx
    · exact hc
    · exact hcs x hx
  have hb : ∀ (l : List cbuf_t), (∀ x ∈ l, wf x) →
      ∀ r, cbuf_read_blocking buf n l = some r → 1 ≤ r.2.2 ∧ r.2.2 ≤ n := by
    intro l
    induction l with
    | nil =>
      intro _ r hr
      simp [cbuf_read_blocking] at hr
    | cons x xs ih =>
      intro hx r hr
      simp only [cbuf_read_blocking] at hr
      split_ifs at hr with hz
      · exact ih (fun y hy => hx y (List.mem_cons_of_mem _ hy)) r hr
      · have e := (Option.some.inj hr).symm
        rw [e]
        exact ⟨Nat.one_le_iff_ne_zero.mpr hz,
          (cbuf_read_attempt_consumed (hx x (List.mem_cons_self _ _)) buf n true).2⟩
  have hce : ∀ x : cbuf_t, x.head = x.tail → (cbuf_read_char_attempt x ch).2.2 = 0 := by
    intro x he
    simp [cbuf_read_char_attempt, he]
  have hcn : ∀ x : cbuf_t, x.head ≠ x.tail → (cbuf_read_char_attempt x ch).2.2 = 1 := by
    intro x hne
    simp only [cbuf_read_char_attempt]
    rw [if_pos (Ne.symm hne)]
  have hbc : ∀ (l : List cbuf_t) r, cbuf_read_char_blocking ch l = some r → r.2.2 = 1 := by
    intro l
    induction l with
    | nil =>
      intro r hr
      simp [cbuf_read_char_blocking] at hr
    | cons x xs ih =>
      intro r hr
      simp only [cbuf_read_char_blocking] at hr
      split_ifs at hr with hz
      · exact ih r hr
      · have e := (Option.some.inj hr).symm
        rw [e]
        by_cases he : x.head = x.tail
        · exact absurd (hce x he) hz
        · exact hcn x he
  refine ⟨?_, ?_, hb _ hall, hbc _, ?_, ?_, ?_⟩
  · intro r hr
    have e := cbuf_read_some hr
    simp only [cbuf_read] at hr
    split_ifs at hr with h1 h2
    rw [e]
    refine ⟨?_, (cbuf_read_attempt_consumed hc buf n true).2⟩
    have : (cbuf_read_attempt c buf n true).2.2 ≠ 0 := fun hz => h2 (by simp [hz])
    omega
  · intro r hr
    have e := cbuf_read_char_some hr
    simp only [cbuf_read_char] at hr
    split_ifs at hr with h1 h2
    rw [e]
    by_cases he : c.head = c.tail
    · exact absurd (by simp [hce c he]) h2
    · exact hcn c he
  · intro he
    have hz := (cbuf_read_attempt_empty he buf n true).1
    refine ⟨?_, ?_, ?_, ?_⟩
    · simp only [cbuf_read_blocking]
      rw [if_pos hz]
    · simp only [cbuf_read_char_blocking]
      rw [if_pos (hce c he)]
    · simp only [cbuf_read]
      split_ifs with h1 h2
      · rfl
      · rfl
      · exact absurd (by simp [hz]) h2
    · simp only [cbuf_read_char]
      split_ifs with h1 h2
      · rfl
      · rfl
      · exact absurd (by simp [hce c he]) h2
  · intro hne h1 hn
    have hex := cbuf_read_attempt_exact hc buf hn true
    have hu : used c ≠ 0 := fun hz => hne ((used_eq_zero_iff hc).mp hz)
    have hnz : (cbuf_read_attempt c buf n true).2.2 ≠ 0 := by
      rw [hex]
      omega
    refine ⟨?_, ?_⟩
    · simp only [cbuf_read_blocking]
      rw [if_neg hnz]
    · intro hev
      simp only [cbuf_read]
      rw [if_neg, if_neg]
      · exact fun hh => hnz hh.2
      · intro hh
        rcases hev with hev | hev
        · rw [hev] at hh
          exact absurd hh.1 (by decide)
        · rw [hev] at hh
          exact absurd hh.2.2 (by decide)
  · intro hne
    have hnz : (cbuf_read_char_attempt c ch).2.2 ≠ 0 := by
      rw [hcn c hne]
      decide
    refine ⟨?_, ?_⟩
    · simp only [cbuf_read_char_blocking]
      rw [if_neg hnz]
    · intro hev
      simp only [cbuf_read_char]
      rw [if_neg, if_neg]
      · exact fun hh => hnz hh.2
      · intro hh
        rcases hev with hev | hev
        · rw [hev] at hh
          exact absurd hh.1 (by decide)
        · rw [hev] at hh
          exact absurd hh.2.2 (by decide)

/-- C18, witness: a blocking read of 4 bytes whose first pass finds a fresh,
empty ring of length 8 and whose second pass finds `demo_ring`, which holds 2
bytes: the call returns from the second pass, with the count 2. -/
theorem blocking_read_returns_data_witness :
    cbuf_read_blocking (some demo_dst) 4 [cbuf_initialize_etc 8 demo_dst, demo_ring]
      = cbuf_read_blocking (some demo_dst) 4 [demo_ring]
    ∧ (cbuf_read_blocking (some demo_dst) 4 [demo_ring]).map (fun r => r.2.2) = some 2 :=
  ⟨((blocking_read_returns_data (cbuf_initialize_etc 8 demo_dst) [demo_ring] (some demo_dst) 4 0
      ⟨by decide, by decide, by decide, by decide, by decide⟩
      (fun x hx => by
        rw [List.mem_singleton.mp hx]
        exact ⟨by decide, by decide, by decide, by decide, by decide⟩)).2.2.2.2.1
      (by decide)).1,
    by decide⟩

/-! ## Chunked transfers -/

/-- With a software writer the chunk loop of `cbuf_write` appends to the stored
bytes the bytes it accepted, for every ring length. -/
theorem write_chunks_contents (cr : Bool) :
    ∀ (loop : Nat) (c : cbuf_t) (buf : Mem) (rem pos : Nat), wf c →
      cbuf_is_sw_writer c = true →
      contents (write_chunks cr loop c buf rem pos).1
        = contents c ++ bytes buf 0 ((write_chunks cr loop c buf rem pos).2 - pos) := by
  intro loop
  induction loop with
  | zero =>
    intro c buf rem pos _ _
    simp [write_chunks, bytes_zero]
  | succ k ih =>
    intro c buf rem pos h hsw
    simp only [write_chunks]
    have ha := cbuf_write_wo_lock_advanced h (some buf)
      (if rem > CBUF_WRITE_MAX_CHUNK then CBUF_WRITE_MAX_CHUNK else rem) cr
    have hc := cbuf_write_wo_lock_contents h hsw buf
      (if rem > CBUF_WRITE_MAX_CHUNK then CBUF_WRITE_MAX_CHUNK else rem) cr
    generalize cbuf_write_wo_lock c (some buf)
      (if rem > CBUF_WRITE_MAX_CHUNK then CBUF_WRITE_MAX_CHUNK else rem) cr = r at ha hc ⊢
    have hsw1 : cbuf_is_sw_writer r.1 = true := by
      simp only [cbuf_is_sw_writer, ha.conf.flags_eq] at hsw ⊢
      exact hsw
    by_cases hz : r.2 = 0
    · rw [if_pos hz]
      show contents r.1 = contents c ++ bytes buf 0 (pos - pos)
      rw [hc, hz, Nat.sub_self]
    · rw [if_neg hz]
      have h1 := ih r.1 (shift buf r.2) (rem - r.2) (pos + r.2) ha.wf_out hsw1
      obtain ⟨_, h3, _⟩ := write_chunks_spec cr k r.1 (shift buf r.2) (rem - r.2) (pos + r.2)
        ha.wf_out
      generalize write_chunks cr k r.1 (shift buf r.2) (rem - r.2) (pos + r.2) = q at h1 h3 ⊢
      have e : q.2 - pos = r.2 + (q.2 - (pos + r.2)) := by omega
      rw [h1, hc, e, bytes_append, List.append_assoc, bytes_shift, Nat.zero_add, Nat.add_zero]

/-- With a software writer `cbuf_write` from a buffer appends to the stored
bytes the bytes it accepted, chunked or not, for every ring length. -/
theorem cbuf_write_contents {c : cbuf_t} (h : wf c) (hsw : cbuf_is_sw_writer c = true)
    (src : Mem) (n : Nat) (cr : Bool) :
    contents (cbuf_write c (some src) n cr).1
      = contents c ++ bytes src 0 (cbuf_write c (some src) n cr).2 := by
  simp only [cbuf_write]
  split_ifs
  · exact cbuf_write_wo_lock_contents h hsw src n cr
  · exact write_chunks_contents cr _ c src n 0 h hsw

/-- On rings whose length is a power of two the chunk flag plays no part in
what `cbuf_write` does: two rings with the same indices, length and stored
bytes, both written by software, whatever their flags, give the same count, the
same `head` and `tail` and the same stored bytes. -/
theorem cbuf_write_chunk_free {c c' : cbuf_t} (h : wf c) (hpw : c.len = 2 ^ c.len_pow2)
    (hh : c'.head = c.head) (ht : c'.tail = c.tail) (hl : c'.len = c.len)
    (hp : c'.len_pow2 = c.len_pow2) (hb : c'.buf = c.buf)
    (hsw : cbuf_is_sw_writer c = true) (hsw1 : cbuf_is_sw_writer c' = true)
    (src : Mem) {n : Nat} (hn : n < UINT_MOD) (cr : Bool) :
    (cbuf_write c' (some src) n cr).2 = (cbuf_write c (some src) n cr).2
    ∧ (cbuf_write c' (some src) n cr).1.head = (cbuf_write c (some src) n cr).1.head
    ∧ (cbuf_write c' (some src) n cr).1.tail = (cbuf_write c (some src) n cr).1.tail
    ∧ contents (cbuf_write c' (some src) n cr).1 = contents (cbuf_write c (some src) n cr).1 := by
  have h1 : wf c' := wf_of_fields h hl hp (hh ▸ h.head_lt) (ht ▸ h.tail_lt)
  have hpw1 : c'.len = 2 ^ c'.len_pow2 := by rw [hl, hp]; exact hpw
  have hu : used c' = used c := by
    unfold used
    rw [hh, ht, hl]
  have e : (cbuf_write c' (some src) n cr).2 = (cbuf_write c (some src) n cr).2 := by
    rw [cbuf_write_exact h hpw (some src) hn cr, cbuf_write_exact h1 hpw1 (some src) hn cr, hu, hl]
  obtain ⟨ha, _⟩ := cbuf_write_advanced h (some src) n cr
  obtain ⟨ha1, _⟩ := cbuf_write_advanced h1 (some src) n cr
  refine ⟨e, ?_, ?_, ?_⟩
  · rw [ha1.head_eq, ha.head_eq, e, hh, hl]
  · rw [ha1.tail_eq, ha.tail_eq, ht]
  · rw [cbuf_write_contents h1 hsw1, cbuf_write_contents h hsw, e,
      contents_congr hh ht hl hb]

/-- The chunk flag plays no part in what a pass of `cbuf_read` does, for every
ring length: two rings with the same indices, length and stored bytes, both
read by software, whatever their flags, give the same count, the same `tail`
and `head` and the same bytes to the caller. -/
theorem cbuf_read_chunk_free {c c' : cbuf_t} (h : wf c)
    (hh : c'.head = c.head) (ht : c'.tail = c.tail) (hl : c'.len = c.len)
    (hp : c'.len_pow2 = c.len_pow2) (hb : c'.buf = c.buf)
    (hsw : cbuf_is_sw_reader c = true) (hsw1 : cbuf_is_sw_reader c' = true)
    (dst : Mem) {n : Nat} (hn : n < UINT_MOD) (block : Bool) :
    (cbuf_read_attempt c' (some dst) n block).2.2 = (cbuf_read_attempt c (some dst) n block).2.2
    ∧ (cbuf_read_attempt c' (some dst) n block).1.tail
        = (cbuf_read_attempt c (some dst) n block).1.tail
    ∧ (cbuf_read_attempt c' (some dst) n block).1.head
        = (cbuf_read_attempt c (some dst) n block).1.head
    ∧ ∃ d d', (cbuf_read_attempt c (some dst) n block).2.1 = some d
        ∧ (cbuf_read_attempt c' (some dst) n block).2.1 = some d'
        ∧ bytes d' 0 (cbuf_read_attempt c' (some dst) n block).2.2
            = bytes d 0 (cbuf_read_attempt c (some dst) n block).2.2 := by
  have h1 : wf c' := wf_of_fields h hl hp (hh ▸ h.head_lt) (ht ▸ h.tail_lt)
  have hu : used c' = used c := by
    unfold used
    rw [hh, ht, hl]
  have e : (cbuf_read_attempt c' (some dst) n block).2.2
      = (cbuf_read_attempt c (some dst) n block).2.2 := by
    rw [cbuf_read_attempt_exact h (some dst) (Or.inl hn) block,
      cbuf_read_attempt_exact h1 (some dst) (Or.inl hn) block, hu]
  obtain ⟨ha, _⟩ := cbuf_read_attempt_consumed h (some dst) n block
  obtain ⟨ha1, _⟩ := cbuf_read_attempt_consumed h1 (some dst) n block
  obtain ⟨d, hd1, hd2⟩ := cbuf_read_attempt_out h hsw dst n block
  obtain ⟨d', hd3, hd4⟩ := cbuf_read_attempt_out h1 hsw1 dst n block
  refine ⟨e, ?_, ?_, d, d', hd1, hd3, ?_⟩
  · rw [ha1.tail_eq, ha.tail_eq, e, ht, hl]
  · rw [ha1.head_eq, ha.head_eq, hh]
  · have t1 := congrArg (List.take (cbuf_read_attempt c (some dst) n block).2.2) hd2
    have t2 := congrArg (List.take (cbuf_read_attempt c' (some dst) n block).2.2) hd4
    rw [List.take_left' (bytes_length _ _ _)] at t1 t2
    rw [← t1, ← t2, e, contents_congr hh ht hl hb]

/-- C11 at a failing input: a ring of length 23259, emptied at offset 10000 by a
write and a read of 10000 bytes, is asked to take 20000 bytes, less than its
length.  With `USE_MAX_CHUNK_W` clear `cbuf_write` returns 20000 and leaves
`head` at 6741; with the flag set it returns 16384 and leaves `head` at
3125. -/
theorem chunked_write_short :
    run (cbuf_initialize_etc 23259 demo_dst)
      [Op.write (some demo_src) 10000 false, Op.read none 10000 false] = some chunk_ring
    ∧ chunk_ring.head = 10000 ∧ chunk_ring.tail = 10000 ∧ chunk_ring.len = 23259
    ∧ cbuf_writer_use_max_chunk chunk_ring = false
    ∧ cbuf_writer_use_max_chunk (cbuf_set_flag chunk_ring CBUF_FLAG_USE_MAX_CHUNK_W) = true
    ∧ (cbuf_write chunk_ring (some demo_src) 20000 false).2 = 20000
    ∧ (cbuf_write chunk_ring (some demo_src) 20000 false).1.head = 6741
    ∧ (cbuf_write (cbuf_set_flag chunk_ring CBUF_FLAG_USE_MAX_CHUNK_W)
        (some demo_src) 20000 false).2 = 16384
    ∧ (cbuf_write (cbuf_set_flag chunk_ring CBUF_FLAG_USE_MAX_CHUNK_W)
        (some demo_src) 20000 false).1.head = 3125 :=
  ⟨rfl, by decide, by decide, by decide, by decide, by decide, by decide, by decide, by decide,
    by decide⟩

/-! ## The sum of used and free space -/

/-- C22: in every ring state with a length `len ≥ 1` (a `uint`), power of two
or not, `len_pow2` being 0 or the logarithm of the length, the values of
`cbuf_space_used` and `cbuf_space_avail` add up to `len - 1`, wherever `head`
and `tail` stand. -/
theorem space_used_plus_avail (c : cbuf_t) (hlen : 1 ≤ c.len) (hlt : c.len < UINT_MOD)
    (hp : c.len_pow2 ≠ 0 → c.len = 2 ^ c.len_pow2) :
    cbuf_space_used c + cbuf_space_avail c = c.len - 1 := by
  unfold cbuf_space_used cbuf_space_avail
  by_cases hz : c.len_pow2 ≠ 0
  · have hpw := hp hz
    rw [if_pos hz, if_pos hz]
    simp only [valpow2, modpow2_eq, ← hpw]
    have hm : usub c.head c.tail % c.len < c.len := Nat.mod_lt _ (by omega)
    generalize usub c.head c.tail % c.len = m at hm
    rw [usub_of_le (le_of_lt hm) hlt, usub_of_le (show 1 ≤ c.len - m by omega) (by omega)]
    omega
  · rw [if_neg hz, if_neg hz]
    simp only []
    have hm : usub c.head c.tail % c.len < c.len := Nat.mod_lt _ (by omega)
    generalize usub c.head c.tail % c.len = m at hm
    rw [usub_of_le (le_of_lt hm) hlt, usub_of_le (show 1 ≤ c.len - m by omega) (by omega)]
    omega

/-- C22, witness: the full ring of length 3 with `head` below `tail`, where
`cbuf_space_used` returns 0 and `cbuf_space_avail` returns 2. -/
theorem space_used_plus_avail_witness :
    1 ≤ full3_ring.len ∧ full3_ring.len < UINT_MOD ∧ full3_ring.len = 3
    ∧ full3_ring.head = 0 ∧ full3_ring.tail = 1
    ∧ cbuf_space_used full3_ring + cbuf_space_avail full3_ring = full3_ring.len - 1 :=
  ⟨by decide, by decide, by decide, by decide, by decide,
    space_used_plus_avail full3_ring (by decide) (by decide) (by decide)⟩

/-! ## The claims of the last group at concrete rings -/

/-- C21 at a failing input: on a fresh ring of length 8 `cbuf_set_flag` sets
`CBUF_FLAG_NO_EVENT`, so that `cbuf_is_no_event` is true; the field `no_event`
stays false and the event is unsignaled.  A `cbuf_write` of one byte and a
`cbuf_write_char` each leave the event signaled; the `cbuf_read` and the
`cbuf_read_char` that empty the ring again leave it unsignaled; and with one
byte in the ring and the event unsignaled (after a `cbuf_skip` of `head`) a
blocking `cbuf_read` and a blocking `cbuf_read_char` wait on the event and do
not return. -/
theorem no_event_flag_ignored :
    cbuf_is_no_event no_event_flag_ring = true
    ∧ no_event_flag_ring.no_event = false ∧ no_event_flag_ring.event = false
    ∧ (cbuf_write no_event_flag_ring (some demo_src) 1 false).1.event = true
    ∧ (cbuf_write_char no_event_flag_ring 65 false).1.event = true
    ∧ (cbuf_read (cbuf_write no_event_flag_ring (some demo_src) 1 false).1 (some demo_dst) 1
        false).map (fun r => (r.2.2, r.1.event)) = some (1, false)
    ∧ (cbuf_read_char (cbuf_write no_event_flag_ring (some demo_src) 1 false).1 0 false).map
        (fun r => (r.2.2, r.1.event)) = some (1, false)
    ∧ cbuf_space_used (cbuf_skip no_event_flag_ring true 1) = 1
    ∧ (cbuf_read (cbuf_skip no_event_flag_ring true 1) (some demo_dst) 1 true).map
        (fun r => r.2.2) = none
    ∧ (cbuf_read_char (cbuf_skip no_event_flag_ring true 1) 0 true).map
        (fun r => r.2.2) = none := by
  decide

/-- C23 at a failing input: the ring of length 3 after `full3_ops` has the
default flags and is full, with `head` 0 and `tail` 1.  `cbuf_write` of the
one-byte buffer `Z` returns 0 and leaves `head` and the buffer as they were;
`cbuf_write_char` of `Z` returns 1, stores `Z` in the free slot and moves `head`
onto `tail`, so that the ring counts as empty.  And on a ring of length 8 that
a `cbuf_skip` of `head` by 7 made full, with the event unsignaled, both return
0; `cbuf_write` leaves the event signaled and `cbuf_write_char` unsignaled. -/
theorem write_char_differs_from_write :
    run (cbuf_initialize_etc 3 demo_dst) full3_ops = some full3_ring
    ∧ full3_ring.flags = CBUF_FLAG_DEFAULT ∧ full3_ring.len = 3
    ∧ full3_ring.head = 0 ∧ full3_ring.tail = 1 ∧ used full3_ring = 2
    ∧ bytes full3_ring.buf 0 3 = [65, 66, 65]
    ∧ (cbuf_write full3_ring (some (fun _ => 90)) 1 false).2 = 0
    ∧ (cbuf_write full3_ring (some (fun _ => 90)) 1 false).1.head = 0
    ∧ bytes (cbuf_write full3_ring (some (fun _ => 90)) 1 false).1.buf 0 3 = [65, 66, 65]
    ∧ (cbuf_write_char full3_ring 90 false).2 = 1
    ∧ (cbuf_write_char full3_ring 90 false).1.head = 1
    ∧ (cbuf_write_char full3_ring 90 false).1.tail = 1
    ∧ bytes (cbuf_write_char full3_ring 90 false).1.buf 0 3 = [90, 66, 65]
    ∧ used (cbuf_skip (cbuf_initialize_etc 8 demo_dst) true 7) = 7
    ∧ (cbuf_skip (cbuf_initialize_etc 8 demo_dst) true 7).event = false
    ∧ (cbuf_write (cbuf_skip (cbuf_initialize_etc 8 demo_dst) true 7)
        (some (fun _ => 90)) 1 false).2 = 0
    ∧ (cbuf_write (cbuf_skip (cbuf_initialize_etc 8 demo_dst) true 7)
        (some (fun _ => 90)) 1 false).1.event = true
    ∧ (cbuf_write_char (cbuf_skip (cbuf_initialize_etc 8 demo_dst) true 7) 90 false).2 = 0
    ∧ (cbuf_write_char (cbuf_skip (cbuf_initialize_etc 8 demo_dst) true 7) 90 false).1.event
        = false :=
  ⟨rfl, by decide⟩

/-- C25 at a failing input: on a ring of length 2 with software peers, after
`cbuf_reset_with_zero` and a `cbuf_write_char` of `A` that enqueues its byte,
`is_reset` is still true and the buffer holds `A`; after the calls of
`stale_ops` `is_reset` is true all along, and the byte of the last `NULL`
write reads back as `A`, not as 0.  And on a ring of capacity 4 lowered to
length 2, after `cbuf_reset_with_zero` and `cbuf_adjust_size` back to 4,
`is_reset` is true over the buffer `0, 0, 7, 7`. -/
theorem write_char_keeps_is_reset :
    (run (cbuf_initialize_etc 2 (fun _ => 7)) [Op.reset_with_zero]).map
        (fun c => (c.is_reset, cbuf_is_sw_writer c, cbuf_is_sw_reader c, bytes c.buf 0 c.len))
      = some (true, true, true, [0, 0])
    ∧ (run (cbuf_initialize_etc 2 (fun _ => 7)) [Op.reset_with_zero]).map
        (fun c => ((cbuf_write_char c 65 false).2, (cbuf_write_char c 65 false).1.is_reset,
          bytes (cbuf_write_char c 65 false).1.buf 0 c.len)) = some (1, true, [65, 0])
    ∧ (run (cbuf_initialize_etc 2 (fun _ => 7)) stale_ops).map
        (fun c => (c.is_reset, c.head, c.tail)) = some (true, 1, 0)
    ∧ ((run (cbuf_initialize_etc 2 (fun _ => 7)) stale_ops).bind
        (fun c => cbuf_read c (some demo_dst) 1 false)).map
        (fun r => (r.2.2, bytes (r.2.1.getD demo_dst) 0 1)) = some (1, [65])
    ∧ (run (cbuf_initialize_etc 4 (fun _ => 7))
        [Op.adjust_size 2, Op.reset_with_zero, Op.adjust_size 4]).map
        (fun c => (c.is_reset, c.len, bytes c.buf 0 c.len)) = some (true, 4, [0, 0, 7, 7]) := by
  decide

/-- C26 at a failing input: on a ring of length 3, `DEC_POINTER` of the index
0 by 1 is 0, and of the index 1 by 3 is 2, where `(0 - 1) mod 3` is 2 and
`(1 - 3) mod 3` is 1.  In `cbuf_rewind_len`, its only use: the ring of length 3
with `head` 0 and `tail` 2 holds one byte; `cbuf_rewind_len` of 1 returns 1 and
leaves `head` at 0. -/
theorem dec_pointer_not_residue :
    (cbuf_initialize_etc 3 demo_dst).len = 3
    ∧ DEC_POINTER (cbuf_initialize_etc 3 demo_dst) 0 1 = 0
    ∧ ((0 : Int) - 1) % 3 = 2
    ∧ DEC_POINTER (cbuf_initialize_etc 3 demo_dst) 1 3 = 2
    ∧ ((1 : Int) - 3) % 3 = 1
    ∧ (run (cbuf_initialize_etc 3 demo_dst) (wrap3_ops ++ [Op.write (some demo_src) 1 false])).map
        (fun c => (c.head, c.tail, c.len, used c, (cbuf_rewind_len c 1).2,
          (cbuf_rewind_len c 1).1.head)) = some (0, 2, 3, 1, 1, 0) := by
  decide

/-- C27 at a failing input: the ring of length 5 after a write of 4 bytes and a
read of 3 holds one byte, with `head` 4 and `tail` 3.  A `cbuf_write` of 4
bytes enters the loop of `cbuf_write_wo_lock` three times: the first iteration
writes 1 byte up to the end of the buffer, the second writes 2 bytes and
fills the ring, and the third finds `write_len` 0 and leaves by `break`.  The
call returns 3. -/
theorem write_loop_third_iteration :
    run (cbuf_initialize_etc 5 demo_dst)
      [Op.write (some demo_src) 4 false, Op.read none 3 false] = some ring5
    ∧ ring5.head = 4 ∧ ring5.tail = 3 ∧ ring5.len = 5
    ∧ write_loop_passes (some demo_src) 4 (cbuf_is_sw_writer ring5) 4 ring5 0 = [1, 2, 0]
    ∧ (cbuf_write ring5 (some demo_src) 4 false).2 = 3
    ∧ used (cbuf_write ring5 (some demo_src) 4 false).1 = 4
    ∧ cbuf_space_avail (cbuf_write ring5 (some demo_src) 4 false).1 = 4 :=
  ⟨rfl, by decide⟩

/-- C29 at a failing input: on a ring of length 3 the calls of `full3_ops`,
two writes around a non-blocking read, leave the ring full with the event
signaled; the `cbuf_write_char` that follows returns 1 and moves `head` onto
`tail`: the ring counts as empty and the event is still signaled. -/
theorem restricted_event_invariant_fails :
    (run (cbuf_initialize_etc 3 demo_dst) full3_ops).map
        (fun c => (c.no_event, c.head, c.tail, c.event, (cbuf_write_char c 90 false).2))
      = some (false, 0, 1, true, 1)
    ∧ (run (cbuf_initialize_etc 3 demo_dst) (full3_ops ++ [Op.write_char 90 false])).map
        (fun c => (c.no_event, c.head, c.tail, c.event)) = some (false, 1, 1, true) := by
  decide

/-! ## The one-byte read -/

/-- With the default flags `cbuf_read_wo_lock` of one byte does what one
attempt of `cbuf_read_char` does. -/
theorem cbuf_read_wo_lock_one {c : cbuf_t} (h : wf c) (hf : c.flags = CBUF_FLAG_DEFAULT)
    (dst : Mem) (ch : Nat) (block : Bool) (hne : c.tail ≠ c.head) :
    cbuf_read_wo_lock c (some dst) 1 block
      = ((cbuf_read_char_attempt c ch).1, some (memcpy dst 0 c.buf c.tail 1), 1)
    ∧ cbuf_read_char_attempt c ch = ((cbuf_read_char_attempt c ch).1, c.buf c.tail, 1) := by
  have h3 := h.len_lt
  have ht := h.tail_lt
  obtain ⟨hsw, hsr, _, _⟩ := default_flags_sw hf
  have hrl : cbuf_get_contiguous_used c 1 0 = 1 := by
    rw [cbuf_get_contiguous_used_eq h]
    have := run_used_pos h
    omega
  have e1 : INC_POINTER c SIZE_MOD c.tail 1 = (c.tail + 1) % c.len :=
    INC_POINTER_eq h (by simp only [SIZE_MOD, UINT_MOD] at h3 ⊢; omega)
  have e2 : INC_POINTER c UINT_MOD c.tail 1 = (c.tail + 1) % c.len :=
    INC_POINTER_eq h (by omega)
  have hhw : ¬ (cbuf_is_cacheable c = true ∧ cbuf_is_hw_writer c = true) := by
    simp [cbuf_is_hw_writer, hsw]
  have hp : read_pass c (some dst) true 0 1
      = ({ c with tail := (c.tail + 1) % c.len }, some (memcpy dst 0 c.buf c.tail 1)) := by
    simp only [read_pass, if_neg hhw, e1]
    rfl
  have hl : read_loop 1 true 1 c (some dst) 0
      = ({ c with tail := (c.tail + 1) % c.len }, some (memcpy dst 0 c.buf c.tail 1), 1) := by
    rw [read_loop_step 1 true 0 c (some dst) 0 ⟨by omega, hne⟩, hrl, hp]
    rfl
  constructor
  · simp only [cbuf_read_wo_lock, if_pos hne, hsr, hl, cbuf_read_char_attempt, e2]
  · simp only [cbuf_read_char_attempt, if_pos hne]

/-- C24: on a ring with the default flags, a length `len ≥ 1` (a `uint`) and
`head`, `tail` below it, a non-blocking `cbuf_read_char` and a non-blocking
`cbuf_read` of one byte both return, with the same count, 1 if the ring was
not empty and 0 if it was, and leave the same ring: the same `head`, `tail`
and event, and every other field.  When the count is 1 the byte delivered is
the same, the byte stored at `tail`.  `tail` is moved by the count, `head`
stays, and the event is unsignaled when the read empties the ring (the
`no_event` field being false) and left as it was otherwise. -/
theorem read_char_is_read_of_one (c : cbuf_t) (dst : Mem) (ch : Nat)
    (hf : c.flags = CBUF_FLAG_DEFAULT) (hlen : 1 ≤ c.len) (hlt : c.len < UINT_MOD)
    (hp : c.len_pow2 ≠ 0 → c.len = 2 ^ c.len_pow2) (hh : c.head < c.len)
    (ht : c.tail < c.len) :
    ∃ r q, cbuf_read c (some dst) 1 false = some r ∧ cbuf_read_char c ch false = some q
      ∧ r.2.2 = q.2.2
      ∧ q.2.2 = (if c.head ≠ c.tail then 1 else 0)
      ∧ r.1 = q.1
      ∧ (c.head ≠ c.tail → r.2.1.map (fun d => d 0) = some q.2.1 ∧ q.2.1 = c.buf c.tail)
      ∧ q.1.head = c.head
      ∧ q.1.tail = (c.tail + q.2.2) % c.len
      ∧ q.1.event = (if c.no_event = false ∧ c.head ≠ c.tail ∧ q.1.tail = q.1.head then false
          else c.event) := by
  have h : wf c := ⟨hlen, hlt, hh, ht, hp⟩
  obtain ⟨_, _, _, hcr⟩ := default_flags_sw hf
  have er : cbuf_read c (some dst) 1 false = some (cbuf_read_wo_lock c (some dst) 1 false) := by
    rw [cbuf_read_nonblock, cbuf_read_attempt_unchunked hcr]
  have eq : cbuf_read_char c ch false = some (cbuf_read_char_attempt c ch) := by
    simp [cbuf_read_char]
  have e2 : INC_POINTER c UINT_MOD c.tail 1 = (c.tail + 1) % c.len :=
    INC_POINTER_eq h (by omega)
  refine ⟨_, _, er, eq, ?_⟩
  by_cases hne : c.tail ≠ c.head
  · obtain ⟨e1, e3⟩ := cbuf_read_wo_lock_one h hf dst ch false hne
    have hne1 : c.head ≠ c.tail := Ne.symm hne
    rw [e1]
    refine ⟨by rw [e3], by rw [e3, if_pos hne1], rfl, fun _ => ⟨by rw [e3]; rfl, by rw [e3]⟩,
      ?_, ?_, ?_⟩
    · simp only [cbuf_read_char_attempt, if_pos hne]
      split_ifs <;> rfl
    · rw [e3]
      simp only [cbuf_read_char_attempt, if_pos hne, e2]
      split_ifs <;> rfl
    · simp only [cbuf_read_char_attempt, if_pos hne, e2]
      by_cases hn : c.no_event = false
      · by_cases he : (c.tail + 1) % c.len = c.head
        · simp [hn, he, hne1]
        · simp [hn, he, hne1]
      · simp [hn]
  · have he : c.tail = c.head := by
      by_contra hcon
      exact hne hcon
    have e1 : cbuf_read_wo_lock c (some dst) 1 false = (c, some dst, 0) := by
      simp [cbuf_read_wo_lock, he]
    have e3 : cbuf_read_char_attempt c ch = (c, ch, 0) := by
      simp [cbuf_read_char_attempt, he]
    rw [e1, e3]
    refine ⟨rfl, by rw [if_neg (by simp [he])], rfl, fun hc => absurd he.symm hc, rfl, ?_, ?_⟩
    · show c.tail = (c.tail + 0) % c.len
      rw [Nat.add_zero, Nat.mod_eq_of_lt ht]
    · simp [he]

/-- C24, witness: `demo_ring`, which holds the two bytes at the offsets 4 and
5 of a ring of length 8 with the default flags. -/
theorem read_char_is_read_of_one_witness :
    demo_ring.flags = CBUF_FLAG_DEFAULT ∧ 1 ≤ demo_ring.len ∧ demo_ring.len < UINT_MOD
    ∧ demo_ring.head < demo_ring.len ∧ demo_ring.tail < demo_ring.len
    ∧ ∃ r q, cbuf_read demo_ring (some demo_dst) 1 false = some r
      ∧ cbuf_read_char demo_ring 0 false = some q
      ∧ r.2.2 = q.2.2
      ∧ q.2.2 = (if demo_ring.head ≠ demo_ring.tail then 1 else 0)
      ∧ r.1 = q.1
      ∧ (demo_ring.head ≠ demo_ring.tail →
          r.2.1.map (fun d => d 0) = some q.2.1 ∧ q.2.1 = demo_ring.buf demo_ring.tail)
      ∧ q.1.head = demo_ring.head
      ∧ q.1.tail = (demo_ring.tail + q.2.2) % demo_ring.len
      ∧ q.1.event = (if demo_ring.no_event = false ∧ demo_ring.head ≠ demo_ring.tail
          ∧ q.1.tail = q.1.head then false else demo_ring.event) :=
  ⟨by decide, by decide, by decide, by decide, by decide,
    read_char_is_read_of_one demo_ring demo_dst 0 (by decide) (by decide) (by decide)
      (by decide) (by decide) (by decide)⟩

/-! ## Cache maintenance on the write path -/

theorem covered_append (a b : List CacheOp) : covered (a ++ b) = covered a ++ covered b := by
  induction a with
  | nil => rfl
  | cons x xs ih => simp [covered, ih, List.append_assoc]

/-- The offsets of `a + b` bytes enqueued are those of the first `a` and then
those of `b` bytes enqueued where `head` is after them. -/
theorem enqueued_add {c c' : cbuf_t} {a b : Nat} (hl : c'.len = c.len)
    (hh : c'.head = (c.head + a) % c.len) :
    enqueued c (a + b) = enqueued c a ++ enqueued c' b := by
  unfold enqueued
  rw [List.range_add, List.map_append, List.map_map, hl, hh]
  congr 1
  apply List.map_congr_left
  intro i _
  simp only [Function.comp]
  rw [Nat.mod_add_mod, Nat.add_assoc]

theorem enqueued_zero (c : cbuf_t) : enqueued c 0 = [] := rfl

/-- A run that does not wrap takes the offsets from `head` on. -/
theorem enqueued_run {c : cbuf_t} {wl : Nat} (h : c.head + wl ≤ c.len) :
    enqueued c wl = (CacheOp.clean_invalidate c.head wl).offsets := by
  unfold enqueued CacheOp.offsets
  apply List.map_congr_left
  intro i hi
  have := List.mem_range.mp hi
  exact Nat.mod_eq_of_lt (by omega)

theorem cleans_congr {c c' : cbuf_t} (h : c'.flags = c.flags) : cleans c' = cleans c := by
  simp only [cleans, cbuf_is_cacheable, cbuf_is_hw_reader, cbuf_is_sw_reader, h]

/-- The cache maintenance of one pass of the write loop: on a ring with a
cacheable buffer and a hardware reader one clean-invalidate of the run at
`head`, where `head` is before the pass moves it; on any other ring none. -/
theorem write_pass_cache (c : cbuf_t) (buf : Option Mem) (en : Bool) (pos wl : Nat) :
    (write_pass c buf en pos wl).cache
      = if cleans c = true then c.cache ++ [CacheOp.clean_invalidate c.head wl] else c.cache := by
  cases buf <;> simp only [write_pass, cleans, cbuf_is_cacheable, cbuf_is_hw_reader,
    cbuf_is_sw_reader, Bool.and_eq_true] <;> split_ifs <;> rfl

/-- The cache maintenance of the write loop on a ring with a cacheable buffer
and a hardware reader: clean-invalidates of runs that do not wrap, which taken
together cover the offsets of the bytes enqueued, in order. -/
theorem write_loop_cache (buf : Option Mem) (n : Nat) (en : Bool) :
    ∀ (fuel : Nat) (c : cbuf_t) (pos : Nat), wf c → pos ≤ n → cleans c = true →
      ∃ ops, (write_loop buf n en fuel c pos).1.cache = c.cache ++ ops
        ∧ (∀ op ∈ ops, ∃ off l, op = CacheOp.clean_invalidate off l ∧ 1 ≤ l ∧ off + l ≤ c.len)
        ∧ covered ops = enqueued c ((write_loop buf n en fuel c pos).2 - pos) := by
  intro fuel
  induction fuel with
  | zero =>
    intro c pos h hp hc
    exact ⟨[], by simp [write_loop], by simp, by simp [write_loop, covered, enqueued]⟩
  | succ k ih =>
    intro c pos h hp hcl
    by_cases hc : pos < n ∧ cbuf_space_avail c > 0
    · by_cases hw : cbuf_get_contiguous_space c n pos = 0
      · rw [write_loop_break buf n en _ c pos hw]
        exact ⟨[], by simp, by simp, by simp [covered, enqueued]⟩
      · rw [write_loop_step buf n en k c pos hc hw]
        have hwl := cbuf_get_contiguous_space_eq h n pos
        generalize cbuf_get_contiguous_space c n pos = wl at hwl hw ⊢
        have hrs : wl ≤ run_space c := by omega
        have ha := write_pass_appended h buf en pos hrs
        have hwf1 := appended_wf h ha
        have hconf := write_pass_conf c buf en pos wl
        have hb := (run_space_bound h hrs).1
        have hcl1 : cleans (write_pass c buf en pos wl) = true := by
          rw [cleans_congr hconf.flags_eq]
          exact hcl
        have hpc := write_pass_cache c buf en pos wl
        rw [if_pos hcl] at hpc
        obtain ⟨ops, h1, h2, h3⟩ := ih (write_pass c buf en pos wl) (pos + wl) hwf1 (by omega) hcl1
        have hle := (write_loop_spec buf n en k _ (pos + wl) hwf1 (by omega)).pos_le
        generalize write_loop buf n en k (write_pass c buf en pos wl) (pos + wl) = q
          at h1 h2 h3 hle ⊢
        refine ⟨CacheOp.clean_invalidate c.head wl :: ops, ?_, ?_, ?_⟩
        · rw [h1, hpc, List.append_assoc]
          rfl
        · intro op hop
          rcases List.mem_cons.mp hop with rfl | hop
          · exact ⟨c.head, wl, rfl, by omega, hb⟩
          · obtain ⟨off, l, e, hl1, hl2⟩ := h2 op hop
            exact ⟨off, l, e, hl1, by rw [← hconf.len_eq]; exact hl2⟩
        · have e : q.2 - pos = wl + (q.2 - (pos + wl)) := by omega
          rw [e, enqueued_add hconf.len_eq ha.head_eq, ← h3, enqueued_run hb]
          rfl
    · rw [write_loop_stop buf n en _ c pos hc]
      exact ⟨[], by simp, by simp, by simp [covered, enqueued]⟩

/-- On a ring whose buffer is not cacheable or whose reader is software the
write loop makes no cache maintenance call. -/
theorem write_loop_no_cache (buf : Option Mem) (n : Nat) (en : Bool) :
    ∀ (fuel : Nat) (c : cbuf_t) (pos : Nat), cleans c = false →
      (write_loop buf n en fuel c pos).1.cache = c.cache := by
  intro fuel
  induction fuel with
  | zero => intro c pos _; rfl
  | succ k ih =>
    intro c pos hcl
    by_cases hc : pos < n ∧ cbuf_space_avail c > 0
    · by_cases hw : cbuf_get_contiguous_space c n pos = 0
      · rw [write_loop_break buf n en _ c pos hw]
      · rw [write_loop_step buf n en k c pos hc hw]
        have hconf := write_pass_conf c buf en pos (cbuf_get_contiguous_space c n pos)
        rw [ih _ _ (by rw [cleans_congr hconf.flags_eq]; exact hcl), write_pass_cache,
          if_neg (by simp [hcl])]
    · rw [write_loop_stop buf n en _ c pos hc]

theorem cbuf_write_wo_lock_cache_eq (c : cbuf_t) (buf : Option Mem) (n : Nat) (cr : Bool) :
    (cbuf_write_wo_lock c buf n cr).1.cache
      = (write_loop buf n (cbuf_is_sw_writer c) n c 0).1.cache := by
  simp only [cbuf_write_wo_lock]
  split_ifs <;> rfl

/-- The cache maintenance of `cbuf_write_wo_lock`, as `write_loop_cache`. -/
theorem cbuf_write_wo_lock_cache {c : cbuf_t} (h : wf c) (hcl : cleans c = true)
    (buf : Option Mem) (n : Nat) (cr : Bool) :
    ∃ ops, (cbuf_write_wo_lock c buf n cr).1.cache = c.cache ++ ops
      ∧ (∀ op ∈ ops, ∃ off l, op = CacheOp.clean_invalidate off l ∧ 1 ≤ l ∧ off + l ≤ c.len)
      ∧ covered ops = enqueued c (cbuf_write_wo_lock c buf n cr).2 := by
  obtain ⟨ops, h1, h2, h3⟩ :=
    write_loop_cache buf n (cbuf_is_sw_writer c) n c 0 h (Nat.zero_le _) hcl
  exact ⟨ops, by rw [cbuf_write_wo_lock_cache_eq, h1], h2,
    by rw [cbuf_write_wo_lock_count, h3, Nat.sub_zero]⟩

/-- The cache maintenance of the chunk loop of `cbuf_write`. -/
theorem write_chunks_cache (cr : Bool) :
    ∀ (loop : Nat) (c : cbuf_t) (buf : Mem) (rem pos : Nat), wf c → cleans c = true →
      ∃ ops, (write_chunks cr loop c buf rem pos).1.cache = c.cache ++ ops
        ∧ (∀ op ∈ ops, ∃ off l, op = CacheOp.clean_invalidate off l ∧ 1 ≤ l ∧ off + l ≤ c.len)
        ∧ covered ops = enqueued c ((write_chunks cr loop c buf rem pos).2 - pos) := by
  intro loop
  induction loop with
  | zero =>
    intro c buf rem pos _ _
    exact ⟨[], by simp [write_chunks], by simp, by simp [write_chunks, covered, enqueued]⟩
  | succ k ih =>
    intro c buf rem pos h hcl
    simp only [write_chunks]
    have ha := cbuf_write_wo_lock_advanced h (some buf)
      (if rem > CBUF_WRITE_MAX_CHUNK then CBUF_WRITE_MAX_CHUNK else rem) cr
    obtain ⟨ops1, g1, g2, g3⟩ := cbuf_write_wo_lock_cache h hcl (some buf)
      (if rem > CBUF_WRITE_MAX_CHUNK then CBUF_WRITE_MAX_CHUNK else rem) cr
    generalize cbuf_write_wo_lock c (some buf)
      (if rem > CBUF_WRITE_MAX_CHUNK then CBUF_WRITE_MAX_CHUNK else rem) cr = r at ha g1 g3 ⊢
    have hcl1 : cleans r.1 = true := by
      rw [cleans_congr ha.conf.flags_eq]
      exact hcl
    by_cases hz : r.2 = 0
    · rw [if_pos hz]
      refine ⟨ops1, g1, g2, ?_⟩
      show covered ops1 = enqueued c (pos - pos)
      rw [g3, hz, Nat.sub_self]
    · rw [if_neg hz]
      obtain ⟨ops2, h1, h2, h3⟩ := ih r.1 (shift buf r.2) (rem - r.2) (pos + r.2) ha.wf_out hcl1
      obtain ⟨_, hle, _⟩ := write_chunks_spec cr k r.1 (shift buf r.2) (rem - r.2) (pos + r.2)
        ha.wf_out
      generalize write_chunks cr k r.1 (shift buf r.2) (rem - r.2) (pos + r.2) = q
        at h1 h3 hle ⊢
      refine ⟨ops1 ++ ops2, by rw [h1, g1, List.append_assoc], ?_, ?_⟩
      · intro op hop
        rcases List.mem_append.mp hop with hop | hop
        · exact g2 op hop
        · obtain ⟨off, l, e, hl1, hl2⟩ := h2 op hop
          exact ⟨off, l, e, hl1, by rw [← ha.conf.len_eq]; exact hl2⟩
      · have e : q.2 - pos = r.2 + (q.2 - (pos + r.2)) := by omega
        rw [e, enqueued_add ha.conf.len_eq ha.head_eq, covered_append, g3, h3]

theorem write_loop_flags (buf : Option Mem) (n : Nat) (en : Bool) :
    ∀ (fuel : Nat) (c : cbuf_t) (pos : Nat), (write_loop buf n en fuel c pos).1.flags = c.flags := by
  intro fuel
  induction fuel with
  | zero => intro c pos; rfl
  | succ k ih =>
    intro c pos
    by_cases hc : pos < n ∧ cbuf_space_avail c > 0
    · by_cases hw : cbuf_get_contiguous_space c n pos = 0
      · rw [write_loop_break buf n en _ c pos hw]
      · rw [write_loop_step buf n en k c pos hc hw, ih]
        exact (write_pass_conf c buf en pos _).flags_eq
    · rw [write_loop_stop buf n en _ c pos hc]

theorem cbuf_write_wo_lock_flags (c : cbuf_t) (buf : Option Mem) (n : Nat) (cr : Bool) :
    (cbuf_write_wo_lock c buf n cr).1.flags = c.flags := by
  have := write_loop_flags buf n (cbuf_is_sw_writer c) n c 0
  simp only [cbuf_write_wo_lock]
  split_ifs <;> exact this

theorem cbuf_write_wo_lock_no_cache {c : cbuf_t} (hcl : cleans c = false) (buf : Option Mem)
    (n : Nat) (cr : Bool) : (cbuf_write_wo_lock c buf n cr).1.cache = c.cache := by
  rw [cbuf_write_wo_lock_cache_eq, write_loop_no_cache _ _ _ _ _ _ hcl]

theorem write_chunks_no_cache (cr : Bool) :
    ∀ (loop : Nat) (c : cbuf_t) (buf : Mem) (rem pos : Nat), cleans c = false →
      (write_chunks cr loop c buf rem pos).1.cache = c.cache := by
  intro loop
  induction loop with
  | zero => intro c buf rem pos _; rfl
  | succ k ih =>
    intro c buf rem pos hcl
    simp only [write_chunks]
    have g := cbuf_write_wo_lock_no_cache hcl (some buf)
      (if rem > CBUF_WRITE_MAX_CHUNK then CBUF_WRITE_MAX_CHUNK else rem) cr
    have gf := cbuf_write_wo_lock_flags c (some buf)
      (if rem > CBUF_WRITE_MAX_CHUNK then CBUF_WRITE_MAX_CHUNK else rem) cr
    generalize cbuf_write_wo_lock c (some buf)
      (if rem > CBUF_WRITE_MAX_CHUNK then CBUF_WRITE_MAX_CHUNK else rem) cr = r at g gf ⊢
    by_cases hz : r.2 = 0
    · rw [if_pos hz]
      exact g
    · rw [if_neg hz, ih _ _ _ _ (by rw [cleans_congr gf]; exact hcl), g]

/-- C28: on a ring with a length `len ≥ 1` (a `uint`), power of two or not, and
`head`, `tail` below it.  When the buffer is cacheable and the reader is
hardware, every pass of the loop of `cbuf_write_wo_lock` makes one
clean-invalidate, of the run of `write_len` bytes that starts at `buf + head`
with `head` as it is before the pass moves it, and `cbuf_write` as a whole,
chunked or not, adds to the cache maintenance calls made so far
clean-invalidates only, each of a run of at least one byte inside the buffer,
which taken together cover the offsets of the bytes enqueued, each once and in
order.  When the buffer is not cacheable or the reader is software,
`cbuf_write` makes no cache maintenance call. -/
theorem write_cache_maintenance (c : cbuf_t) (buf : Option Mem) (n : Nat) (cr : Bool)
    (hlen : 1 ≤ c.len) (hlt : c.len < UINT_MOD)
    (hp : c.len_pow2 ≠ 0 → c.len = 2 ^ c.len_pow2) (hh : c.head < c.len)
    (ht : c.tail < c.len) :
    (cbuf_is_cacheable c = true ∧ cbuf_is_sw_reader c = false →
      (∀ (en : Bool) (pos wl : Nat),
        (write_pass c buf en pos wl).cache = c.cache ++ [CacheOp.clean_invalidate c.head wl]
        ∧ (write_pass c buf en pos wl).head = INC_POINTER c SIZE_MOD c.head wl)
      ∧ ∃ ops, (cbuf_write c buf n cr).1.cache = c.cache ++ ops
          ∧ (∀ op ∈ ops, ∃ off l, op = CacheOp.clean_invalidate off l ∧ 1 ≤ l ∧ off + l ≤ c.len)
          ∧ covered ops = enqueued c (cbuf_write c buf n cr).2)
    ∧ (cbuf_is_cacheable c = false ∨ cbuf_is_sw_reader c = true →
        (cbuf_write c buf n cr).1.cache = c.cache) := by
  have h : wf c := ⟨hlen, hlt, hh, ht, hp⟩
  constructor
  · intro hc
    have hcl : cleans c = true := by simp [cleans, cbuf_is_hw_reader, hc.1, hc.2]
    refine ⟨fun en pos wl => ⟨by rw [write_pass_cache, if_pos hcl], write_pass_head ..⟩, ?_⟩
    cases buf with
    | none => exact cbuf_write_wo_lock_cache h hcl none n cr
    | some src =>
      simp only [cbuf_write]
      split_ifs
      · exact cbuf_write_wo_lock_cache h hcl (some src) n cr
      · obtain ⟨ops, h1, h2, h3⟩ :=
          write_chunks_cache cr (chunk_count n CBUF_WRITE_MAX_CHUNK) c src n 0 h hcl
        exact ⟨ops, h1, h2, by rw [h3, Nat.sub_zero]⟩
  · intro hc
    have hcl : cleans c = false := by
      rcases hc with hc | hc <;> simp [cleans, cbuf_is_hw_reader, hc]
    cases buf with
    | none => exact cbuf_write_wo_lock_no_cache hcl none n cr
    | some src =>
      simp only [cbuf_write]
      split_ifs
      · exact cbuf_write_wo_lock_no_cache hcl (some src) n cr
      · exact write_chunks_no_cache cr _ c src n 0 hcl

/-- C28, witness: a write of 4 bytes that wraps, on `hw_wrap_ring`, whose
buffer is cacheable and whose reader is hardware: the two runs are cleaned, the
one of 2 bytes at offset 6 and the one of 2 bytes at offset 0. -/
theorem write_cache_maintenance_witness :
    1 ≤ hw_wrap_ring.len ∧ hw_wrap_ring.len < UINT_MOD
    ∧ hw_wrap_ring.head < hw_wrap_ring.len ∧ hw_wrap_ring.tail < hw_wrap_ring.len
    ∧ cbuf_is_cacheable hw_wrap_ring = true ∧ cbuf_is_sw_reader hw_wrap_ring = false
    ∧ hw_wrap_ring.cache = []
    ∧ (cbuf_write hw_wrap_ring (some demo_src) 4 false).1.cache
        = [CacheOp.clean_invalidate 6 2, CacheOp.clean_invalidate 0 2]
    ∧ enqueued hw_wrap_ring (cbuf_write hw_wrap_ring (some demo_src) 4 false).2 = [6, 7, 0, 1]
    ∧ ∃ ops, (cbuf_write hw_wrap_ring (some demo_src) 4 false).1.cache = hw_wrap_ring.cache ++ ops
        ∧ (∀ op ∈ ops, ∃ off l, op = CacheOp.clean_invalidate off l ∧ 1 ≤ l
            ∧ off + l ≤ hw_wrap_ring.len)
        ∧ covered ops = enqueued hw_wrap_ring (cbuf_write hw_wrap_ring (some demo_src) 4 false).2 :=
  ⟨by decide, by decide, by decide, by decide, by decide, by decide, by decide, by decide,
    by decide,
    ((write_cache_maintenance hw_wrap_ring (some demo_src) 4 false (by decide) (by decide)
      (by decide) (by decide) (by decide)).1 ⟨by decide, by decide⟩).2⟩

/-! ## The `no_event` field, `is_reset` and the one-byte write -/

/-- With the field `no_event` true `cbuf_write_wo_lock` leaves the event as it
is. -/
theorem cbuf_write_wo_lock_no_event {c : cbuf_t} (h : wf c) (hn : c.no_event = true)
    (buf : Option Mem) (n : Nat) (cr : Bool) :
    (cbuf_write_wo_lock c buf n cr).1.event = c.event := by
  have r := write_loop_spec buf n (cbuf_is_sw_writer c) n c 0 h (Nat.zero_le _)
  have hn1 := r.conf.no_event_eq
  rw [hn] at hn1
  simp only [cbuf_write_wo_lock]
  rw [if_neg (by simp [hn1])]
  exact r.event_eq

theorem write_chunks_no_event (cr : Bool) :
    ∀ (loop : Nat) (c : cbuf_t) (buf : Mem) (rem pos : Nat), wf c → c.no_event = true →
      (write_chunks cr loop c buf rem pos).1.event = c.event := by
  intro loop
  induction loop with
  | zero => intro c buf rem pos _ _; rfl
  | succ k ih =>
    intro c buf rem pos h hn
    simp only [write_chunks]
    have ha := cbuf_write_wo_lock_advanced h (some buf)
      (if rem > CBUF_WRITE_MAX_CHUNK then CBUF_WRITE_MAX_CHUNK else rem) cr
    have he := cbuf_write_wo_lock_no_event h hn (some buf)
      (if rem > CBUF_WRITE_MAX_CHUNK then CBUF_WRITE_MAX_CHUNK else rem) cr
    generalize cbuf_write_wo_lock c (some buf)
      (if rem > CBUF_WRITE_MAX_CHUNK then CBUF_WRITE_MAX_CHUNK else rem) cr = r at ha he ⊢
    by_cases hz : r.2 = 0
    · rw [if_pos hz]
      exact he
    · rw [if_neg hz, ih _ _ _ _ ha.wf_out (ha.conf.no_event_eq.trans hn), he]

/-- With the field `no_event` true `cbuf_read_wo_lock` leaves the event as it
is. -/
theorem cbuf_read_wo_lock_no_event {c : cbuf_t} (h : wf c) (hn : c.no_event = true)
    (buf : Option Mem) (n : Nat) (block : Bool) :
    (cbuf_read_wo_lock c buf n block).1.event = c.event := by
  obtain ⟨r1, r2, _, _⟩ := read_loop_spec n (cbuf_is_sw_reader c) n c buf 0 h (Nat.zero_le _)
  have hn1 := r1.conf.no_event_eq
  rw [hn] at hn1
  simp only [cbuf_read_wo_lock]
  split_ifs with h1 h2
  · exact absurd h2.1 (by simp [hn1])
  · exact r2
  · rfl

theorem read_chunks_no_event (block : Bool) :
    ∀ (loop : Nat) (c : cbuf_t) (buf : Mem) (rem ret : Nat), wf c → c.no_event = true →
      (read_chunks block loop c buf rem ret).1.event = c.event := by
  intro loop
  induction loop with
  | zero => intro c buf rem ret _ _; rfl
  | succ k ih =>
    intro c buf rem ret h hn
    simp only [read_chunks]
    obtain ⟨ha, _⟩ := cbuf_read_wo_lock_consumed h (some (shift buf ret))
      (if rem > CBUF_READ_MAX_CHUNK then CBUF_READ_MAX_CHUNK else rem) block
    have he := cbuf_read_wo_lock_no_event h hn (some (shift buf ret))
      (if rem > CBUF_READ_MAX_CHUNK then CBUF_READ_MAX_CHUNK else rem) block
    generalize cbuf_read_wo_lock c (some (shift buf ret))
      (if rem > CBUF_READ_MAX_CHUNK then CBUF_READ_MAX_CHUNK else rem) block = r at ha he ⊢
    by_cases hz : r.2.2 = 0
    · rw [if_pos hz]
      exact he
    · rw [if_neg hz, ih _ _ _ _ ha.wf_out (ha.conf.no_event_eq.trans hn), he]

/-- What the field `no_event` does when it is true: `cbuf_write`,
`cbuf_write_char`, `cbuf_read` and `cbuf_read_char` leave the event as it is, and
the blocking reads do not wait on it: they return as soon as a pass read
something, whatever the event. -/
theorem no_event_field_suppresses {c : cbuf_t} (h : wf c) (hn : c.no_event = true)
    (buf : Option Mem) (n ch : Nat) (cr block : Bool) :
    (cbuf_write c buf n cr).1.event = c.event
    ∧ (cbuf_write_char c ch cr).1.event = c.event
    ∧ (cbuf_read_attempt c buf n block).1.event = c.event
    ∧ (cbuf_read_char_attempt c ch).1.event = c.event
    ∧ cbuf_read c buf n block
        = (if block = true ∧ (cbuf_read_attempt c buf n block).2.2 = 0 then none
            else some (cbuf_read_attempt c buf n block))
    ∧ cbuf_read_char c ch block
        = (if block = true ∧ (cbuf_read_char_attempt c ch).2.2 = 0 then none
            else some (cbuf_read_char_attempt c ch)) := by
  refine ⟨?_, ?_, ?_, ?_, ?_, ?_⟩
  · cases buf with
    | none => exact cbuf_write_wo_lock_no_event h hn none n cr
    | some src =>
      simp only [cbuf_write]
      split_ifs
      · exact cbuf_write_wo_lock_no_event h hn (some src) n cr
      · exact write_chunks_no_event cr _ c src n 0 h hn
  · simp only [cbuf_write_char]
    split_ifs <;> simp_all
  · cases buf with
    | none => exact cbuf_read_wo_lock_no_event h hn none n block
    | some dst =>
      simp only [cbuf_read_attempt]
      split_ifs
      · exact cbuf_read_wo_lock_no_event h hn (some dst) n block
      · exact read_chunks_no_event block _ c dst n 0 h hn
  · simp only [cbuf_read_char_attempt]
    split_ifs <;> simp_all
  · simp only [cbuf_read]
    rw [if_neg (by simp [hn])]
  · simp only [cbuf_read_char]
    rw [if_neg (by simp [hn])]

theorem write_pass_is_reset_some (c : cbuf_t) (src : Mem) (en : Bool) (pos wl : Nat) :
    (write_pass c (some src) en pos wl).is_reset = false := by
  simp only [write_pass]
  split_ifs <;> rfl

theorem write_loop_is_reset (src : Mem) (n : Nat) (en : Bool) :
    ∀ (fuel : Nat) (c : cbuf_t) (pos : Nat),
      (c.is_reset = false → (write_loop (some src) n en fuel c pos).1.is_reset = false)
      ∧ ((write_loop (some src) n en fuel c pos).2 ≠ pos →
          (write_loop (some src) n en fuel c pos).1.is_reset = false) := by
  intro fuel
  induction fuel with
  | zero => intro c pos; exact ⟨fun e => e, fun e => absurd rfl e⟩
  | succ k ih =>
    intro c pos
    by_cases hc : pos < n ∧ cbuf_space_avail c > 0
    · by_cases hw : cbuf_get_contiguous_space c n pos = 0
      · rw [write_loop_break (some src) n en _ c pos hw]
        exact ⟨fun e => e, fun e => absurd rfl e⟩
      · rw [write_loop_step (some src) n en k c pos hc hw]
        have := (ih (write_pass c (some src) en pos (cbuf_get_contiguous_space c n pos))
          (pos + cbuf_get_contiguous_space c n pos)).1 (write_pass_is_reset_some ..)
        exact ⟨fun _ => this, fun _ => this⟩
    · rw [write_loop_stop (some src) n en _ c pos hc]
      exact ⟨fun e => e, fun e => absurd rfl e⟩

theorem cbuf_write_wo_lock_is_reset (c : cbuf_t) (src : Mem) (n : Nat) (cr : Bool) :
    (c.is_reset = false → (cbuf_write_wo_lock c (some src) n cr).1.is_reset = false)
    ∧ ((cbuf_write_wo_lock c (some src) n cr).2 ≠ 0 →
        (cbuf_write_wo_lock c (some src) n cr).1.is_reset = false) := by
  obtain ⟨h1, h2⟩ := write_loop_is_reset src n (cbuf_is_sw_writer c) n c 0
  have e : (cbuf_write_wo_lock c (some src) n cr).1.is_reset
      = (write_loop (some src) n (cbuf_is_sw_writer c) n c 0).1.is_reset := by
    simp only [cbuf_write_wo_lock]
    split_ifs <;> rfl
  rw [e]
  exact ⟨h1, h2⟩

theorem write_chunks_is_reset (cr : Bool) :
    ∀ (loop : Nat) (c : cbuf_t) (buf : Mem) (rem pos : Nat),
      (c.is_reset = false → (write_chunks cr loop c buf rem pos).1.is_reset = false)
      ∧ ((write_chunks cr loop c buf rem pos).2 ≠ pos →
          (write_chunks cr loop c buf rem pos).1.is_reset = false) := by
  intro loop
  induction loop with
  | zero => intro c buf rem pos; exact ⟨fun e => e, fun e => absurd rfl e⟩
  | succ k ih =>
    intro c buf rem pos
    simp only [write_chunks]
    obtain ⟨g1, g2⟩ := cbuf_write_wo_lock_is_reset c buf
      (if rem > CBUF_WRITE_MAX_CHUNK then CBUF_WRITE_MAX_CHUNK else rem) cr
    generalize cbuf_write_wo_lock c (some buf)
      (if rem > CBUF_WRITE_MAX_CHUNK then CBUF_WRITE_MAX_CHUNK else rem) cr = r at g1 g2 ⊢
    by_cases hz : r.2 = 0
    · rw [if_pos hz]
      exact ⟨g1, fun e => absurd rfl e⟩
    · rw [if_neg hz]
      have := (ih r.1 (shift buf r.2) (rem - r.2) (pos + r.2)).1 (g2 hz)
      exact ⟨fun _ => this, fun _ => this⟩

/-- In every ring state a `cbuf_write` from a buffer that enqueues at least one
byte leaves `is_reset` false, chunked or not. -/
theorem cbuf_write_clears_is_reset (c : cbuf_t) (src : Mem) (n : Nat) (cr : Bool)
    (hz : (cbuf_write c (some src) n cr).2 ≠ 0) :
    (cbuf_write c (some src) n cr).1.is_reset = false := by
  simp only [cbuf_write] at hz ⊢
  split_ifs at hz ⊢
  · exact (cbuf_write_wo_lock_is_reset c src n cr).2 hz
  · exact (write_chunks_is_reset cr _ c src n 0).2 hz

/-- In every ring state `cbuf_write_char` leaves `is_reset` as it is. -/
theorem cbuf_write_char_is_reset (c : cbuf_t) (ch : Nat) (cr : Bool) :
    (cbuf_write_char c ch cr).1.is_reset = c.is_reset := by
  simp only [cbuf_write_char]
  split_ifs <;> rfl

/-- What `cbuf_write_char` does when `cbuf_space_avail` is not 0. -/
theorem cbuf_write_char_fields {c : cbuf_t} (ha : cbuf_space_avail c > 0) (ch : Nat) (cr : Bool) :
    (cbuf_write_char c ch cr).2 = 1
    ∧ (cbuf_write_char c ch cr).1.head = INC_POINTER c UINT_MOD c.head 1
    ∧ (cbuf_write_char c ch cr).1.tail = c.tail
    ∧ (cbuf_write_char c ch cr).1.buf = (fun i => if i = c.head then ch else c.buf i)
    ∧ (cbuf_write_char c ch cr).1.event
        = (if c.no_event = false ∧ INC_POINTER c UINT_MOD c.head 1 ≠ c.tail then true
            else c.event) := by
  simp only [cbuf_write_char, if_pos ha]
  refine ⟨?_, ?_, ?_, ?_, ?_⟩
  · trivial
  · split_ifs <;> rfl
  · split_ifs <;> rfl
  · split_ifs <;> rfl
  · by_cases hx : c.no_event = false ∧ INC_POINTER c UINT_MOD c.head 1 ≠ c.tail
    · rw [if_pos hx]
      have hx1 : c.no_event = false ∧ INC_POINTER { c with buf := fun i => if i = c.head then ch else c.buf i } UINT_MOD c.head 1 ≠ c.tail := hx
      rw [if_pos hx1]
    · rw [if_neg hx]
      have hx1 : ¬ (c.no_event = false ∧ INC_POINTER { c with buf := fun i => if i = c.head then ch else c.buf i } UINT_MOD c.head 1 ≠ c.tail) := hx
      rw [if_neg hx1]

/-- What `cbuf_write_char` does when `cbuf_space_avail` is 0: nothing. -/
theorem cbuf_write_char_full {c : cbuf_t} (ha : ¬ cbuf_space_avail c > 0) (ch : Nat) (cr : Bool) :
    cbuf_write_char c ch cr = (c, 0) := by
  simp only [cbuf_write_char, if_neg ha]
/-- On a ring whose length is a power of two at least 2, with the default
flags, `cbuf_write_char` does what `cbuf_write` of a one-byte buffer does:
the same count, 1 if there was space and 0 if not, the same `head`, `tail`
and buffer, and the same event, provided that the event of a full ring is
signaled: on a full ring `cbuf_write` signals on its way out and
`cbuf_write_char` does not. -/
theorem write_char_is_write_of_one_pow2 {c : cbuf_t} (h : wf c) (hpw : c.len = 2 ^ c.len_pow2)
    (hf : c.flags = CBUF_FLAG_DEFAULT) (hlen : 2 ≤ c.len) (src : Mem) (cr cr1 : Bool)
    (hev : used c = c.len - 1 → c.no_event = false → c.event = true) :
    (cbuf_write_char c (src 0) cr1).2 = (cbuf_write c (some src) 1 cr).2
    ∧ (cbuf_write c (some src) 1 cr).2 = (if used c < c.len - 1 then 1 else 0)
    ∧ (cbuf_write_char c (src 0) cr1).1.head = (cbuf_write c (some src) 1 cr).1.head
    ∧ (cbuf_write_char c (src 0) cr1).1.tail = (cbuf_write c (some src) 1 cr).1.tail
    ∧ (cbuf_write_char c (src 0) cr1).1.buf = (cbuf_write c (some src) 1 cr).1.buf
    ∧ (cbuf_write_char c (src 0) cr1).1.event = (cbuf_write c (some src) 1 cr).1.event := by
  have h1 := h.head_lt
  have h2 := h.tail_lt
  have h3 := h.len_lt
  have hu := used_lt h
  obtain ⟨hsw, hsr, hcw, _⟩ := default_flags_sw hf
  have hav := cbuf_space_avail_eq h (Or.inr hpw)
  have e1 : INC_POINTER c SIZE_MOD c.head 1 = (c.head + 1) % c.len :=
    INC_POINTER_eq h (by simp only [SIZE_MOD, UINT_MOD] at h3 ⊢; omega)
  have e2 : INC_POINTER c UINT_MOD c.head 1 = (c.head + 1) % c.len :=
    INC_POINTER_eq h (by omega)
  rw [cbuf_write_unchunked hcw]
  by_cases hs : used c < c.len - 1
  · have hc : 0 < 1 ∧ cbuf_space_avail c > 0 := ⟨by omega, by omega⟩
    have hwl : cbuf_get_contiguous_space c 1 0 = 1 := by
      rw [cbuf_get_contiguous_space_eq h]
      have := run_space_pos h hs
      omega
    have hb : memcpy c.buf c.head src 0 1 = fun i => if i = c.head then src 0 else c.buf i := by
      funext i
      simp only [memcpy]
      by_cases hi : i = c.head
      · subst hi
        simp
      · rw [if_neg (by omega), if_neg hi]
    have hl : write_loop (some src) 1 true 1 c 0 = (write_pass c (some src) true 0 1, 1) := by
      rw [write_loop_step (some src) 1 true 0 c 0 hc (by omega), hwl]
      rfl
    have wh : (write_pass c (some src) true 0 1).head = (c.head + 1) % c.len := by
      rw [write_pass_head, e1]
    have wt := write_pass_tail c (some src) true 0 1
    have we := write_pass_event c (some src) true 0 1
    have wn := (write_pass_conf c (some src) true 0 1).no_event_eq
    have wb : (write_pass c (some src) true 0 1).buf
        = fun i => if i = c.head then src 0 else c.buf i := by
      rw [write_pass_buf_some, hb]
    generalize write_pass c (some src) true 0 1 = w at hl wh wt we wn wb
    obtain ⟨f1, f2, f3, f4, f5⟩ := cbuf_write_char_fields hc.2 (src 0) cr1
    rw [e2] at f2 f5
    rw [f1, f2, f3, f4, f5, if_pos hs]
    simp only [cbuf_write_wo_lock, hsw, hl]
    by_cases hx : c.no_event = false ∧ (c.head + 1) % c.len ≠ c.tail
    · rw [if_pos hx, if_pos (by rw [wn, wh, wt]; exact hx)]
      exact ⟨trivial, trivial, wh.symm, wt.symm, wb.symm, rfl⟩
    · rw [if_neg hx, if_neg (by rw [wn, wh, wt]; exact hx)]
      exact ⟨trivial, trivial, wh.symm, wt.symm, wb.symm, we.symm⟩
  · have hc : ¬ (0 < 1 ∧ cbuf_space_avail c > 0) := by omega
    have hfull : used c = c.len - 1 := by omega
    have hl : write_loop (some src) 1 (cbuf_is_sw_writer c) 1 c 0 = (c, 0) :=
      write_loop_stop _ _ _ _ _ _ hc
    rw [cbuf_write_char_full (show ¬ cbuf_space_avail c > 0 by omega), if_neg hs]
    simp only [cbuf_write_wo_lock, hl]
    by_cases hx : c.no_event = false ∧ c.head ≠ c.tail
    · rw [if_pos hx]
      exact ⟨trivial, trivial, rfl, rfl, rfl, hev hfull hx.1⟩
    · rw [if_neg hx]
      exact ⟨trivial, trivial, rfl, rfl, rfl, rfl⟩

/-! ## The iterations of the transfer loops -/

theorem write_loop_passes_stop (buf : Option Mem) (n : Nat) (en : Bool) (fuel : Nat) (c : cbuf_t)
    (pos : Nat) (h : ¬(pos < n ∧ cbuf_space_avail c > 0)) :
    write_loop_passes buf n en fuel c pos = [] := by
  cases fuel with
  | zero => rfl
  | succ k => simp only [write_loop_passes, if_neg h]

theorem write_loop_passes_break (buf : Option Mem) (n : Nat) (en : Bool) (fuel : Nat)
    (c : cbuf_t) (pos : Nat) (h : pos < n ∧ cbuf_space_avail c > 0)
    (hw : cbuf_get_contiguous_space c n pos = 0) :
    write_loop_passes buf n en (fuel + 1) c pos = [0] := by
  simp only [write_loop_passes, if_pos h, hw, if_true]

theorem write_loop_passes_step (buf : Option Mem) (n : Nat) (en : Bool) (fuel : Nat)
    (c : cbuf_t) (pos : Nat) (h : pos < n ∧ cbuf_space_avail c > 0)
    (hw : cbuf_get_contiguous_space c n pos ≠ 0) :
    write_loop_passes buf n en (fuel + 1) c pos =
      cbuf_get_contiguous_space c n pos ::
        write_loop_passes buf n en fuel
          (write_pass c buf en pos (cbuf_get_contiguous_space c n pos))
          (pos + cbuf_get_contiguous_space c n pos) := by
  simp only [write_loop_passes, if_pos h, if_neg hw]

theorem read_loop_passes_stop (n : Nat) (en : Bool) (fuel : Nat) (c : cbuf_t)
    (buf : Option Mem) (pos : Nat) (h : ¬(pos < n ∧ c.tail ≠ c.head)) :
    read_loop_passes n en fuel c buf pos = [] := by
  cases fuel with
  | zero => rfl
  | succ k => simp only [read_loop_passes, if_neg h]

theorem read_loop_passes_step (n : Nat) (en : Bool) (fuel : Nat) (c : cbuf_t)
    (buf : Option Mem) (pos : Nat) (h : pos < n ∧ c.tail ≠ c.head) :
    read_loop_passes n en (fuel + 1) c buf pos =
      cbuf_get_contiguous_used c n pos ::
        read_loop_passes n en fuel
          (read_pass c buf en pos (cbuf_get_contiguous_used c n pos)).1
          (read_pass c buf en pos (cbuf_get_contiguous_used c n pos)).2
          (pos + cbuf_get_contiguous_used c n pos) := by
  simp only [read_loop_passes, if_pos h]

/-- The iterations listed by `write_loop_passes` are those of `write_loop`:
their lengths add up to what the loop adds to `pos`. -/
theorem write_loop_passes_sum (buf : Option Mem) (n : Nat) (en : Bool) :
    ∀ (fuel : Nat) (c : cbuf_t) (pos : Nat),
      (write_loop_passes buf n en fuel c pos).sum + pos = (write_loop buf n en fuel c pos).2 := by
  intro fuel
  induction fuel with
  | zero => intro c pos; simp [write_loop_passes, write_loop]
  | succ k ih =>
    intro c pos
    by_cases hc : pos < n ∧ cbuf_space_avail c > 0
    · by_cases hw : cbuf_get_contiguous_space c n pos = 0
      · rw [write_loop_passes_break buf n en k c pos hc hw, write_loop_break buf n en _ c pos hw]
        simp
      · rw [write_loop_passes_step buf n en k c pos hc hw, write_loop_step buf n en k c pos hc hw,
          ← ih, List.sum_cons]
        omega
    · rw [write_loop_passes_stop buf n en _ c pos hc, write_loop_stop buf n en _ c pos hc]
      simp

/-- The iterations listed by `read_loop_passes` are those of `read_loop`. -/
theorem read_loop_passes_sum (n : Nat) (en : Bool) :
    ∀ (fuel : Nat) (c : cbuf_t) (buf : Option Mem) (pos : Nat),
      (read_loop_passes n en fuel c buf pos).sum + pos = (read_loop n en fuel c buf pos).2.2 := by
  intro fuel
  induction fuel with
  | zero => intro c buf pos; simp [read_loop_passes, read_loop]
  | succ k ih =>
    intro c buf pos
    by_cases hc : pos < n ∧ c.tail ≠ c.head
    · rw [read_loop_passes_step n en k c buf pos hc, read_loop_step n en k c buf pos hc, ← ih,
        List.sum_cons]
      omega
    · rw [read_loop_passes_stop n en _ c buf pos hc, read_loop_stop n en _ c buf pos hc]
      simp

/-- With `tail` below `head` the read loop makes at most one iteration. -/
theorem read_loop_passes_nowrap (n : Nat) (en : Bool) {c : cbuf_t} (h : wf c)
    (hlt : c.tail < c.head) (fuel : Nat) (buf : Option Mem) (pos : Nat) :
    (read_loop_passes n en fuel c buf pos).length ≤ 1
    ∧ ∀ x ∈ read_loop_passes n en fuel c buf pos, 1 ≤ x := by
  have h1 := h.head_lt
  cases fuel with
  | zero => simp [read_loop_passes]
  | succ k =>
    by_cases hc : pos < n ∧ c.tail ≠ c.head
    · rw [read_loop_passes_step n en k c buf pos hc]
      have hrl := cbuf_get_contiguous_used_eq h n pos
      have hru : run_used c = c.head - c.tail := by simp [run_used, hlt]
      generalize cbuf_get_contiguous_used c n pos = rl at hrl ⊢
      have ha := read_pass_consumed h hc.2 buf en pos (show rl ≤ run_used c by omega)
      have ht := ha.tail_eq
      have hh := ha.head_eq
      rw [Nat.mod_eq_of_lt (by omega)] at ht
      rw [read_loop_passes_stop n en k _ _ _ (by rw [ht, hh]; omega)]
      simp
      omega
    · rw [read_loop_passes_stop n en _ c buf pos hc]
      simp

/-- On every well-formed ring the read loop makes at most two iterations, and
each reads at least one byte. -/
theorem read_loop_passes_bound (n : Nat) (en : Bool) {c : cbuf_t} (h : wf c) (fuel : Nat)
    (buf : Option Mem) (pos : Nat) :
    (read_loop_passes n en fuel c buf pos).length ≤ 2
    ∧ ∀ x ∈ read_loop_passes n en fuel c buf pos, 1 ≤ x := by
  have h1 := h.head_lt
  have h2 := h.tail_lt
  by_cases hlt : c.tail < c.head
  · obtain ⟨g1, g2⟩ := read_loop_passes_nowrap n en h hlt fuel buf pos
    exact ⟨by omega, g2⟩
  · cases fuel with
    | zero => simp [read_loop_passes]
    | succ k =>
      by_cases hc : pos < n ∧ c.tail ≠ c.head
      · rw [read_loop_passes_step n en k c buf pos hc]
        have hrl := cbuf_get_contiguous_used_eq h n pos
        have hru : run_used c = c.len - c.tail := by simp [run_used, hlt]
        generalize cbuf_get_contiguous_used c n pos = rl at hrl ⊢
        have ha := read_pass_consumed h hc.2 buf en pos (show rl ≤ run_used c by omega)
        have ht := ha.tail_eq
        have hh := ha.head_eq
        by_cases hend : rl = c.len - c.tail
        · have e : c.tail + rl = c.len := by omega
          rw [e, Nat.mod_self] at ht
          by_cases h0 : c.head = 0
          · rw [read_loop_passes_stop n en k _ _ _ (by rw [ht, hh, h0]; omega)]
            simp
            omega
          · obtain ⟨g1, g2⟩ := read_loop_passes_nowrap n en ha.wf_out
              (show (read_pass c buf en pos rl).1.tail < (read_pass c buf en pos rl).1.head by
                rw [ht, hh]; omega) k (read_pass c buf en pos rl).2 (pos + rl)
            refine ⟨by simp; omega, ?_⟩
            intro x hx
            rcases List.mem_cons.mp hx with rfl | hx
            · omega
            · exact g2 x hx
        · rw [read_loop_passes_stop n en k _ _ _ (by omega)]
          simp
          omega
      · rw [read_loop_passes_stop n en _ c buf pos hc]
        simp

/-- On a ring with no room at `head` the write loop makes no iteration, or the
one that leaves by `break`. -/
theorem write_loop_passes_full (buf : Option Mem) (n : Nat) (en : Bool) {c : cbuf_t} (h : wf c)
    (hz : run_space c = 0) (fuel pos : Nat) :
    write_loop_passes buf n en fuel c pos = [] ∨ write_loop_passes buf n en fuel c pos = [0] := by
  cases fuel with
  | zero => exact Or.inl rfl
  | succ k =>
    by_cases hc : pos < n ∧ cbuf_space_avail c > 0
    · have hwl := cbuf_get_contiguous_space_eq h n pos
      exact Or.inr (write_loop_passes_break buf n en k c pos hc (by omega))
    · exact Or.inl (write_loop_passes_stop buf n en _ c pos hc)

/-- With `head` below `tail` the write loop makes at most one iteration that
writes, and at most one more, which leaves by `break`. -/
theorem write_loop_passes_below (buf : Option Mem) (n : Nat) (en : Bool) {c : cbuf_t}
    (h : wf c) (hlt : c.head < c.tail) (fuel pos : Nat) :
    (write_loop_passes buf n en fuel c pos).length ≤ 2
    ∧ ((write_loop_passes buf n en fuel c pos).filter (fun x => decide (x ≠ 0))).length ≤ 1 := by
  have h2 := h.tail_lt
  cases fuel with
  | zero => simp [write_loop_passes]
  | succ k =>
    by_cases hc : pos < n ∧ cbuf_space_avail c > 0
    · by_cases hw : cbuf_get_contiguous_space c n pos = 0
      · rw [write_loop_passes_break buf n en k c pos hc hw]
        simp
      · rw [write_loop_passes_step buf n en k c pos hc hw]
        have hwl := cbuf_get_contiguous_space_eq h n pos
        have hrs0 : run_space c = c.tail - c.head - 1 := by
          simp only [run_space]
          rw [if_neg (by omega)]
        generalize cbuf_get_contiguous_space c n pos = wl at hwl hw ⊢
        have hrs : wl ≤ run_space c := by omega
        have ha := write_pass_appended h buf en pos hrs
        have hwf1 := appended_wf h ha
        have hh := ha.head_eq
        have ht := ha.tail_eq
        rw [Nat.mod_eq_of_lt (by omega)] at hh
        by_cases hend : pos + wl < n
        · have hz : run_space (write_pass c buf en pos wl) = 0 := by
            simp only [run_space, hh, ht]
            rw [if_neg (by omega)]
            omega
          rcases write_loop_passes_full buf n en hwf1 hz k (pos + wl) with e | e <;> rw [e] <;>
            simp [hw]
        · rw [write_loop_passes_stop buf n en k _ _ (by omega)]
          simp [hw]
    · rw [write_loop_passes_stop buf n en _ c pos hc]
      simp

/-- On every well-formed ring, whatever its length, the write loop makes at
most two iterations that write, and at most one more, which leaves by
`break`. -/
theorem write_loop_passes_bound (buf : Option Mem) (n : Nat) (en : Bool) {c : cbuf_t}
    (h : wf c) (fuel pos : Nat) :
    (write_loop_passes buf n en fuel c pos).length ≤ 3
    ∧ ((write_loop_passes buf n en fuel c pos).filter (fun x => decide (x ≠ 0))).length ≤ 2 := by
  have h1 := h.head_lt
  have h2 := h.tail_lt
  by_cases hlt : c.head < c.tail
  · obtain ⟨g1, g2⟩ := write_loop_passes_below buf n en h hlt fuel pos
    exact ⟨by omega, by omega⟩
  · cases fuel with
    | zero => simp [write_loop_passes]
    | succ k =>
      by_cases hc : pos < n ∧ cbuf_space_avail c > 0
      · by_cases hw : cbuf_get_contiguous_space c n pos = 0
        · rw [write_loop_passes_break buf n en k c pos hc hw]
          simp
        · rw [write_loop_passes_step buf n en k c pos hc hw]
          have hwl := cbuf_get_contiguous_space_eq h n pos
          generalize cbuf_get_contiguous_space c n pos = wl at hwl hw ⊢
          have hrs : wl ≤ run_space c := by omega
          have ha := write_pass_appended h buf en pos hrs
          have hwf1 := appended_wf h ha
          have hh := ha.head_eq
          have ht := ha.tail_eq
          by_cases hend : pos + wl < n
          · have hwr : wl = run_space c := by omega
            by_cases h0 : c.tail = 0
            · have hrs0 : run_space c = c.len - c.head - 1 := by
                simp only [run_space]
                rw [if_pos (by omega), if_pos h0]
              rw [Nat.mod_eq_of_lt (by omega)] at hh
              have hz : run_space (write_pass c buf en pos wl) = 0 := by
                simp only [run_space, hh, ht, ha.len_eq]
                rw [if_pos (by omega), if_pos h0]
                omega
              rcases write_loop_passes_full buf n en hwf1 hz k (pos + wl) with e | e <;>
                rw [e] <;> simp [hw]
            · have hrs0 : run_space c = c.len - c.head := by
                simp only [run_space]
                rw [if_pos (by omega), if_neg h0]
              have e : c.head + wl = c.len := by omega
              rw [e, Nat.mod_self] at hh
              obtain ⟨g1, g2⟩ := write_loop_passes_below buf n en hwf1
                (show (write_pass c buf en pos wl).head < (write_pass c buf en pos wl).tail by
                  rw [hh, ht]; omega) k (pos + wl)
              refine ⟨by simp; omega, ?_⟩
              rw [List.filter_cons_of_pos (by simp [hw]), List.length_cons]
              omega
          · rw [write_loop_passes_stop buf n en k _ _ (by omega)]
            simp [hw]
      · rw [write_loop_passes_stop buf n en _ c pos hc]
        simp

/-- On a ring whose length is a power of two every iteration of the write loop
writes at least one byte: none leaves by `break`. -/
theorem write_loop_passes_pos_pow2 (buf : Option Mem) (n : Nat) (en : Bool) :
    ∀ (fuel : Nat) (c : cbuf_t) (pos : Nat), wf c → c.len = 2 ^ c.len_pow2 →
      ∀ x ∈ write_loop_passes buf n en fuel c pos, 1 ≤ x := by
  intro fuel
  induction fuel with
  | zero => intro c pos _ _; simp [write_loop_passes]
  | succ k ih =>
    intro c pos h hpw
    have hav := cbuf_space_avail_eq h (Or.inr hpw)
    by_cases hc : pos < n ∧ cbuf_space_avail c > 0
    · have hwl := cbuf_get_contiguous_space_eq h n pos
      have hrp := run_space_pos h (by omega)
      have hw : cbuf_get_contiguous_space c n pos ≠ 0 := by omega
      rw [write_loop_passes_step buf n en k c pos hc hw]
      generalize cbuf_get_contiguous_space c n pos = wl at hwl hw ⊢
      have ha := write_pass_appended h buf en pos (show wl ≤ run_space c by omega)
      have hconf := write_pass_conf c buf en pos wl
      intro x hx
      rcases List.mem_cons.mp hx with rfl | hx
      · omega
      · exact ih _ _ (appended_wf h ha) (by rw [hconf.len_eq, hconf.len_pow2_eq]; exact hpw) x hx
    · rw [write_loop_passes_stop buf n en _ c pos hc]
      simp

/-- The iterations of the two transfer loops, for every number of passes
allowed.  On every well-formed ring: the read loop makes at most two
iterations, each of at least one byte; the write loop makes at most two
iterations that write and at most three in all.  On a ring whose length is a
power of two the write loop makes at most two iterations, each of at least one
byte. -/
theorem loop_passes_bound {c : cbuf_t} (h : wf c) (buf : Option Mem) (n : Nat) (en : Bool)
    (fuel pos : Nat) :
    ((read_loop_passes n en fuel c buf pos).length ≤ 2
      ∧ ∀ x ∈ read_loop_passes n en fuel c buf pos, 1 ≤ x)
    ∧ ((write_loop_passes buf n en fuel c pos).length ≤ 3
      ∧ ((write_loop_passes buf n en fuel c pos).filter (fun x => decide (x ≠ 0))).length ≤ 2)
    ∧ (c.len = 2 ^ c.len_pow2 →
        (write_loop_passes buf n en fuel c pos).length ≤ 2
        ∧ ∀ x ∈ write_loop_passes buf n en fuel c pos, 1 ≤ x) := by
  refine ⟨read_loop_passes_bound n en h fuel buf pos, write_loop_passes_bound buf n en h fuel pos,
    ?_⟩
  intro hpw
  have hp := write_loop_passes_pos_pow2 buf n en fuel c pos h hpw
  obtain ⟨_, g2⟩ := write_loop_passes_bound buf n en h fuel pos
  refine ⟨?_, hp⟩
  have e : (write_loop_passes buf n en fuel c pos).filter (fun x => decide (x ≠ 0))
      = write_loop_passes buf n en fuel c pos := by
    apply List.filter_eq_self.mpr
    intro x hx
    have := hp x hx
    simp
    omega
  rw [e] at g2
  exact g2

/-- The assertion `pos > 0` of `cbuf_read_wo_lock` holds: on a well-formed ring
that is not empty at entry, a loop that leaves the ring empty has read at least
one byte. -/
theorem read_loop_assert {c : cbuf_t} (h : wf c) (hne : c.tail ≠ c.head) (n : Nat) (en : Bool)
    (buf : Option Mem)
    (he : (read_loop n en n c buf 0).1.tail = (read_loop n en n c buf 0).1.head) :
    0 < (read_loop n en n c buf 0).2.2 := by
  obtain ⟨ha, _, _, _⟩ := read_loop_spec n en n c buf 0 h (Nat.zero_le _)
  have hu := ha.used_eq
  have h0 := (used_eq_zero_iff ha.wf_out).mpr he.symm
  have h1 : used c ≠ 0 := fun e => hne ((used_eq_zero_iff h).mp e).symm
  omega

/-! ## The zero state that `is_reset` stands for -/

theorem zero_kept_refl (c : cbuf_t) : zero_kept c c := ⟨rfl, fun h => ⟨h, rfl⟩⟩

theorem zero_kept_trans {a b c : cbuf_t} (h1 : zero_kept a b) (h2 : zero_kept b c) :
    zero_kept a c := by
  refine ⟨h2.len_eq.trans h1.len_eq, fun h => ?_⟩
  obtain ⟨g1, g2⟩ := h2.of_reset h
  obtain ⟨g3, g4⟩ := h1.of_reset g1
  exact ⟨g3, g2.trans g4⟩

theorem zero_kept_of_eq {c q : cbuf_t} (h1 : q.len = c.len) (h2 : q.is_reset = c.is_reset)
    (h3 : q.buf = c.buf) : zero_kept c q :=
  ⟨h1, fun h => ⟨h2 ▸ h, h3⟩⟩

theorem zero_filled_of_kept {c q : cbuf_t} (h : zero_filled c) (hk : zero_kept c q) :
    zero_filled q := by
  intro hr i hi
  obtain ⟨g1, g2⟩ := hk.of_reset hr
  rw [g2]
  exact h g1 i (hk.len_eq ▸ hi)

theorem write_pass_zero_kept (c : cbuf_t) (buf : Option Mem) (en : Bool) (pos wl : Nat) :
    zero_kept c (write_pass c buf en pos wl) := by
  refine ⟨(write_pass_conf c buf en pos wl).len_eq, ?_⟩
  cases buf with
  | none =>
    simp only [write_pass]
    split_ifs <;> intro hr <;> first | exact ⟨hr, rfl⟩ | simp_all
  | some src =>
    intro hr
    rw [write_pass_is_reset_some] at hr
    exact absurd hr (by decide)

theorem write_loop_zero_kept (buf : Option Mem) (n : Nat) (en : Bool) :
    ∀ (fuel : Nat) (c : cbuf_t) (pos : Nat), zero_kept c (write_loop buf n en fuel c pos).1 := by
  intro fuel
  induction fuel with
  | zero => intro c pos; exact zero_kept_refl c
  | succ k ih =>
    intro c pos
    by_cases hc : pos < n ∧ cbuf_space_avail c > 0
    · by_cases hw : cbuf_get_contiguous_space c n pos = 0
      · rw [write_loop_break buf n en _ c pos hw]
        exact zero_kept_refl c
      · rw [write_loop_step buf n en k c pos hc hw]
        exact zero_kept_trans (write_pass_zero_kept ..) (ih _ _)
    · rw [write_loop_stop buf n en _ c pos hc]
      exact zero_kept_refl c

theorem cbuf_write_wo_lock_zero_kept (c : cbuf_t) (buf : Option Mem) (n : Nat) (cr : Bool) :
    zero_kept c (cbuf_write_wo_lock c buf n cr).1 := by
  have h := write_loop_zero_kept buf n (cbuf_is_sw_writer c) n c 0
  simp only [cbuf_write_wo_lock]
  split_ifs
  · exact ⟨h.len_eq, h.of_reset⟩
  · exact h

theorem write_chunks_zero_kept (cr : Bool) :
    ∀ (loop : Nat) (c : cbuf_t) (buf : Mem) (rem pos : Nat),
      zero_kept c (write_chunks cr loop c buf rem pos).1 := by
  intro loop
  induction loop with
  | zero => intro c buf rem pos; exact zero_kept_refl c
  | succ k ih =>
    intro c buf rem pos
    simp only [write_chunks]
    have g := cbuf_write_wo_lock_zero_kept c (some buf)
      (if rem > CBUF_WRITE_MAX_CHUNK then CBUF_WRITE_MAX_CHUNK else rem) cr
    generalize cbuf_write_wo_lock c (some buf)
      (if rem > CBUF_WRITE_MAX_CHUNK then CBUF_WRITE_MAX_CHUNK else rem) cr = r at g ⊢
    by_cases hz : r.2 = 0
    · rw [if_pos hz]
      exact g
    · rw [if_neg hz]
      exact zero_kept_trans g (ih _ _ _ _)

/-- In every ring state `cbuf_write` keeps the length, and leaves `is_reset`
true only where it was true and the buffer was not written. -/
theorem cbuf_write_zero_kept (c : cbuf_t) (buf : Option Mem) (n : Nat) (cr : Bool) :
    zero_kept c (cbuf_write c buf n cr).1 := by
  cases buf with
  | none => exact cbuf_write_wo_lock_zero_kept c none n cr
  | some src =>
    simp only [cbuf_write]
    split_ifs
    · exact cbuf_write_wo_lock_zero_kept c (some src) n cr
    · exact write_chunks_zero_kept cr _ c src n 0

theorem read_pass_is_reset (c : cbuf_t) (buf : Option Mem) (en : Bool) (pos rl : Nat) :
    (read_pass c buf en pos rl).1.is_reset = c.is_reset := by
  simp only [read_pass]; split_ifs <;> rfl

theorem read_loop_zero_kept (n : Nat) (en : Bool) :
    ∀ (fuel : Nat) (c : cbuf_t) (buf : Option Mem) (pos : Nat),
      zero_kept c (read_loop n en fuel c buf pos).1
      ∧ (read_loop n en fuel c buf pos).1.is_reset = c.is_reset
      ∧ (read_loop n en fuel c buf pos).1.buf = c.buf := by
  intro fuel
  induction fuel with
  | zero => intro c buf pos; exact ⟨zero_kept_refl c, rfl, rfl⟩
  | succ k ih =>
    intro c buf pos
    by_cases hc : pos < n ∧ c.tail ≠ c.head
    · rw [read_loop_step n en k c buf pos hc]
      obtain ⟨g1, g2, g3⟩ := ih (read_pass c buf en pos (cbuf_get_contiguous_used c n pos)).1
        (read_pass c buf en pos (cbuf_get_contiguous_used c n pos)).2
        (pos + cbuf_get_contiguous_used c n pos)
      have e1 := read_pass_is_reset c buf en pos (cbuf_get_contiguous_used c n pos)
      have e2 := read_pass_buf c buf en pos (cbuf_get_contiguous_used c n pos)
      have e3 := (read_pass_conf c buf en pos (cbuf_get_contiguous_used c n pos)).len_eq
      exact ⟨zero_kept_trans (zero_kept_of_eq e3 e1 e2) g1, g2.trans e1, g3.trans e2⟩
    · rw [read_loop_stop n en _ c buf pos hc]
      exact ⟨zero_kept_refl c, rfl, rfl⟩

theorem cbuf_read_wo_lock_zero_kept (c : cbuf_t) (buf : Option Mem) (n : Nat) (block : Bool) :
    (cbuf_read_wo_lock c buf n block).1.len = c.len
    ∧ (cbuf_read_wo_lock c buf n block).1.is_reset = c.is_reset
    ∧ (cbuf_read_wo_lock c buf n block).1.buf = c.buf := by
  obtain ⟨g1, g2, g3⟩ := read_loop_zero_kept n (cbuf_is_sw_reader c) n c buf 0
  simp only [cbuf_read_wo_lock]
  split_ifs
  · exact ⟨g1.len_eq, g2, g3⟩
  · exact ⟨g1.len_eq, g2, g3⟩
  · exact ⟨rfl, rfl, rfl⟩

theorem read_chunks_zero_kept (block : Bool) :
    ∀ (loop : Nat) (c : cbuf_t) (buf : Mem) (rem ret : Nat),
      (read_chunks block loop c buf rem ret).1.len = c.len
      ∧ (read_chunks block loop c buf rem ret).1.is_reset = c.is_reset
      ∧ (read_chunks block loop c buf rem ret).1.buf = c.buf := by
  intro loop
  induction loop with
  | zero => intro c buf rem ret; exact ⟨rfl, rfl, rfl⟩
  | succ k ih =>
    intro c buf rem ret
    simp only [read_chunks]
    obtain ⟨g1, g2, g3⟩ := cbuf_read_wo_lock_zero_kept c (some (shift buf ret))
      (if rem > CBUF_READ_MAX_CHUNK then CBUF_READ_MAX_CHUNK else rem) block
    generalize cbuf_read_wo_lock c (some (shift buf ret))
      (if rem > CBUF_READ_MAX_CHUNK then CBUF_READ_MAX_CHUNK else rem) block = r at g1 g2 g3 ⊢
    by_cases hz : r.2.2 = 0
    · rw [if_pos hz]
      exact ⟨g1, g2, g3⟩
    · rw [if_neg hz]
      obtain ⟨f1, f2, f3⟩ := ih r.1 (match r.2.1 with
        | some v => unshift buf ret v
        | none => buf) (rem - r.2.2) (ret + r.2.2)
      exact ⟨f1.trans g1, f2.trans g2, f3.trans g3⟩

/-- In every ring state a pass of `cbuf_read` leaves the length, `is_reset` and
the buffer as they are. -/
theorem cbuf_read_attempt_zero_kept (c : cbuf_t) (buf : Option Mem) (n : Nat) (block : Bool) :
    (cbuf_read_attempt c buf n block).1.len = c.len
    ∧ (cbuf_read_attempt c buf n block).1.is_reset = c.is_reset
    ∧ (cbuf_read_attempt c buf n block).1.buf = c.buf := by
  cases buf with
  | none => exact cbuf_read_wo_lock_zero_kept c none n block
  | some dst =>
    simp only [cbuf_read_attempt]
    split_ifs
    · exact cbuf_read_wo_lock_zero_kept c (some dst) n block
    · exact read_chunks_zero_kept block _ c dst n 0

theorem cbuf_reset_zero_kept (c : cbuf_t) :
    (cbuf_reset c).len = c.len ∧ (cbuf_reset c).is_reset = c.is_reset
    ∧ (cbuf_reset c).buf = c.buf := by
  rw [cbuf_reset_eq]
  exact cbuf_read_attempt_zero_kept c none c.len false

/-- After `cbuf_reset_with_zero`, in every ring state, `is_reset` is true and
the `len` bytes of the active buffer are 0. -/
theorem cbuf_reset_with_zero_zero_filled (c : cbuf_t) :
    (cbuf_reset_with_zero c).is_reset = true ∧ zero_filled (cbuf_reset_with_zero c) := by
  obtain ⟨g1, _, g3⟩ := cbuf_reset_zero_kept { c with buf := memset c.buf 0 0 (cbuf_size c) }
  have hb : ∀ i, i < c.len → (cbuf_reset_with_zero c).buf i = 0 := by
    intro i hi
    have e : (cbuf_reset_with_zero c).buf
        = (cbuf_reset { c with buf := memset c.buf 0 0 (cbuf_size c) }).buf := by
      simp only [cbuf_reset_with_zero, cbuf_reset_indexes]
      split_ifs <;> rfl
    rw [e, g3]
    simp [memset, cbuf_size, hi]
  have hl : (cbuf_reset_with_zero c).len = c.len := by
    have e : (cbuf_reset_with_zero c).len
        = (cbuf_reset { c with buf := memset c.buf 0 0 (cbuf_size c) }).len := by
      simp only [cbuf_reset_with_zero, cbuf_reset_indexes]
      split_ifs <;> rfl
    rw [e, g1]
  have hr : (cbuf_reset_with_zero c).is_reset = true := by
    simp only [cbuf_reset_with_zero]
  exact ⟨hr, fun _ i hi => hb i (hl ▸ hi)⟩

/-- Every call other than `cbuf_write_char` and `cbuf_adjust_size` keeps
`zero_filled`, in every ring state. -/
theorem exec_zero_filled {c c' : cbuf_t} (h : zero_filled c) (op : Op)
    (hk : op.keeps_zero_fill = true) (hex : op.exec c = some c') : zero_filled c' := by
  cases op with
  | adjust_size new_len => exact absurd hk Bool.false_ne_true
  | write_char ch cr => exact absurd hk Bool.false_ne_true
  | write buf n cr =>
    simp only [Op.exec, Option.some.injEq] at hex
    subst hex
    exact zero_filled_of_kept h (cbuf_write_zero_kept c buf n cr)
  | read buf n block =>
    simp only [Op.exec, Option.map_eq_some'] at hex
    obtain ⟨r, hr, hrc⟩ := hex
    subst hrc
    rw [cbuf_read_some hr]
    obtain ⟨g1, g2, g3⟩ := cbuf_read_attempt_zero_kept c buf n block
    exact zero_filled_of_kept h (zero_kept_of_eq g1 g2 g3)
  | read_char ch block =>
    simp only [Op.exec, Option.map_eq_some'] at hex
    obtain ⟨r, hr, hrc⟩ := hex
    subst hrc
    rw [cbuf_read_char_some hr]
    refine zero_filled_of_kept h (zero_kept_of_eq ?_ ?_ ?_) <;>
      simp only [cbuf_read_char_attempt] <;> split_ifs <;> rfl
  | peek =>
    simp only [Op.exec, Option.some.injEq] at hex
    subst hex
    exact h
  | skip is_write n =>
    simp only [Op.exec, Option.some.injEq] at hex
    subst hex
    refine zero_filled_of_kept h (zero_kept_of_eq ?_ ?_ ?_) <;>
      simp only [cbuf_skip] <;> split_ifs <;> rfl
  | trash n =>
    simp only [Op.exec, Option.some.injEq] at hex
    subst hex
    refine zero_filled_of_kept h (zero_kept_of_eq ?_ ?_ ?_) <;>
      simp only [cbuf_trash] <;> split_ifs <;> rfl
  | rewind =>
    simp only [Op.exec, Option.some.injEq] at hex
    subst hex
    exact zero_filled_of_kept h (zero_kept_of_eq rfl rfl rfl)
  | rewind_len n =>
    simp only [Op.exec, Option.some.injEq] at hex
    subst hex
    exact zero_filled_of_kept h (zero_kept_of_eq rfl rfl rfl)
  | reset =>
    simp only [Op.exec, Option.some.injEq] at hex
    subst hex
    obtain ⟨g1, g2, g3⟩ := cbuf_reset_zero_kept c
    exact zero_filled_of_kept h (zero_kept_of_eq g1 g2 g3)
  | reset_indexes =>
    simp only [Op.exec, Option.some.injEq] at hex
    subst hex
    obtain ⟨g1, g2, g3⟩ := cbuf_reset_zero_kept c
    exact zero_filled_of_kept h (zero_kept_of_eq g1 g2 g3)
  | reset_with_zero =>
    simp only [Op.exec, Option.some.injEq] at hex
    subst hex
    exact (cbuf_reset_with_zero_zero_filled c).2
  | change_flag flag set =>
    simp only [Op.exec, Option.some.injEq] at hex
    subst hex
    refine zero_filled_of_kept h (zero_kept_of_eq ?_ ?_ ?_) <;>
      simp only [cbuf_change_flag] <;> split_ifs <;> rfl

/-- In every state reached from initialisation by calls other than
`cbuf_write_char` and `cbuf_adjust_size`, when `is_reset` is true the `len`
bytes of the active buffer are 0. -/
theorem run_zero_filled (ops : List Op) :
    ∀ (c c' : cbuf_t), zero_filled c → (∀ op ∈ ops, op.keeps_zero_fill = true) →
      run c ops = some c' → zero_filled c' := by
  induction ops with
  | nil =>
    intro c c' h _ hr
    simp only [run, Option.some.injEq] at hr
    subst hr
    exact h
  | cons op ops ih =>
    intro c c' h hk hr
    obtain ⟨_, c1, he, hr1⟩ := run_cons_some hr
    exact ih c1 c' (exec_zero_filled h op (hk op (List.mem_cons_self _ _)) he)
      (fun o ho => hk o (List.mem_cons_of_mem _ ho)) hr1

theorem cbuf_initialize_etc_zero_filled (len : Nat) (buf : Mem) :
    zero_filled (cbuf_initialize_etc len buf) := by
  intro hr
  have := (cbuf_initialize_etc_fields len buf).2.2.2.2.2.2.2.1
  rw [this] at hr
  exact absurd hr (by decide)

theorem contents_zero {c : cbuf_t} (h : wf c) (hz : ∀ i, i < c.len → c.buf i = 0) :
    ∀ x ∈ contents c, x = 0 := by
  have h1 := h.head_lt
  have h2 := h.tail_lt
  intro x hx
  unfold contents at hx
  split_ifs at hx with hle
  · simp only [bytes, List.mem_map, List.mem_range] at hx
    obtain ⟨k, hk, e⟩ := hx
    rw [← e]
    exact hz _ (by omega)
  · rcases List.mem_append.mp hx with hx | hx
    · simp only [bytes, List.mem_map, List.mem_range] at hx
      obtain ⟨k, hk, e⟩ := hx
      rw [← e]
      exact hz _ (by omega)
    · simp only [bytes, List.mem_map, List.mem_range] at hx
      obtain ⟨k, hk, e⟩ := hx
      rw [← e]
      exact hz _ (by omega)

theorem write_loop_is_reset_none (n : Nat) (en : Bool) :
    ∀ (fuel : Nat) (c : cbuf_t) (pos : Nat),
      (write_loop none n en fuel c pos).1.is_reset = c.is_reset := by
  intro fuel
  induction fuel with
  | zero => intro c pos; rfl
  | succ k ih =>
    intro c pos
    by_cases hc : pos < n ∧ cbuf_space_avail c > 0
    · by_cases hw : cbuf_get_contiguous_space c n pos = 0
      · rw [write_loop_break none n en _ c pos hw]
      · rw [write_loop_step none n en k c pos hc hw, ih, write_pass_is_reset_none]
    · rw [write_loop_stop none n en _ c pos hc]

/-- Where `is_reset` is true over a buffer of zeros, a `NULL` write, which
skips the zero fill, reads back as zeros: after `cbuf_write(NULL, n)` every
byte that a non-blocking `cbuf_read` by a software reader returns is 0. -/
theorem null_write_reads_zeros {c : cbuf_t} (h : wf c) (hz : zero_filled c)
    (hr : c.is_reset = true) (hsr : cbuf_is_sw_reader c = true) (n m : Nat) (cr : Bool)
    (dst : Mem) :
    (cbuf_write c none n cr).1.is_reset = true
    ∧ ∃ r d, cbuf_read (cbuf_write c none n cr).1 (some dst) m false = some r
        ∧ r.2.1 = some d ∧ ∀ x ∈ bytes d 0 r.2.2, x = 0 := by
  obtain ⟨ha, _⟩ := cbuf_write_advanced h none n cr
  have hk := cbuf_write_zero_kept c none n cr
  have hr1 : (cbuf_write c none n cr).1.is_reset = true := by
    have e : (cbuf_write c none n cr).1.is_reset
        = (write_loop none n (cbuf_is_sw_writer c) n c 0).1.is_reset := by
      simp only [cbuf_write, cbuf_write_wo_lock]
      split_ifs <;> rfl
    rw [e, write_loop_is_reset_none, hr]
  have hz1 := zero_filled_of_kept hz hk
  have hsr1 : cbuf_is_sw_reader (cbuf_write c none n cr).1 = true := by
    simp only [cbuf_is_sw_reader, ha.conf.flags_eq] at hsr ⊢
    exact hsr
  obtain ⟨d, hd1, hd2⟩ := cbuf_read_attempt_out ha.wf_out hsr1 dst m false
  refine ⟨hr1, _, d, cbuf_read_nonblock _ _ _, hd1, ?_⟩
  intro x hx
  exact contents_zero ha.wf_out (hz1 hr1) x (by rw [hd2]; exact List.mem_append_left _ hx)

/-! ## The count of a chunked read and of a rewind -/

/-- Where the count of `cbuf_rewind` is right: on a well-formed ring with
`tail ≤ head`, or of a power-of-two length, `cbuf_rewind` returns the number of
bytes stored at entry, and none is stored afterwards. -/
theorem cbuf_rewind_count {c : cbuf_t} (h : wf c)
    (hc : c.tail ≤ c.head ∨ c.len = 2 ^ c.len_pow2) :
    (cbuf_rewind c).2 = used c ∧ used (cbuf_rewind c).1 = 0 := by
  refine ⟨cbuf_space_used_eq h hc, ?_⟩
  show used { c with head := c.tail } = 0
  unfold used
  simp

/-- C3 at a failing input: the fresh ring of length 8 that holds the five bytes
`ABCDE` (`head = 5`, `tail = 0`), with `USE_MAX_CHUNK_R` set, is asked for
`2 ^ 46` bytes.  The chunk count `2 ^ 46 / 16384 = 2 ^ 32` is 0 in the `int`
loop counter, no chunk is read, and `cbuf_read` returns 0 and leaves `tail` at
0, where `min n space_used` is 5; with the flag clear, and with the flag set
and a `NULL` buffer, the same call returns 5 and leaves `tail` at 5. -/
theorem chunked_read_count_zero :
    (abcde_ring.len, abcde_ring.len_pow2, abcde_ring.head, abcde_ring.tail, used abcde_ring)
      = (8, 3, 5, 0, 5)
    ∧ (cbuf_space_used (cbuf_set_flag abcde_ring CBUF_FLAG_USE_MAX_CHUNK_R),
        cbuf_reader_use_max_chunk (cbuf_set_flag abcde_ring CBUF_FLAG_USE_MAX_CHUNK_R),
        min (2 ^ 46) (cbuf_space_used (cbuf_set_flag abcde_ring CBUF_FLAG_USE_MAX_CHUNK_R)),
        chunk_count (2 ^ 46) CBUF_READ_MAX_CHUNK)
      = (5, true, 5, 0)
    ∧ (cbuf_read (cbuf_set_flag abcde_ring CBUF_FLAG_USE_MAX_CHUNK_R)
          (some demo_dst) (2 ^ 46) false).map (fun r => (r.2.2, r.1.tail, r.1.head))
        = some (0, 0, 5)
    ∧ (cbuf_read abcde_ring (some demo_dst) (2 ^ 46) false).map
          (fun r => (r.2.2, r.1.tail, r.1.head)) = some (5, 5, 5)
    ∧ (cbuf_read (cbuf_set_flag abcde_ring CBUF_FLAG_USE_MAX_CHUNK_R)
          none (2 ^ 46) false).map (fun r => (r.2.2, r.1.tail, r.1.head))
        = some (5, 5, 5) := by
  decide

/-- C12 at a failing input: a ring of length 3 after write 2, read 1, write 1
has `head = 0`, `tail = 1` and holds the two bytes 66 and 65,
`(head - tail) mod len = 2`; `cbuf_rewind` sets `head` to `tail`, which discards
both, and returns 0. -/
theorem cbuf_rewind_count_short :
    (run (cbuf_initialize_etc 3 demo_dst) full3_ops).map
        (fun c => (c.head, c.tail, c.len, used c, (cbuf_rewind c).2))
      = some (0, 1, 3, 2, 0)
    ∧ (run (cbuf_initialize_etc 3 demo_dst) full3_ops).map contents = some [66, 65]
    ∧ (run (cbuf_initialize_etc 3 demo_dst) full3_ops).map
        (fun c => ((cbuf_rewind c).1.head, (cbuf_rewind c).1.tail, used (cbuf_rewind c).1))
      = some (1, 1, 0) := by
  decide

end Cbuf
